import Mathlib

/-!
# Normalization kernels of `ggml/src/ggml-sycl/norm.cpp`

A shallow embedding of the four SYCL normalization kernels (`norm_f32`,
`group_norm_f32`, `rms_norm_f32`, `l2_norm_f32`) and of their host dispatch
functions.

* A kernel is embedded as the execution of ONE work-group: every work-item
  ("lane") of the group runs the C++ body, and the collective operations
  (`warp_reduce_sum`, the barrier around the scratch buffer) couple the lanes.
  Between two collectives the lanes are independent, so they are run one after
  the other in lane order.
* The element type `α` is generic: the definitions use only the arithmetic
  operations the C++ uses, so they run on any executable number type; the
  theorems about exact arithmetic instantiate `α := ℝ`, with `sycl::rsqrt`
  passed as a parameter.
* `int` / `int64_t` / `size_t` values are unbounded `Nat` / `Int`
  (no wrap-around is modelled).
* The input buffer and the output buffer are separate memories.
* A kernel returns `none` when a lane loop does not terminate (fuel runs
  out), or when local scratch memory is accessed through a null pointer, out
  of bounds, or before it was written.
-/

namespace SyclNorm

/-! ## Memory, work-group coordinates, loops -/

/-- Device buffer: element offset from the base pointer to element value. -/
abbrev Mem (α : Type) := Int → α

/-- The part of `sycl::nd_item<3>` the kernels read that is common to the lanes
of one work-group along dimension 2: `get_group(i)`, `get_group_range(i)`,
`get_local_range(i)` and the dimension-1 local id (the dimension-2 local id,
`tid`, is the lane index and is supplied lane by lane). -/
structure nd_item where
  group0 : Nat
  group1 : Nat
  group2 : Nat
  group_range1 : Nat
  group_range2 : Nat
  local_range1 : Nat
  local_range2 : Nat
  local_id1 : Nat
deriving Repr, DecidableEq

/-- Indices visited by `for (int j = start; j < stop; j += step)`, with
`start` the second argument after the fuel; `none` when the fuel runs out
before the loop condition fails. -/
def strideIdx (stop step : Nat) : Nat → Nat → Option (List Nat)
  | 0, j => if j < stop then none else some []
  | fuel + 1, j =>
    if j < stop then (strideIdx stop step fuel (j + step)).map (fun js => j :: js)
    else some []

/-- Iteration sequence of `for (int j = start; j < stop; j += step)`; the fuel
`stop` is enough for every positive `step`. -/
def forIdx (start stop step : Nat) : Option (List Nat) :=
  strideIdx stop step stop start

/-- The loop `for (int j = start; j < stop; j += step) s = body(s, j);`. -/
def laneFor {σ : Type} (start stop step : Nat) (body : σ → Nat → σ) (init : σ) : Option σ :=
  (forIdx start stop step).map (fun js => js.foldl body init)

/-- Every lane `tid < n` of the group evaluates `f tid` into a register; the
group fails when one of its lanes fails. -/
def allLanes {β : Type} [Zero β] (n : Nat) (f : Nat → Option β) : Option (Nat → β) :=
  if (List.range n).all (fun t => (f t).isSome) then some (fun t => (f t).getD 0) else none

/-- Every lane `tid < n` of the group runs the storing action `f tid` on the
output buffer. -/
def lanesStore {α : Type} (n : Nat) (f : Nat → Mem α → Option (Mem α)) (m : Mem α) :
    Option (Mem α) :=
  (List.range n).foldlM (fun d t => f t d) m

/-- Every lane `tid < n` of the group runs `f tid`, which both stores to the
output buffer and leaves a value in a register of the lane. -/
def lanesRun {α β : Type} [Zero β] (n : Nat) (f : Nat → Mem α → Option (β × Mem α))
    (m : Mem α) : Option ((Nat → β) × Mem α) :=
  (List.range n).foldlM
    (fun acc t => (f t acc.2).map (fun r => (Function.update acc.1 t r.1, r.2)))
    ((fun _ => 0), m)

/-! ## Helpers of `common.hpp` -/

/-- Modelled from the spec: the macro `WARP_SIZE` (presets.hpp) is the warp
width `W`, a parameter of every definition below; `ceil_div` (common.hpp) is
the `ceil(nwarps / W)` of section 4.2. -/
def ceil_div (a b : Nat) : Nat := (a + b - 1) / b

/-- Modelled from the spec: `calculate_offset<3>` (common.hpp), the address of
a (sample, channel, row) triple under three strides (section 4.3: "derived
from the same (sample, channel, row) triple but via different stride
formulas"). -/
def calculate_offset (strides : Int × Int × Int) (indices : Nat × Nat × Nat) : Int :=
  strides.1 * indices.1 + strides.2.1 * indices.2.1 + strides.2.2 * indices.2.2

/-- Modelled from the spec: the lane a lane exchanges with in a butterfly step
at distance `mask` (section 4.1, "pairwise exchange-and-add between lanes"). -/
def butterfly_partner (mask t : Nat) : Nat :=
  if (t / mask) % 2 = 0 then t + mask else t - mask

/-- Modelled from the spec: one exchange-and-add step of section 4.1. -/
def butterfly_step {β : Type} [Add β] (mask : Nat) (v : Nat → β) : Nat → β :=
  fun t => v t + v (butterfly_partner mask t)

/-- Modelled from the spec: `warp_reduce_sum` (common.hpp), section 4.1:
"`log2(W)` steps of pairwise exchange-and-add between lanes at increasing
distance (butterfly reduction)": one step for each distance `2^j < W`,
`j = 0, 1, ...`. The argument is the value held by every lane of the group,
the result the value every lane holds afterwards. -/
def warp_reduce_sum {β : Type} [Add β] (W : Nat) (v : Nat → β) : Nat → β :=
  (List.range W).foldl (fun u j => if 2 ^ j < W then butterfly_step (2 ^ j) u else u) v

/-! ## The two-level reduction (inlined in each kernel) -/

/-- Local scratch memory after `if (lane_id == 0) s_sum[warp_id] = tmp;` was
run by every lane: slot `i` holds `some y` once written, `none` before.
A store at or beyond the allocated length `len` is a fault. -/
def scratch_store {β : Type} (W nthreads len : Nat) (v : Nat → β) : Option (Nat → Option β) :=
  (List.range nthreads).foldlM
    (fun s tid =>
      if tid % W = 0 then
        (if tid / W < len then some (Function.update s (tid / W) (some (v tid))) else none)
      else some s)
    (fun _ => none)

/-- The read `s_sum[i]`: a fault out of bounds or on a slot never written. -/
def scratch_load {β : Type} (len : Nat) (s : Nat → Option β) (i : Nat) : Option β :=
  if i < len then s i else none

/-- The loop `tmp = 0.f; for (size_t i = 0; i < nreduce; i += 1) tmp += s_sum[lane_id + i * WARP_SIZE];`. -/
def scratch_sum {β : Type} [Zero β] [Add β] (W len nreduce : Nat) (s : Nat → Option β)
    (lane_id : Nat) : Option β :=
  (List.range nreduce).foldlM
    (fun acc i => (scratch_load len s (lane_id + i * W)).map (fun y => acc + y)) 0

/-- The block `tmp = warp_reduce_sum(tmp); if (block_size > WARP_SIZE) { ... }`
that each kernel inlines (norm.cpp lines 34-50, 80-104, 115-139, 178-195,
220-240): warp reduction, lane 0 of each warp stores to scratch slot
`warp_id = tid / W`, barrier, every lane sums `nreduce` scratch slots starting
at its `lane_id = tid % W`, warp reduction again. In `norm_f32` and
`rms_norm_f32` the two indices are written `sg_id` and `wi_in_sg` (sub-group
linear ids); under `reqd_sub_group_size(WARP_SIZE)` and a work-group shape
`(1, 1, nthreads)` they are the same numbers. `s_sum` is the length of the
scratch allocation, `none` for the null pointer. `nreduce` is
`ceil_div(nwarps, WARP_SIZE)` in `norm_f32` and `rms_norm_f32`, and
`nwarps / WARP_SIZE` in `group_norm_f32` and `l2_norm_f32`. -/
def block_reduce {β : Type} [Zero β] [Add β] (W nthreads : Nat) (s_sum : Option Nat)
    (nreduce block_size : Nat) (v : Nat → β) : Option (Nat → β) :=
  let v1 := warp_reduce_sum W v
  if block_size > W then do
    let len ← s_sum
    let s ← scratch_store W nthreads len v1
    let v2 ← allLanes nthreads (fun tid => scratch_sum W len nreduce s (tid % W))
    pure (warp_reduce_sum W v2)
  else some v1

/-! ## The kernels -/

/-- Lines 19 and 163: `strided_offset`, the start of the group's row in the
input buffer. -/
def strided_offset (stride_row stride_channel stride_sample : Int) (item_ct1 : nd_item) : Int :=
  calculate_offset (stride_sample, stride_channel, stride_row)
    (item_ct1.group0, item_ct1.group1, item_ct1.group2)

/-- Lines 20 and 164: `packed_offset`, the start of the group's row in the
output buffer, with `nrows = get_group_range(2)` and
`nchannels = get_group_range(1)`. -/
def packed_offset (ncols : Nat) (item_ct1 : nd_item) : Int :=
  calculate_offset
    (((item_ct1.group_range1 * item_ct1.group_range2 * ncols : Nat) : Int),
      ((item_ct1.group_range2 * ncols : Nat) : Int), (ncols : Int))
    (item_ct1.group0, item_ct1.group1, item_ct1.group2)

section Kernels

variable {α : Type} [Zero α] [Add α] [Sub α] [Mul α] [Div α] [NatCast α]

/-- Lines 8-50 of `norm_f32`: the (sum, sum of squares) pair every lane holds
after the reduction. -/
def norm_f32_mean_var (W : Nat) (x : Mem α) (ncols : Nat)
    (stride_row stride_channel stride_sample : Int) (item_ct1 : nd_item)
    (s_sum : Option Nat) (block_size : Nat) : Option (Nat → α × α) := do
  let nthreads := item_ct1.local_range2
  let nwarps := nthreads / W
  let strided_offset := strided_offset stride_row stride_channel stride_sample item_ct1
  let mean_var ← allLanes nthreads (fun tid =>
    laneFor tid ncols block_size
      (fun (mv : α × α) col =>
        let xi := x (strided_offset + col)
        (mv.1 + xi, mv.2 + xi * xi))
      (0, 0))
  block_reduce W nthreads s_sum (ceil_div nwarps W) block_size mean_var

/-- Kernel `norm_f32` run by the work-group `item_ct1`: the output buffer
after the group finished. -/
def norm_f32 (W : Nat) (rsqrt : α → α) (x dst : Mem α) (ncols : Nat)
    (stride_row stride_channel stride_sample : Int) (eps : α) (item_ct1 : nd_item)
    (s_sum : Option Nat) (block_size : Nat) : Option (Mem α) := do
  let nthreads := item_ct1.local_range2
  let strided_offset := strided_offset stride_row stride_channel stride_sample item_ct1
  let packed_offset := packed_offset ncols item_ct1
  let mean_var ← norm_f32_mean_var W x ncols stride_row stride_channel stride_sample
    item_ct1 s_sum block_size
  lanesStore nthreads (fun tid d =>
    let mean := (mean_var tid).1 / (ncols : α)
    let var := (mean_var tid).2 / (ncols : α) - mean * mean
    let inv_std := rsqrt (var + eps)
    laneFor tid ncols block_size
      (fun d col => Function.update d (packed_offset + col)
        ((x (strided_offset + col) - mean) * inv_std))
      d) dst

/-- Lines 63-72 of `group_norm_f32`: `start` before the lane's local id is
added. -/
def group_start (group_size : Nat) (item_ct1 : nd_item) : Nat :=
  item_ct1.group2 * group_size

/-- Lines 64-72 of `group_norm_f32`: `end` after the clamp to `ne_elements`. -/
def group_end (group_size ne_elements : Nat) (item_ct1 : nd_item) : Nat :=
  if group_start group_size item_ct1 + group_size ≥ ne_elements then ne_elements
  else group_start group_size item_ct1 + group_size

/-- Lines 63-104 of `group_norm_f32`: the sum every lane holds after the first
reduction. -/
def group_norm_f32_sum (W : Nat) (x : Mem α) (group_size ne_elements : Nat)
    (item_ct1 : nd_item) (s_sum : Option Nat) (block_size : Nat) : Option (Nat → α) := do
  let start := group_start group_size item_ct1
  let end1 := group_end group_size ne_elements item_ct1
  let nthreads := item_ct1.local_range2
  let nwarps := nthreads / W
  let nreduce := nwarps / W
  let tmp ← allLanes nthreads (fun tid =>
    laneFor (start + tid) end1 block_size (fun (tmp : α) j => tmp + x (j : Int)) 0)
  block_reduce W nthreads s_sum nreduce block_size tmp

/-- Lines 63-139 of `group_norm_f32`: the sum of squared deviations every lane
holds after the second reduction, and the output buffer, which then holds the
deviations from the mean. -/
def group_norm_f32_sumsq (W : Nat) (x dst : Mem α) (group_size ne_elements : Nat)
    (item_ct1 : nd_item) (s_sum : Option Nat) (block_size : Nat) :
    Option ((Nat → α) × Mem α) := do
  let start := group_start group_size item_ct1
  let end1 := group_end group_size ne_elements item_ct1
  let nthreads := item_ct1.local_range2
  let nwarps := nthreads / W
  let nreduce := nwarps / W
  let tmp ← group_norm_f32_sum W x group_size ne_elements item_ct1 s_sum block_size
  let r ← lanesRun nthreads (fun tid d =>
    let mean := tmp tid / (group_size : α)
    laneFor (start + tid) end1 block_size
      (fun (s : α × Mem α) j =>
        let xi := x (j : Int) - mean
        (s.1 + xi * xi, Function.update s.2 (j : Int) xi))
      (0, d)) dst
  let tmp ← block_reduce W nthreads s_sum nreduce block_size r.1
  pure (tmp, r.2)

/-- Kernel `group_norm_f32` run by the work-group `item_ct1`. -/
def group_norm_f32 (W : Nat) (rsqrt : α → α) (x dst : Mem α) (group_size ne_elements : Nat)
    (eps : α) (item_ct1 : nd_item) (s_sum : Option Nat) (block_size : Nat) :
    Option (Mem α) := do
  let start := group_start group_size item_ct1
  let end1 := group_end group_size ne_elements item_ct1
  let nthreads := item_ct1.local_range2
  let r ← group_norm_f32_sumsq W x dst group_size ne_elements item_ct1 s_sum block_size
  lanesStore nthreads (fun tid d =>
    let variance := r.1 tid / (group_size : α)
    let scale := rsqrt (variance + eps)
    laneFor (start + tid) end1 block_size
      (fun d j => Function.update d (j : Int) (d (j : Int) * scale))
      d) r.2

/-- Lines 151-195 of `rms_norm_f32`: the sum of squares every lane holds after
the reduction. -/
def rms_norm_f32_sumsq (W : Nat) (x : Mem α) (ncols : Nat)
    (stride_row stride_channel stride_sample : Int) (item_ct1 : nd_item)
    (s_sum : Option Nat) (block_size : Nat) : Option (Nat → α) := do
  let nthreads := item_ct1.local_range2
  let nwarps := nthreads / W
  let strided_offset := strided_offset stride_row stride_channel stride_sample item_ct1
  let tmp ← allLanes nthreads (fun tid =>
    laneFor tid ncols block_size
      (fun (tmp : α) col =>
        let xi := x (strided_offset + col)
        tmp + xi * xi)
      0)
  block_reduce W nthreads s_sum (ceil_div nwarps W) block_size tmp

/-- Kernel `rms_norm_f32` run by the work-group `item_ct1`. -/
def rms_norm_f32 (W : Nat) (rsqrt : α → α) (x dst : Mem α) (ncols : Nat)
    (stride_row stride_channel stride_sample : Int) (eps : α) (item_ct1 : nd_item)
    (s_sum : Option Nat) (block_size : Nat) : Option (Mem α) := do
  let nthreads := item_ct1.local_range2
  let strided_offset := strided_offset stride_row stride_channel stride_sample item_ct1
  let packed_offset := packed_offset ncols item_ct1
  let tmp ← rms_norm_f32_sumsq W x ncols stride_row stride_channel stride_sample
    item_ct1 s_sum block_size
  lanesStore nthreads (fun tid d =>
    let mean := tmp tid / (ncols : α)
    let scale := rsqrt (mean + eps)
    laneFor tid ncols block_size
      (fun d col => Function.update d (packed_offset + col) (scale * x (strided_offset + col)))
      d) dst

/-- Lines 207-208 of `l2_norm_f32`: the row handled by the work-group. -/
def l2_norm_row (item_ct1 : nd_item) : Nat :=
  item_ct1.group2 * item_ct1.local_range1 + item_ct1.local_id1

/-- Lines 207-240 of `l2_norm_f32`: the sum of squares every lane holds after
the reduction. -/
def l2_norm_f32_sumsq (W : Nat) (x : Mem α) (ncols : Nat) (item_ct1 : nd_item)
    (s_sum : Option Nat) (block_size : Nat) : Option (Nat → α) := do
  let row := l2_norm_row item_ct1
  let nthreads := item_ct1.local_range2
  let nwarps := nthreads / W
  let tmp ← allLanes nthreads (fun tid =>
    laneFor tid ncols block_size
      (fun (tmp : α) col =>
        let xi := x ((row * ncols + col : Nat) : Int)
        tmp + xi * xi)
      0)
  block_reduce W nthreads s_sum (nwarps / W) block_size tmp

/-- Kernel `l2_norm_f32` run by the work-group `item_ct1`. -/
def l2_norm_f32 [Max α] (W : Nat) (rsqrt : α → α) (x dst : Mem α) (ncols : Nat) (eps : α)
    (item_ct1 : nd_item) (s_sum : Option Nat) (block_size : Nat) : Option (Mem α) := do
  let row := l2_norm_row item_ct1
  let nthreads := item_ct1.local_range2
  let tmp ← l2_norm_f32_sumsq W x ncols item_ct1 s_sum block_size
  lanesStore nthreads (fun tid d =>
    let scale := rsqrt (max (tmp tid) (eps * eps))
    laneFor tid ncols block_size
      (fun d col => Function.update d ((row * ncols + col : Nat) : Int)
        (scale * x ((row * ncols + col : Nat) : Int)))
      d) dst

end Kernels

/-! ## Host dispatch functions -/

/-- What a dispatch function submits: the number of work-groups per dimension
(`global_dims`), the work-group shape (`block_dims`), the local scratch
allocation passed as `s_sum` (`none` for `nullptr`, `some len` for a
`local_accessor` of `len` entries) and the `block_size` kernel argument. -/
structure Launch where
  global_dims : Nat × Nat × Nat
  block_dims : Nat × Nat × Nat
  s_sum : Option Nat
  block_size : Nat
deriving Repr, DecidableEq

/-- Launch decision of `norm_f32_sycl` (lines 253-283): `GGML_ASSERT` and
`assert` are modelled as checked, a failure is `Except.error`. The table
`max_work_group_sizes` stands for `ggml_sycl_info().max_work_group_sizes`. -/
def norm_f32_sycl_launch (W ncols nrows nchannels nsamples : Nat)
    (max_work_group_sizes : Nat → Nat) (device : Nat) : Except String Launch :=
  let global_dims := (nsamples, nchannels, nrows)
  if ncols % W ≠ 0 then .error "GGML_ASSERT(ncols % WARP_SIZE == 0)"
  else if ncols < 1024 then
    .ok { global_dims := global_dims, block_dims := (1, 1, W), s_sum := none, block_size := W }
  else
    let work_group_size := max_work_group_sizes device
    if work_group_size % (W * W) ≠ 0 then
      .error "assert(work_group_size % (WARP_SIZE * WARP_SIZE) == 0)"
    else
      .ok { global_dims := global_dims, block_dims := (1, 1, work_group_size),
            s_sum := some (work_group_size / W), block_size := work_group_size }

/-- Launch decision of `group_norm_f32_sycl` (lines 289-322). -/
def group_norm_f32_sycl_launch (W num_groups group_size : Nat)
    (max_work_group_sizes : Nat → Nat) (device : Nat) : Except String Launch :=
  if group_size < 1024 then
    .ok { global_dims := (1, 1, num_groups), block_dims := (1, 1, W), s_sum := none,
          block_size := W }
  else
    let work_group_size := max_work_group_sizes device
    if work_group_size % (W * W) ≠ 0 then
      .error "assert(work_group_size % (WARP_SIZE * WARP_SIZE) == 0)"
    else
      .ok { global_dims := (1, 1, num_groups), block_dims := (1, 1, work_group_size),
            s_sum := some (work_group_size / W), block_size := work_group_size }

/-- Launch decision of `rms_norm_f32_sycl` (lines 327-359). -/
def rms_norm_f32_sycl_launch (W ncols nrows nchannels nsamples : Nat)
    (max_work_group_sizes : Nat → Nat) (device : Nat) : Except String Launch :=
  if ncols % W ≠ 0 then .error "GGML_ASSERT(ncols % WARP_SIZE == 0)"
  else
    let global_dims := (nsamples, nchannels, nrows)
    if ncols < 1024 then
      .ok { global_dims := global_dims, block_dims := (1, 1, W), s_sum := none, block_size := W }
    else
      let work_group_size := max_work_group_sizes device
      if work_group_size % (W * W) ≠ 0 then
        .error "assert(work_group_size % (WARP_SIZE * WARP_SIZE) == 0)"
      else
        .ok { global_dims := global_dims, block_dims := (1, 1, work_group_size),
              s_sum := some (work_group_size / W), block_size := work_group_size }

/-- Launch decision of `l2_norm_f32_sycl` (lines 365-394). -/
def l2_norm_f32_sycl_launch (W ncols nrows : Nat)
    (max_work_group_sizes : Nat → Nat) (device : Nat) : Except String Launch :=
  if ncols % W ≠ 0 then .error "GGML_ASSERT(ncols % WARP_SIZE == 0)"
  else if ncols < 1024 then
    .ok { global_dims := (1, 1, nrows), block_dims := (1, 1, W), s_sum := none, block_size := W }
  else
    let work_group_size := max_work_group_sizes device
    if work_group_size % (W * W) ≠ 0 then
      .error "assert(work_group_size % (WARP_SIZE * WARP_SIZE) == 0)"
    else
      .ok { global_dims := (1, 1, nrows), block_dims := (1, 1, work_group_size),
            s_sum := some (work_group_size / W), block_size := work_group_size }

/-- The work-groups of a grid, `get_group(0)` slowest. -/
def gridGroups (global_dims : Nat × Nat × Nat) : List (Nat × Nat × Nat) :=
  (List.range global_dims.1).flatMap fun g0 =>
    (List.range global_dims.2.1).flatMap fun g1 =>
      (List.range global_dims.2.2).map fun g2 => (g0, g1, g2)

/-- The `nd_item` coordinates of work-group `g` of a launch
(`nd_range(global_dims * block_dims, block_dims)`); the dimension-1 local id is 0
because every dispatch function uses `block_dims = (1, 1, width)`. -/
def Launch.item (l : Launch) (g : Nat × Nat × Nat) : nd_item :=
  { group0 := g.1, group1 := g.2.1, group2 := g.2.2,
    group_range1 := l.global_dims.2.1, group_range2 := l.global_dims.2.2,
    local_range1 := l.block_dims.2.1, local_range2 := l.block_dims.2.2, local_id1 := 0 }

/-- `sycl_parallel_for` over the launch: every work-group of the grid runs the
kernel; the groups are independent and are run one after the other. -/
def parallel_for {α : Type} (l : Launch)
    (kernel : nd_item → Option Nat → Nat → Mem α → Option (Mem α)) (dst : Mem α) :
    Option (Mem α) :=
  (gridGroups l.global_dims).foldlM (fun d g => kernel (l.item g) l.s_sum l.block_size d) dst

section Dispatch

variable {α : Type} [Zero α] [Add α] [Sub α] [Mul α] [Div α] [NatCast α]

/-- Host function `norm_f32_sycl`: the output buffer after the launch, or the
failed assertion; a kernel fault is reported as an error as well. -/
def norm_f32_sycl (W : Nat) (rsqrt : α → α) (x dst : Mem α)
    (ncols nrows nchannels nsamples : Nat) (stride_row stride_channel stride_sample : Int)
    (eps : α) (max_work_group_sizes : Nat → Nat) (device : Nat) : Except String (Mem α) := do
  let l ← norm_f32_sycl_launch W ncols nrows nchannels nsamples max_work_group_sizes device
  match parallel_for l (fun item_ct1 s_sum block_size d =>
      norm_f32 W rsqrt x d ncols stride_row stride_channel stride_sample eps item_ct1 s_sum
        block_size) dst with
  | some d => .ok d
  | none => .error "kernel fault"

/-- Host function `group_norm_f32_sycl`. -/
def group_norm_f32_sycl (W : Nat) (rsqrt : α → α) (x dst : Mem α) (num_groups : Nat) (eps : α)
    (group_size ne_elements : Nat) (max_work_group_sizes : Nat → Nat) (device : Nat) :
    Except String (Mem α) := do
  let l ← group_norm_f32_sycl_launch W num_groups group_size max_work_group_sizes device
  match parallel_for l (fun item_ct1 s_sum block_size d =>
      group_norm_f32 W rsqrt x d group_size ne_elements eps item_ct1 s_sum block_size) dst with
  | some d => .ok d
  | none => .error "kernel fault"

/-- Host function `rms_norm_f32_sycl`. -/
def rms_norm_f32_sycl (W : Nat) (rsqrt : α → α) (x dst : Mem α)
    (ncols nrows nchannels nsamples : Nat) (stride_row stride_channel stride_sample : Int)
    (eps : α) (max_work_group_sizes : Nat → Nat) (device : Nat) : Except String (Mem α) := do
  let l ← rms_norm_f32_sycl_launch W ncols nrows nchannels nsamples max_work_group_sizes device
  match parallel_for l (fun item_ct1 s_sum block_size d =>
      rms_norm_f32 W rsqrt x d ncols stride_row stride_channel stride_sample eps item_ct1 s_sum
        block_size) dst with
  | some d => .ok d
  | none => .error "kernel fault"

/-- Host function `l2_norm_f32_sycl`. -/
def l2_norm_f32_sycl [Max α] (W : Nat) (rsqrt : α → α) (x dst : Mem α) (ncols nrows : Nat)
    (eps : α) (max_work_group_sizes : Nat → Nat) (device : Nat) : Except String (Mem α) := do
  let l ← l2_norm_f32_sycl_launch W ncols nrows max_work_group_sizes device
  match parallel_for l (fun item_ct1 s_sum block_size d =>
      l2_norm_f32 W rsqrt x d ncols eps item_ct1 s_sum block_size) dst with
  | some d => .ok d
  | none => .error "kernel fault"

end Dispatch

/-! ## Operation entry points -/

/-- Modelled from the spec: the element type tag of a tensor descriptor
(section 6, `ggml_type` of ggml.h); the entry points only tell 32-bit float
from the other types. -/
inductive ggml_type where
  | GGML_TYPE_F32
  | GGML_TYPE_F16
  | GGML_TYPE_I32
deriving Repr, DecidableEq

/-- Modelled from the spec: the tensor descriptor of section 6 (`ggml_tensor`
of ggml.h): element type tag, the four dimension lengths `ne[0..3]`, the four
byte strides `nb[0..3]` and the data buffer. -/
structure ggml_tensor (α : Type) where
  type : ggml_type
  ne0 : Nat
  ne1 : Nat
  ne2 : Nat
  ne3 : Nat
  nb0 : Nat
  nb1 : Nat
  nb2 : Nat
  nb3 : Nat
  data : Mem α

/-- Modelled from the spec: `ggml_nrows` (ggml.h), the number of rows of a
4-D tensor (sections 3 and 4.6: every row below the innermost dimension). -/
def ggml_nrows {α : Type} (t : ggml_tensor α) : Nat :=
  t.ne1 * t.ne2 * t.ne3

/-- Line 436 of `ggml_sycl_op_group_norm`: `group_size`. -/
def group_norm_group_size {α : Type} (src0 : ggml_tensor α) (num_groups : Nat) : Nat :=
  src0.ne0 * src0.ne1 * ((src0.ne2 + num_groups - 1) / num_groups)

/-- Line 437 of `ggml_sycl_op_group_norm`: the `ne_elements` argument passed
to `group_norm_f32_sycl`. -/
def group_norm_ne_elements {α : Type} (src0 : ggml_tensor α) : Nat :=
  src0.ne0 * src0.ne1 * src0.ne2

section EntryPoints

variable {α : Type} [Zero α] [Add α] [Sub α] [Mul α] [Div α] [NatCast α]

/-- Entry point `ggml_sycl_op_norm` (lines 397-419). `src0` is `dst->src[0]`,
`eps` the float copied out of `dst->op_params`; `ggml_type_size` stands for
the function of ggml.h. A failed `GGML_ASSERT` is `Except.error`. -/
def ggml_sycl_op_norm [LE α] [DecidableRel (fun a b : α => a ≤ b)] (W : Nat) (rsqrt : α → α)
    (ggml_type_size : ggml_type → Nat) (max_work_group_sizes : Nat → Nat) (device : Nat)
    (src0 dst : ggml_tensor α) (eps : α) : Except String (Mem α) :=
  if src0.type = ggml_type.GGML_TYPE_F32 then
    if dst.type = ggml_type.GGML_TYPE_F32 then
      if (0 : α) ≤ eps then
        let ts0 := ggml_type_size src0.type
        if src0.nb0 = ts0 then
          let s01 : Int := ((src0.nb1 / ts0 : Nat) : Int)
          let s02 : Int := ((src0.nb2 / ts0 : Nat) : Int)
          let s03 : Int := ((src0.nb3 / ts0 : Nat) : Int)
          norm_f32_sycl W rsqrt src0.data dst.data src0.ne0 src0.ne1 src0.ne2 src0.ne3
            s01 s02 s03 eps max_work_group_sizes device
        else .error "GGML_ASSERT(nb00 == ts0)"
      else .error "GGML_ASSERT(eps >= 0.0f)"
    else .error "GGML_ASSERT(dst->type == GGML_TYPE_F32)"
  else .error "GGML_ASSERT(dst->src[0]->type == GGML_TYPE_F32)"

/-- Entry point `ggml_sycl_op_group_norm` (lines 421-438); `num_groups` is
`dst->op_params[0]`, `eps` the float copied out of `dst->op_params + 1`. -/
def ggml_sycl_op_group_norm (W : Nat) (rsqrt : α → α) (max_work_group_sizes : Nat → Nat)
    (device : Nat) (src0 dst : ggml_tensor α) (num_groups : Nat) (eps : α) :
    Except String (Mem α) :=
  if src0.type = ggml_type.GGML_TYPE_F32 then
    if dst.type = ggml_type.GGML_TYPE_F32 then
      let group_size := group_norm_group_size src0 num_groups
      group_norm_f32_sycl W rsqrt src0.data dst.data num_groups eps group_size
        (group_norm_ne_elements src0) max_work_group_sizes device
    else .error "GGML_ASSERT(dst->type == GGML_TYPE_F32)"
  else .error "GGML_ASSERT(dst->src[0]->type == GGML_TYPE_F32)"

/-- Entry point `ggml_sycl_op_rms_norm` (lines 440-462). -/
def ggml_sycl_op_rms_norm (W : Nat) (rsqrt : α → α)
    (ggml_type_size : ggml_type → Nat) (max_work_group_sizes : Nat → Nat) (device : Nat)
    (src0 dst : ggml_tensor α) (eps : α) : Except String (Mem α) :=
  if src0.type = ggml_type.GGML_TYPE_F32 then
    if dst.type = ggml_type.GGML_TYPE_F32 then
      let ts0 := ggml_type_size src0.type
      if src0.nb0 = ts0 then
        let s01 : Int := ((src0.nb1 / ts0 : Nat) : Int)
        let s02 : Int := ((src0.nb2 / ts0 : Nat) : Int)
        let s03 : Int := ((src0.nb3 / ts0 : Nat) : Int)
        rms_norm_f32_sycl W rsqrt src0.data dst.data src0.ne0 src0.ne1 src0.ne2 src0.ne3
          s01 s02 s03 eps max_work_group_sizes device
      else .error "GGML_ASSERT(nb00 == ts0)"
    else .error "GGML_ASSERT(dst->type == GGML_TYPE_F32)"
  else .error "GGML_ASSERT(dst->src[0]->type == GGML_TYPE_F32)"

/-- Entry point `ggml_sycl_op_l2_norm` (lines 464-482). -/
def ggml_sycl_op_l2_norm [Max α] (W : Nat) (rsqrt : α → α) (max_work_group_sizes : Nat → Nat)
    (device : Nat) (src0 dst : ggml_tensor α) (eps : α) : Except String (Mem α) :=
  if src0.type = ggml_type.GGML_TYPE_F32 then
    if dst.type = ggml_type.GGML_TYPE_F32 then
      let ne00 := src0.ne0
      let nrows := ggml_nrows src0
      l2_norm_f32_sycl W rsqrt src0.data dst.data ne00 nrows eps max_work_group_sizes device
    else .error "GGML_ASSERT(dst->type == GGML_TYPE_F32)"
  else .error "GGML_ASSERT(dst->src[0]->type == GGML_TYPE_F32)"

end EntryPoints

/-! ## Index traces of the loops -/

/-- Indices of `[j, stop)` at a distance from `j` that is a multiple of `step`:
the set a lane loop starting at `j` visits. -/
def laneSet (j stop step : Nat) : Finset Nat :=
  (Finset.Ico j stop).filter (fun c => (c - j) % step = 0)

/-- The iteration list of a lane loop, empty when the loop does not terminate. -/
def laneIdx (start stop step : Nat) : List Nat := (forIdx start stop step).getD []

/-- Sum of `v` over the aligned block of `2^j` lanes with block index `q`. -/
def blockSum {β : Type} [AddCommMonoid β] (v : Nat → β) (j q : Nat) : β :=
  ∑ l in Finset.range (2 ^ j), v (q * 2 ^ j + l)

/-- Launch shapes under which the two-level reduction is used: the loop stride
`block_size` is the group width `nthreads`, and the group is either a single
warp, or a positive multiple of `W * W` lanes with a scratch buffer of
`nthreads / W` entries. -/
def ValidShape (W nthreads block_size : Nat) (s_sum : Option Nat) : Prop :=
  block_size = nthreads ∧
    (nthreads = W ∨ (0 < nthreads ∧ nthreads % (W * W) = 0 ∧ s_sum = some (nthreads / W)))

/-- Sum of the `n` elements of the row that starts at offset `off`. -/
def rowSum {α : Type} [AddCommMonoid α] (x : Mem α) (off : Int) (n : Nat) : α :=
  ∑ c in Finset.range n, x (off + c)

/-- Sum of the squares of the `n` elements of the row that starts at `off`. -/
def rowSumSq {α : Type} [AddCommMonoid α] [Mul α] (x : Mem α) (off : Int) (n : Nat) : α :=
  ∑ c in Finset.range n, x (off + c) * x (off + c)

/-- Mean of the row: `(sum of the whole row) / ncols`. -/
def rowMean {α : Type} [Field α] (x : Mem α) (off : Int) (n : Nat) : α :=
  rowSum x off n / (n : α)

/-- One-pass variance of the row: `(sum of squares) / ncols - mean^2`. -/
def rowVar {α : Type} [Field α] (x : Mem α) (off : Int) (n : Nat) : α :=
  rowSumSq x off n / (n : α) - rowMean x off n * rowMean x off n

/-- The dispatch policy for an innermost length `n` on a device of maximum
group width `wgs`: below 1024 a single warp (`block_dims = (1, 1, W)`,
`block_size = W`, null scratch pointer), otherwise the device width with a
scratch buffer of `wgs / W` entries. -/
def DispatchPolicy (W n wgs : Nat) (l : Launch) : Prop :=
  (n < 1024 → l.block_dims = (1, 1, W) ∧ l.block_size = W ∧ l.s_sum = none) ∧
  (¬ n < 1024 →
    l.block_dims = (1, 1, wgs) ∧ l.block_size = wgs ∧ l.s_sum = some (wgs / W))

/-- Sum of the elements at the offsets `[a, b)`. -/
def rangeSum {α : Type} [AddCommMonoid α] (x : Mem α) (a b : Nat) : α :=
  ∑ j in Finset.Ico a b, x (j : Int)

/-- Sum over the offsets `[a, b)` of the squared deviations from `m`. -/
def rangeSumSqDev {α : Type} [Field α] (x : Mem α) (m : α) (a b : Nat) : α :=
  ∑ j in Finset.Ico a b, (x (j : Int) - m) * (x (j : Int) - m)


/-! ## Lemmas -/

theorem strideIdx_spec (stop step : Nat) (hstep : 0 < step) :
    ∀ fuel j, stop ≤ fuel + j →
      ∃ l, strideIdx stop step fuel j = some l ∧ l.Nodup ∧
        ∀ c, c ∈ l ↔ (j ≤ c ∧ c < stop ∧ (c - j) % step = 0) := by
  intro fuel
  induction fuel with
  | zero =>
    intro j hj
    refine ⟨[], ?_, List.nodup_nil, ?_⟩
    · have : ¬ j < stop := by omega
      simp [strideIdx, this]
    · intro c
      simp only [List.not_mem_nil, false_iff]
      omega
  | succ fuel ih =>
    intro j hj
    by_cases hlt : j < stop
    · obtain ⟨l, hl, hnd, hmem⟩ := ih (j + step) (by omega)
      refine ⟨j :: l, ?_, ?_, ?_⟩
      · simp [strideIdx, hlt, hl]
      · refine List.nodup_cons.mpr ⟨?_, hnd⟩
        intro hjl
        have := (hmem j).1 hjl
        omega
      · intro c
        rw [List.mem_cons, hmem]
        constructor
        · rintro (rfl | ⟨h1, h2, h3⟩)
          · simp [hlt]
          · refine ⟨by omega, h2, ?_⟩
            have : c - j = (c - (j + step)) + step := by omega
            rw [this, Nat.add_mod_right]
            exact h3
        · rintro ⟨h1, h2, h3⟩
          by_cases hc : c = j
          · exact Or.inl hc
          · right
            have hd : step ∣ c - j := Nat.dvd_of_mod_eq_zero h3
            have hle : step ≤ c - j := Nat.le_of_dvd (by omega) hd
            refine ⟨by omega, h2, ?_⟩
            have : c - j = (c - (j + step)) + step := by omega
            rw [this, Nat.add_mod_right] at h3
            exact h3
    · refine ⟨[], ?_, List.nodup_nil, ?_⟩
      · simp [strideIdx, hlt]
      · intro c
        simp only [List.not_mem_nil, false_iff]
        omega

theorem forIdx_spec (start stop step : Nat) (hstep : 0 < step) :
    ∃ l, forIdx start stop step = some l ∧ l.Nodup ∧ l.toFinset = laneSet start stop step := by
  obtain ⟨l, hl, hnd, hmem⟩ := strideIdx_spec stop step hstep stop start (by omega)
  refine ⟨l, hl, hnd, ?_⟩
  ext c
  simp only [List.mem_toFinset, hmem, laneSet, Finset.mem_filter, Finset.mem_Ico]
  tauto


theorem forIdx_eq (start stop step : Nat) (hstep : 0 < step) :
    forIdx start stop step = some (laneIdx start stop step) := by
  obtain ⟨l, hl, -, -⟩ := forIdx_spec start stop step hstep
  simp [laneIdx, hl]

theorem laneIdx_nodup (start stop step : Nat) (hstep : 0 < step) :
    (laneIdx start stop step).Nodup := by
  obtain ⟨l, hl, hnd, -⟩ := forIdx_spec start stop step hstep
  simpa [laneIdx, hl] using hnd

theorem laneIdx_toFinset (start stop step : Nat) (hstep : 0 < step) :
    (laneIdx start stop step).toFinset = laneSet start stop step := by
  obtain ⟨l, hl, -, hs⟩ := forIdx_spec start stop step hstep
  simpa [laneIdx, hl] using hs

theorem laneFor_eq {σ : Type} (start stop step : Nat) (hstep : 0 < step) (body : σ → Nat → σ)
    (init : σ) :
    laneFor start stop step body init = some ((laneIdx start stop step).foldl body init) := by
  simp [laneFor, forIdx_eq start stop step hstep]

/-- Lane `y` of a group that strides by `step` from `start` visits the indices
of `[start, stop)` whose distance from `start` is `y` modulo `step`. -/
theorem laneSet_eq_filter (start stop step y : Nat) (hy : y < step) :
    laneSet (start + y) stop step
      = (Finset.Ico start stop).filter (fun c => (c - start) % step = y) := by
  ext c
  simp only [laneSet, Finset.mem_filter, Finset.mem_Ico]
  constructor
  · rintro ⟨⟨h1, h2⟩, h3⟩
    refine ⟨⟨by omega, h2⟩, ?_⟩
    have hk := Nat.mod_add_div (c - (start + y)) step
    rw [h3, zero_add] at hk
    have : c - start = y + step * ((c - (start + y)) / step) := by omega
    rw [this, Nat.add_mul_mod_self_left, Nat.mod_eq_of_lt hy]
  · rintro ⟨⟨h1, h2⟩, h3⟩
    have hk := Nat.mod_add_div (c - start) step
    rw [h3] at hk
    have hle : y ≤ c - start := by
      rw [← hk]; exact Nat.le_add_right _ _
    refine ⟨⟨by omega, h2⟩, ?_⟩
    have : c - (start + y) = step * ((c - start) / step) := by omega
    rw [this, Nat.mul_mod_right]

theorem sum_lanes_eq {β : Type} [AddCommMonoid β] (f : Nat → β) (start stop step : Nat)
    (hstep : 0 < step) :
    ∑ t in Finset.range step, ∑ c in laneSet (start + t) stop step, f c
      = ∑ c in Finset.Ico start stop, f c := by
  rw [← Finset.sum_fiberwise_of_maps_to (s := Finset.Ico start stop) (t := Finset.range step)
    (g := fun c => (c - start) % step) (fun c _ => Finset.mem_range.mpr (Nat.mod_lt _ hstep)) f]
  refine Finset.sum_congr rfl (fun t ht => ?_)
  rw [laneSet_eq_filter start stop step t (Finset.mem_range.mp ht)]

theorem foldl_add_eq_sum {β : Type} [AddCommMonoid β] (f : Nat → β) :
    ∀ (l : List Nat), l.Nodup → ∀ a : β,
      l.foldl (fun acc c => acc + f c) a = a + ∑ c in l.toFinset, f c := by
  intro l
  induction l with
  | nil => intro _ a; simp
  | cons c l ih =>
    intro hnd a
    have hc : c ∉ l.toFinset := by
      rw [List.mem_toFinset]; exact (List.nodup_cons.mp hnd).1
    rw [List.foldl_cons, ih (List.nodup_cons.mp hnd).2, List.toFinset_cons,
      Finset.sum_insert hc, add_assoc]

theorem laneFor_sum {β : Type} [AddCommMonoid β] (f : Nat → β) (start stop step : Nat)
    (hstep : 0 < step) :
    laneFor start stop step (fun acc c => acc + f c) 0
      = some (∑ c in laneSet start stop step, f c) := by
  rw [laneFor_eq start stop step hstep,
    foldl_add_eq_sum f _ (laneIdx_nodup start stop step hstep),
    laneIdx_toFinset start stop step hstep, zero_add]


/-! memory folds -/

theorem foldl_update_not_mem {α : Type} (e : Nat → Int) (h : Nat → α → α) :
    ∀ (l : List Nat) (d : Mem α) (a : Int), (∀ c ∈ l, e c ≠ a) →
      (l.foldl (fun d c => Function.update d (e c) (h c (d (e c)))) d) a = d a := by
  intro l
  induction l with
  | nil => intro d a _; rfl
  | cons c l ih =>
    intro d a hne
    rw [List.foldl_cons, ih _ a (fun c' hc' => hne c' (List.mem_cons_of_mem _ hc'))]
    exact Function.update_noteq (hne c (List.mem_cons_self _ _)).symm _ _

theorem foldl_update_mem {α : Type} (e : Nat → Int) (he : Function.Injective e)
    (h : Nat → α → α) :
    ∀ (l : List Nat), l.Nodup → ∀ (d : Mem α) (c : Nat), c ∈ l →
      (l.foldl (fun d c => Function.update d (e c) (h c (d (e c)))) d) (e c) = h c (d (e c)) := by
  intro l
  induction l with
  | nil => intro _ d c hc; simp at hc
  | cons c0 l ih =>
    intro hnd d c hc
    obtain ⟨hc0, hnd'⟩ := List.nodup_cons.mp hnd
    rw [List.foldl_cons]
    rcases List.mem_cons.mp hc with rfl | hcl
    · rw [foldl_update_not_mem e h l _ (e c)
        (fun c' hc' heq => hc0 (he heq ▸ hc'))]
      exact Function.update_same _ _ _
    · rw [ih hnd' _ c hcl]
      have hne : e c ≠ e c0 := fun heq => hc0 (he heq ▸ hcl)
      rw [Function.update_noteq hne]

theorem foldl_pair {α β : Type} [Add β] (e : Nat → Int) (f : Nat → β) (g : Nat → α) :
    ∀ (l : List Nat) (a : β) (d : Mem α),
      l.foldl (fun (s : β × Mem α) j => (s.1 + f j, Function.update s.2 (e j) (g j))) (a, d)
        = (l.foldl (fun acc j => acc + f j) a,
            l.foldl (fun d j => Function.update d (e j) (g j)) d) := by
  intro l
  induction l with
  | nil => intro a d; rfl
  | cons c l ih => intro a d; simp only [List.foldl_cons]; rw [ih]

/-! lanes -/

theorem allLanes_eq {β : Type} [Zero β] (n : Nat) (f : Nat → Option β) (g : Nat → β)
    (hf : ∀ t, f t = some (g t)) : allLanes n f = some g := by
  have : f = fun t => some (g t) := funext hf
  subst this
  simp [allLanes]

theorem lanesStore_eq {α : Type} (n : Nat) (f : Nat → Mem α → Option (Mem α))
    (u : Nat → Mem α → Mem α) (hf : ∀ t d, f t d = some (u t d)) (m : Mem α) :
    lanesStore n f m = some ((List.range n).foldl (fun d t => u t d) m) := by
  have : f = fun t d => some (u t d) := by funext t d; exact hf t d
  subst this
  unfold lanesStore
  generalize List.range n = l
  induction l generalizing m with
  | nil => rfl
  | cons t l ih => simp [List.foldlM_cons, ih]

theorem lanesRun_eq {α β : Type} [Zero β] (n : Nat) (f : Nat → Mem α → Option (β × Mem α))
    (r : Nat → β) (u : Nat → Mem α → Mem α) (hf : ∀ t d, f t d = some (r t, u t d))
    (m : Mem α) :
    ∃ v : Nat → β, lanesRun n f m = some (v, (List.range n).foldl (fun d t => u t d) m) ∧
      ∀ t, t < n → v t = r t := by
  have : f = fun t d => some (r t, u t d) := by funext t d; exact hf t d
  subst this
  unfold lanesRun
  induction n with
  | zero => exact ⟨fun _ => 0, rfl, fun t ht => absurd ht (Nat.not_lt_zero t)⟩
  | succ n ih =>
    obtain ⟨v, hv, hvt⟩ := ih
    refine ⟨Function.update v n (r n), ?_, ?_⟩
    · rw [List.range_succ, List.foldlM_append, hv]
      simp [List.foldl_append]
    · intro t ht
      by_cases htn : t = n
      · subst htn; simp
      · rw [Function.update_noteq htn]
        exact hvt t (by omega)

/-- Memory after all lanes `t < n` ran their store loops over the index lists
`L t`, when the lists of different lanes are disjoint. -/
theorem lanes_fold_spec {α : Type} (e : Nat → Int) (he : Function.Injective e)
    (L : Nat → List Nat) (h : Nat → Nat → α → α) (m : Mem α) (n : Nat)
    (hnd : ∀ t, t < n → (L t).Nodup)
    (hdis : ∀ t t' c, t < n → t' < n → c ∈ L t → c ∈ L t' → t = t') :
    (∀ t, t < n → ∀ c ∈ L t,
      ((List.range n).foldl
        (fun d t => (L t).foldl (fun d c => Function.update d (e c) (h t c (d (e c)))) d) m) (e c)
        = h t c (m (e c))) ∧
    (∀ a, (∀ t, t < n → ∀ c ∈ L t, e c ≠ a) →
      ((List.range n).foldl
        (fun d t => (L t).foldl (fun d c => Function.update d (e c) (h t c (d (e c)))) d) m) a
        = m a) := by
  induction n with
  | zero =>
    exact ⟨fun t ht => absurd ht (Nat.not_lt_zero t), fun a _ => rfl⟩
  | succ n ih =>
    obtain ⟨ih1, ih2⟩ := ih (fun t ht => hnd t (by omega))
      (fun t t' c ht ht' => hdis t t' c (by omega) (by omega))
    constructor
    · intro t ht c hc
      rw [List.range_succ, List.foldl_append]
      simp only [List.foldl_cons, List.foldl_nil]
      by_cases htn : t = n
      · subst htn
        rw [foldl_update_mem e he (h t) (L t) (hnd t (by omega)) _ c hc]
        rw [ih2 (e c)]
        intro t' ht' c' hc' heq
        have := he heq
        subst this
        have := hdis t' t c' (by omega) (by omega) hc' hc
        omega
      · rw [foldl_update_not_mem e (h n) (L n) _ (e c)]
        · exact ih1 t (by omega) c hc
        · intro c' hc' heq
          have := he heq
          subst this
          have := hdis t n c' (by omega) (by omega) hc hc'
          omega
    · intro a ha
      rw [List.range_succ, List.foldl_append]
      simp only [List.foldl_cons, List.foldl_nil]
      rw [foldl_update_not_mem e (h n) (L n) _ a (fun c hc => ha n (by omega) c hc)]
      exact ih2 a (fun t ht c hc => ha t (by omega) c hc)


theorem blockSum_succ {β : Type} [AddCommMonoid β] (v : Nat → β) (j Q : Nat) :
    blockSum v (j + 1) Q = blockSum v j (2 * Q) + blockSum v j (2 * Q + 1) := by
  unfold blockSum
  have h2 : 2 ^ (j + 1) = 2 ^ j + 2 ^ j := by ring
  rw [h2, Finset.sum_range_add]
  congr 1
  · refine Finset.sum_congr rfl (fun l _ => ?_)
    congr 1; ring
  · refine Finset.sum_congr rfl (fun l _ => ?_)
    congr 1; ring

theorem butterfly_step_blockSum {β : Type} [AddCommMonoid β] (v u : Nat → β) (j : Nat)
    (hu : ∀ t, u t = blockSum v j (t / 2 ^ j)) :
    ∀ t, butterfly_step (2 ^ j) u t = blockSum v (j + 1) (t / 2 ^ (j + 1)) := by
  intro t
  have hpos : 0 < 2 ^ j := Nat.pos_pow_of_pos _ (by decide)
  have hQ : t / 2 ^ (j + 1) = t / 2 ^ j / 2 := by
    rw [pow_succ, Nat.div_div_eq_div_mul]
  rw [blockSum_succ, hQ]
  unfold butterfly_step butterfly_partner
  have hmd := Nat.mod_add_div (t / 2 ^ j) 2
  by_cases hq : (t / 2 ^ j) % 2 = 0
  · rw [if_pos hq, hu, hu, Nat.add_div_right _ hpos]
    have h1 : t / 2 ^ j = 2 * (t / 2 ^ j / 2) := by omega
    rw [← h1]
  · rw [if_neg hq, hu, hu]
    have h1 : t / 2 ^ j = 2 * (t / 2 ^ j / 2) + 1 := by omega
    have hge : 2 ^ j ≤ t := by
      by_contra hlt
      have : t / 2 ^ j = 0 := Nat.div_eq_of_lt (by omega)
      omega
    have h2 : (t - 2 ^ j) / 2 ^ j = 2 * (t / 2 ^ j / 2) := by
      have : t = (t - 2 ^ j) + 2 ^ j := by omega
      have h3 : t / 2 ^ j = (t - 2 ^ j) / 2 ^ j + 1 := by
        conv_lhs => rw [this]
        exact Nat.add_div_right _ hpos
      omega
    rw [h2, ← h1, add_comm]

theorem warp_fold_le {β : Type} [AddCommMonoid β] (v : Nat → β) (k : Nat) :
    ∀ j, j ≤ k → ∀ t,
      (List.range j).foldl
        (fun u i => if 2 ^ i < 2 ^ k then butterfly_step (2 ^ i) u else u) v t
        = blockSum v j (t / 2 ^ j) := by
  intro j
  induction j with
  | zero => intro _ t; simp [blockSum]
  | succ j ih =>
    intro hj t
    rw [List.range_succ, List.foldl_append]
    simp only [List.foldl_cons, List.foldl_nil]
    have hlt : 2 ^ j < 2 ^ k := Nat.pow_lt_pow_right (by decide) (by omega)
    rw [if_pos hlt]
    exact butterfly_step_blockSum v _ j (ih (by omega)) t

theorem warp_fold_ge {β : Type} [AddCommMonoid β] (v : Nat → β) (k : Nat) :
    ∀ n, k ≤ n →
      (List.range n).foldl
        (fun u i => if 2 ^ i < 2 ^ k then butterfly_step (2 ^ i) u else u) v
        = (List.range k).foldl
        (fun u i => if 2 ^ i < 2 ^ k then butterfly_step (2 ^ i) u else u) v := by
  intro n hn
  induction n with
  | zero =>
    have : k = 0 := by omega
    subst this; rfl
  | succ n ih =>
    by_cases hk : k = n + 1
    · rw [hk]
    · rw [List.range_succ, List.foldl_append]
      simp only [List.foldl_cons, List.foldl_nil]
      have hnlt : ¬ 2 ^ n < 2 ^ k := by
        have : 2 ^ k ≤ 2 ^ n := Nat.pow_le_pow_right (by decide) (by omega)
        omega
      rw [if_neg hnlt]
      exact ih (by omega)

/-- Contract of section 4.1: after `warp_reduce_sum` every lane holds the sum
over the `W` lanes of its warp. -/
theorem warp_reduce_sum_eq {β : Type} [AddCommMonoid β] (W k : Nat) (hW : W = 2 ^ k)
    (v : Nat → β) (t : Nat) :
    warp_reduce_sum W v t = ∑ l in Finset.range W, v (t / W * W + l) := by
  subst hW
  unfold warp_reduce_sum
  rw [warp_fold_ge v k (2 ^ k) (Nat.lt_two_pow k).le, warp_fold_le v k k le_rfl t]
  rfl

theorem sum_range_mul {β : Type} [AddCommMonoid β] (g : Nat → β) (W : Nat) :
    ∀ m, ∑ t in Finset.range (m * W), g t
      = ∑ i in Finset.range m, ∑ l in Finset.range W, g (i * W + l) := by
  intro m
  induction m with
  | zero => simp
  | succ m ih =>
    rw [Nat.succ_mul, Finset.sum_range_add, ih, Finset.sum_range_succ]



theorem scratch_store_spec {β : Type} (W len : Nat) (hW : 0 < W) (v : Nat → β) :
    ∀ n, (∀ t, t < n → t / W < len) →
      scratch_store W n len v = some (fun i => if i * W < n then some (v (i * W)) else none) := by
  intro n
  unfold scratch_store
  induction n with
  | zero => intro _; simp
  | succ n ih =>
    intro hb
    rw [List.range_succ, List.foldlM_append, ih (fun t ht => hb t (by omega))]
    simp only [Option.some_bind, List.foldlM_cons, List.foldlM_nil, Option.bind_eq_bind]
    by_cases hn : n % W = 0
    · rw [if_pos hn, if_pos (hb n (by omega))]
      simp only [Option.some_bind, Option.pure_def, Option.some.injEq]
      funext i
      have hdm := Nat.div_add_mod n W
      rw [hn, add_zero] at hdm
      by_cases hi : i = n / W
      · subst hi
        have : n / W * W = n := by rw [Nat.mul_comm]; exact hdm
        simp [this]
      · rw [Function.update_noteq hi]
        have hne : i * W ≠ n := by
          intro h; apply hi; rw [← h, Nat.mul_div_cancel _ hW]
        by_cases hlt : i * W < n
        · rw [if_pos hlt, if_pos (by omega)]
        · rw [if_neg hlt, if_neg (by omega)]
    · rw [if_neg hn]
      simp only [Option.some_bind, Option.pure_def, Option.some.injEq]
      funext i
      have hne : i * W ≠ n := by
        intro h; apply hn; rw [← h, Nat.mul_mod_left]
      by_cases hlt : i * W < n
      · rw [if_pos hlt, if_pos (by omega)]
      · rw [if_neg hlt, if_neg (by omega)]

theorem scratch_sum_spec {β : Type} [AddCommMonoid β] (W len n : Nat) (v : Nat → β)
    (lane : Nat) :
    ∀ m, (∀ i, i < m → lane + i * W < len ∧ (lane + i * W) * W < n) →
      scratch_sum W len m (fun i => if i * W < n then some (v (i * W)) else none) lane
        = some (∑ i in Finset.range m, v ((lane + i * W) * W)) := by
  intro m
  unfold scratch_sum
  induction m with
  | zero => intro _; simp
  | succ m ih =>
    intro hb
    rw [List.range_succ, List.foldlM_append, ih (fun i hi => hb i (by omega))]
    obtain ⟨h1, h2⟩ := hb m (by omega)
    simp [scratch_load, h1, h2, Finset.sum_range_succ]



theorem ceil_div_mul (m W : Nat) (hW : 0 < W) : ceil_div (m * W) W = m := by
  unfold ceil_div
  have : m * W + W - 1 = (W - 1) + m * W := by omega
  rw [this, Nat.add_mul_div_right _ _ hW, Nat.div_eq_of_lt (by omega), zero_add]

/-- Contract of section 4.2 on the shapes the dispatch functions launch: after
the two-level reduction every lane of the group holds the sum over all lanes. -/
theorem block_reduce_spec {β : Type} [AddCommMonoid β] (W k : Nat) (hW : W = 2 ^ k)
    (nthreads block_size nreduce : Nat) (s_sum : Option Nat) (v : Nat → β)
    (hs : ValidShape W nthreads block_size s_sum)
    (hnr : nreduce = nthreads / W / W ∨ nreduce = ceil_div (nthreads / W) W) :
    ∃ r, block_reduce W nthreads s_sum nreduce block_size v = some r ∧
      ∀ t, t < nthreads → r t = ∑ t' in Finset.range nthreads, v t' := by
  have hWpos : 0 < W := by rw [hW]; exact Nat.pos_pow_of_pos _ (by decide)
  obtain ⟨hbs, hsh⟩ := hs
  rw [hbs]
  clear hbs block_size
  by_cases hgt : nthreads > W
  · -- scratch path
    rcases hsh with hsh | ⟨hpos, hmod, hss⟩
    · omega
    obtain ⟨m, hm⟩ := Nat.dvd_of_mod_eq_zero hmod
    have hn : nthreads = m * W * W := by rw [hm]; ring
    have hnw : nthreads / W = m * W := by rw [hn, Nat.mul_div_cancel _ hWpos]
    have hnr' : nreduce = m := by
      rcases hnr with h | h
      · rw [h, hnw, Nat.mul_div_cancel _ hWpos]
      · rw [h, hnw, ceil_div_mul m W hWpos]
    subst hnr'
    have hstore := scratch_store_spec W (nthreads / W) hWpos (warp_reduce_sum W v) nthreads
      (fun t ht => by
        rw [Nat.div_lt_iff_lt_mul hWpos, hnw, ← hn]; exact ht)
    have hsum : ∀ t, scratch_sum W (nthreads / W) nreduce
        (fun i => if i * W < nthreads then some (warp_reduce_sum W v (i * W)) else none) (t % W)
        = some (∑ i in Finset.range nreduce, warp_reduce_sum W v ((t % W + i * W) * W)) := by
      intro t
      apply scratch_sum_spec
      intro i hi
      have hl : t % W < W := Nat.mod_lt _ hWpos
      have h1 : i * W + W ≤ nreduce * W := by
        have := Nat.mul_le_mul_right W (Nat.succ_le_of_lt hi)
        rw [Nat.succ_mul] at this
        exact this
      have h2 : t % W + i * W < nreduce * W := by omega
      refine ⟨by rw [hnw]; exact h2, ?_⟩
      rw [hn]
      exact Nat.mul_lt_mul_of_pos_right h2 hWpos
    refine ⟨warp_reduce_sum W (fun t =>
      ∑ i in Finset.range nreduce, warp_reduce_sum W v ((t % W + i * W) * W)), ?_, ?_⟩
    · unfold block_reduce
      simp only [if_pos hgt, hss, Option.some_bind, Option.bind_eq_bind, hstore]
      rw [allLanes_eq nthreads _ _ hsum]
      rfl
    · intro t _
      rw [warp_reduce_sum_eq W k hW]
      have hmod' : ∀ l ∈ Finset.range W, (t / W * W + l) % W = l := by
        intro l hl
        rw [Nat.add_comm, Nat.add_mul_mod_self_right, Nat.mod_eq_of_lt (Finset.mem_range.mp hl)]
      rw [Finset.sum_congr rfl (fun l hl => by rw [hmod' l hl])]
      rw [Finset.sum_comm]
      rw [hn, sum_range_mul v W (nreduce * W), sum_range_mul _ W nreduce]
      refine Finset.sum_congr rfl (fun i _ => Finset.sum_congr rfl (fun l _ => ?_))
      rw [warp_reduce_sum_eq W k hW, Nat.mul_div_cancel _ hWpos, Nat.add_comm l]
  · -- single warp
    have hnW : nthreads = W := by
      rcases hsh with hsh | ⟨hpos, hmod, -⟩
      · exact hsh
      · obtain ⟨m, hm⟩ := Nat.dvd_of_mod_eq_zero hmod
        have hle : W * W ≤ nthreads := Nat.le_of_dvd hpos (Nat.dvd_of_mod_eq_zero hmod)
        have : W ≤ W * W := Nat.le_mul_of_pos_left W hWpos
        omega
    refine ⟨warp_reduce_sum W v, ?_, ?_⟩
    · unfold block_reduce
      simp only [if_neg hgt]
    · intro t ht
      rw [warp_reduce_sum_eq W k hW, hnW, Nat.div_eq_of_lt (by omega)]
      simp



theorem ValidShape.pos {W nthreads block_size : Nat} {s_sum : Option Nat} (k : Nat)
    (hW : W = 2 ^ k) (hs : ValidShape W nthreads block_size s_sum) : 0 < block_size := by
  have hWpos : 0 < W := by rw [hW]; exact Nat.pos_pow_of_pos _ (by decide)
  obtain ⟨hbs, h | ⟨h, -, -⟩⟩ := hs <;> omega

/-- First half of every kernel: lane-strided partial sums followed by the
two-level reduction leave the sum over the whole range in every lane. -/
theorem lanes_sum_spec {β : Type} [AddCommMonoid β] (W k : Nat) (hW : W = 2 ^ k)
    (nthreads block_size nreduce : Nat) (s_sum : Option Nat)
    (hs : ValidShape W nthreads block_size s_sum)
    (hnr : nreduce = nthreads / W / W ∨ nreduce = ceil_div (nthreads / W) W)
    (f : Nat → β) (start stop : Nat) :
    ∃ r, (allLanes nthreads (fun tid =>
            laneFor (start + tid) stop block_size (fun acc c => acc + f c) 0)).bind
          (block_reduce W nthreads s_sum nreduce block_size) = some r ∧
      ∀ t, t < nthreads → r t = ∑ c in Finset.Ico start stop, f c := by
  have hpos := hs.pos k hW
  rw [allLanes_eq nthreads _ (fun tid => ∑ c in laneSet (start + tid) stop block_size, f c)
    (fun t => laneFor_sum f (start + t) stop block_size hpos)]
  obtain ⟨r, hr, hrt⟩ := block_reduce_spec W k hW nthreads block_size nreduce s_sum
    (fun tid => ∑ c in laneSet (start + tid) stop block_size, f c) hs hnr
  refine ⟨r, by simpa using hr, fun t ht => ?_⟩
  rw [hrt t ht, ← hs.1]
  exact sum_lanes_eq f start stop block_size hpos

/-- Second half of every kernel: the lane-strided store loops of all lanes
together update exactly the addresses of the range, each once. -/
theorem lanes_store_spec {α : Type} (e : Nat → Int) (he : Function.Injective e)
    (h : Nat → Nat → α → α) (m : Mem α) (nthreads block_size : Nat) (hbs : block_size = nthreads)
    (hpos : 0 < block_size) (start stop : Nat) :
    ∃ d, lanesStore nthreads (fun tid d =>
            laneFor (start + tid) stop block_size
              (fun d c => Function.update d (e c) (h tid c (d (e c)))) d) m = some d ∧
      (∀ c, start ≤ c → c < stop → d (e c) = h ((c - start) % block_size) c (m (e c))) ∧
      (∀ a, (∀ c, start ≤ c → c < stop → e c ≠ a) → d a = m a) := by
  refine ⟨_, lanesStore_eq nthreads _
    (fun tid d => (laneIdx (start + tid) stop block_size).foldl
      (fun d c => Function.update d (e c) (h tid c (d (e c)))) d)
    (fun t d => laneFor_eq (start + t) stop block_size hpos _ d) m, ?_⟩
  have hmem : ∀ t, t < nthreads → ∀ c, c ∈ laneIdx (start + t) stop block_size ↔
      (start ≤ c ∧ c < stop) ∧ (c - start) % block_size = t := by
    intro t ht c
    rw [← List.mem_toFinset, laneIdx_toFinset _ _ _ hpos,
      laneSet_eq_filter start stop block_size t (by omega)]
    simp only [Finset.mem_filter, Finset.mem_Ico]
  obtain ⟨h1, h2⟩ := lanes_fold_spec e he (fun t => laneIdx (start + t) stop block_size) h m
    nthreads (fun t _ => laneIdx_nodup _ _ _ hpos)
    (fun t t' c ht ht' hc hc' => by
      rw [hmem t ht] at hc
      rw [hmem t' ht'] at hc'
      omega)
  constructor
  · intro c hc1 hc2
    have hlt : (c - start) % block_size < nthreads := by
      rw [← hbs]; exact Nat.mod_lt _ hpos
    exact h1 _ hlt c ((hmem _ hlt c).2 ⟨⟨hc1, hc2⟩, rfl⟩)
  · intro a ha
    exact h2 a (fun t ht c hc => ha c ((hmem t ht c).1 hc).1.1 ((hmem t ht c).1 hc).1.2)


theorem add_natCast_injective (po : Int) : Function.Injective (fun c : Nat => po + (c : Int)) := by
  intro a b h
  simp only at h
  omega

theorem norm_f32_mean_var_spec {α : Type} [Field α] (W k : Nat) (hW : W = 2 ^ k) (x : Mem α)
    (ncols : Nat) (sr sc ss : Int) (item : nd_item) (s_sum : Option Nat) (block_size : Nat)
    (hs : ValidShape W item.local_range2 block_size s_sum) :
    ∃ r, norm_f32_mean_var W x ncols sr sc ss item s_sum block_size = some r ∧
      ∀ t, t < item.local_range2 →
        r t = (rowSum x (strided_offset sr sc ss item) ncols,
                rowSumSq x (strided_offset sr sc ss item) ncols) := by
  obtain ⟨r, hr, hrt⟩ := lanes_sum_spec W k hW item.local_range2 block_size
    (ceil_div (item.local_range2 / W) W) s_sum hs (Or.inr rfl)
    (fun c => (x (strided_offset sr sc ss item + c),
      x (strided_offset sr sc ss item + c) * x (strided_offset sr sc ss item + c))) 0 ncols
  simp only [Nat.zero_add] at hr
  refine ⟨r, hr, fun t ht => ?_⟩
  rw [hrt t ht, ← Finset.range_eq_Ico]
  ext
  · simp [rowSum, Prod.fst_sum]
  · simp [rowSumSq, Prod.snd_sum]

theorem norm_f32_spec {α : Type} [Field α] (W k : Nat) (hW : W = 2 ^ k) (rsqrt : α → α)
    (x dst : Mem α) (ncols : Nat) (sr sc ss : Int) (eps : α) (item : nd_item)
    (s_sum : Option Nat) (block_size : Nat)
    (hs : ValidShape W item.local_range2 block_size s_sum) :
    ∃ d, norm_f32 W rsqrt x dst ncols sr sc ss eps item s_sum block_size = some d ∧
      (∀ col, col < ncols →
        d (packed_offset ncols item + col)
          = (x (strided_offset sr sc ss item + col) - rowMean x (strided_offset sr sc ss item) ncols)
              * rsqrt (rowVar x (strided_offset sr sc ss item) ncols + eps)) ∧
      (∀ a, (∀ col, col < ncols → packed_offset ncols item + col ≠ a) → d a = dst a) := by
  obtain ⟨r, hr, hrt⟩ := norm_f32_mean_var_spec W k hW x ncols sr sc ss item s_sum block_size hs
  obtain ⟨d, hd, hd1, hd2⟩ := lanes_store_spec (fun c : Nat => packed_offset ncols item + (c : Int))
    (add_natCast_injective _)
    (fun tid c _ =>
      (x (strided_offset sr sc ss item + c) - (r tid).1 / (ncols : α))
        * rsqrt ((r tid).2 / (ncols : α) - (r tid).1 / (ncols : α) * ((r tid).1 / (ncols : α)) + eps))
    dst item.local_range2 block_size hs.1 (hs.pos k hW) 0 ncols
  simp only [Nat.zero_add] at hd
  refine ⟨d, ?_, ?_, ?_⟩
  · unfold norm_f32
    simp only [hr, Option.some_bind, Option.bind_eq_bind]
    exact hd
  · intro col hcol
    have hlt : (col - 0) % block_size < item.local_range2 := by
      rw [← hs.1]; exact Nat.mod_lt _ (hs.pos k hW)
    rw [hd1 col (Nat.zero_le _) hcol, hrt _ hlt]
    rfl
  · intro a ha
    exact hd2 a (fun c _ hc => ha c hc)



theorem strideIdx_lt (stop step : Nat) :
    ∀ fuel j l, strideIdx stop step fuel j = some l → ∀ c ∈ l, c < stop := by
  intro fuel
  induction fuel with
  | zero =>
    intro j l hl c hc
    unfold strideIdx at hl
    split at hl
    · simp at hl
    · simp only [Option.some.injEq] at hl
      subst hl
      simp at hc
  | succ fuel ih =>
    intro j l hl c hc
    unfold strideIdx at hl
    split at hl
    · rename_i hlt
      cases hrec : strideIdx stop step fuel (j + step) with
      | none => simp [hrec] at hl
      | some l' =>
        simp only [hrec, Option.map_some', Option.some.injEq] at hl
        subst hl
        rcases List.mem_cons.mp hc with rfl | hcl
        · exact hlt
        · exact ih _ _ hrec c hcl
    · simp only [Option.some.injEq] at hl
      subst hl
      simp at hc

/-- A lane loop depends on its body only at the indices below `stop`. -/
theorem laneFor_congr {σ : Type} (start stop step : Nat) (body body' : σ → Nat → σ) (init : σ)
    (h : ∀ s c, c < stop → body s c = body' s c) :
    laneFor start stop step body init = laneFor start stop step body' init := by
  unfold laneFor
  cases hf : forIdx start stop step with
  | none => rfl
  | some l =>
    simp only [Option.map_some', Option.some.injEq]
    have hlt := strideIdx_lt stop step stop start l hf
    clear hf
    induction l generalizing init with
    | nil => rfl
    | cons c l ih =>
      simp only [List.foldl_cons]
      rw [h init c (hlt c (List.mem_cons_self _ _))]
      exact ih _ (fun c' hc' => hlt c' (List.mem_cons_of_mem _ hc'))

theorem foldlM_congr_mem {γ δ : Type} (f g : δ → γ → Option δ) :
    ∀ (l : List γ) (d : δ), (∀ a ∈ l, ∀ d, f d a = g d a) → l.foldlM f d = l.foldlM g d := by
  intro l
  induction l with
  | nil => intro d _; rfl
  | cons a l ih =>
    intro d h
    simp only [List.foldlM_cons]
    rw [h a (List.mem_cons_self _ _) d]
    cases g d a with
    | none => rfl
    | some d' => exact ih d' (fun a' ha' => h a' (List.mem_cons_of_mem _ ha'))

theorem mem_gridGroups (dims g : Nat × Nat × Nat) :
    g ∈ gridGroups dims ↔ g.1 < dims.1 ∧ g.2.1 < dims.2.1 ∧ g.2.2 < dims.2.2 := by
  obtain ⟨g0, g1, g2⟩ := g
  simp only [gridGroups, List.mem_flatMap, List.mem_range, List.mem_map, Prod.mk.injEq]
  constructor
  · rintro ⟨a, ha, b, hb, c, hc, rfl, rfl, rfl⟩
    exact ⟨ha, hb, hc⟩
  · rintro ⟨h0, h1, h2⟩
    exact ⟨g0, h0, g1, h1, g2, h2, rfl, rfl, rfl⟩


/-- A group of `norm_f32` reads the input only at the `ncols` elements of its
row. -/
theorem norm_f32_congr {α : Type} [Zero α] [Add α] [Sub α] [Mul α] [Div α] [NatCast α]
    (W : Nat) (rsqrt : α → α) (x x' dst : Mem α) (ncols : Nat)
    (sr sc ss sr' sc' ss' : Int) (eps : α) (item : nd_item) (s_sum : Option Nat)
    (block_size : Nat)
    (h : ∀ col, col < ncols →
      x (strided_offset sr sc ss item + col) = x' (strided_offset sr' sc' ss' item + col)) :
    norm_f32 W rsqrt x dst ncols sr sc ss eps item s_sum block_size
      = norm_f32 W rsqrt x' dst ncols sr' sc' ss' eps item s_sum block_size := by
  have h1 : norm_f32_mean_var W x ncols sr sc ss item s_sum block_size
      = norm_f32_mean_var W x' ncols sr' sc' ss' item s_sum block_size := by
    unfold norm_f32_mean_var
    have : (fun tid => laneFor tid ncols block_size
        (fun (mv : α × α) col =>
          let xi := x (strided_offset sr sc ss item + col)
          (mv.1 + xi, mv.2 + xi * xi)) (0, 0))
        = (fun tid => laneFor tid ncols block_size
        (fun (mv : α × α) col =>
          let xi := x' (strided_offset sr' sc' ss' item + col)
          (mv.1 + xi, mv.2 + xi * xi)) (0, 0)) := by
      funext tid
      apply laneFor_congr
      intro s c hc
      simp only [h c hc]
    simp only [this]
  unfold norm_f32
  rw [h1]
  cases norm_f32_mean_var W x' ncols sr' sc' ss' item s_sum block_size with
  | none => rfl
  | some r =>
    simp only [Option.some_bind, Option.bind_eq_bind]
    congr 1
    funext tid d
    apply laneFor_congr
    intro s c hc
    simp only [h c hc]

theorem rms_norm_f32_congr {α : Type} [Zero α] [Add α] [Mul α] [Div α] [NatCast α]
    (W : Nat) (rsqrt : α → α) (x x' dst : Mem α) (ncols : Nat)
    (sr sc ss sr' sc' ss' : Int) (eps : α) (item : nd_item) (s_sum : Option Nat)
    (block_size : Nat)
    (h : ∀ col, col < ncols →
      x (strided_offset sr sc ss item + col) = x' (strided_offset sr' sc' ss' item + col)) :
    rms_norm_f32 W rsqrt x dst ncols sr sc ss eps item s_sum block_size
      = rms_norm_f32 W rsqrt x' dst ncols sr' sc' ss' eps item s_sum block_size := by
  have h1 : rms_norm_f32_sumsq W x ncols sr sc ss item s_sum block_size
      = rms_norm_f32_sumsq W x' ncols sr' sc' ss' item s_sum block_size := by
    unfold rms_norm_f32_sumsq
    have : (fun tid => laneFor tid ncols block_size
        (fun (tmp : α) col =>
          let xi := x (strided_offset sr sc ss item + col)
          tmp + xi * xi) 0)
        = (fun tid => laneFor tid ncols block_size
        (fun (tmp : α) col =>
          let xi := x' (strided_offset sr' sc' ss' item + col)
          tmp + xi * xi) 0) := by
      funext tid
      apply laneFor_congr
      intro s c hc
      simp only [h c hc]
    simp only [this]
  unfold rms_norm_f32
  rw [h1]
  cases rms_norm_f32_sumsq W x' ncols sr' sc' ss' item s_sum block_size with
  | none => rfl
  | some r =>
    simp only [Option.some_bind, Option.bind_eq_bind]
    congr 1
    funext tid d
    apply laneFor_congr
    intro s c hc
    simp only [h c hc]


theorem rms_norm_f32_sumsq_spec {α : Type} [Field α] (W k : Nat) (hW : W = 2 ^ k) (x : Mem α)
    (ncols : Nat) (sr sc ss : Int) (item : nd_item) (s_sum : Option Nat) (block_size : Nat)
    (hs : ValidShape W item.local_range2 block_size s_sum) :
    ∃ r, rms_norm_f32_sumsq W x ncols sr sc ss item s_sum block_size = some r ∧
      ∀ t, t < item.local_range2 → r t = rowSumSq x (strided_offset sr sc ss item) ncols := by
  obtain ⟨r, hr, hrt⟩ := lanes_sum_spec W k hW item.local_range2 block_size
    (ceil_div (item.local_range2 / W) W) s_sum hs (Or.inr rfl)
    (fun c => x (strided_offset sr sc ss item + c) * x (strided_offset sr sc ss item + c)) 0 ncols
  simp only [Nat.zero_add] at hr
  refine ⟨r, hr, fun t ht => ?_⟩
  rw [hrt t ht, ← Finset.range_eq_Ico]
  rfl

theorem rms_norm_f32_spec {α : Type} [Field α] (W k : Nat) (hW : W = 2 ^ k) (rsqrt : α → α)
    (x dst : Mem α) (ncols : Nat) (sr sc ss : Int) (eps : α) (item : nd_item)
    (s_sum : Option Nat) (block_size : Nat)
    (hs : ValidShape W item.local_range2 block_size s_sum) :
    ∃ d, rms_norm_f32 W rsqrt x dst ncols sr sc ss eps item s_sum block_size = some d ∧
      (∀ col, col < ncols →
        d (packed_offset ncols item + col)
          = rsqrt (rowSumSq x (strided_offset sr sc ss item) ncols / (ncols : α) + eps)
              * x (strided_offset sr sc ss item + col)) ∧
      (∀ a, (∀ col, col < ncols → packed_offset ncols item + col ≠ a) → d a = dst a) := by
  obtain ⟨r, hr, hrt⟩ := rms_norm_f32_sumsq_spec W k hW x ncols sr sc ss item s_sum block_size hs
  obtain ⟨d, hd, hd1, hd2⟩ := lanes_store_spec (fun c : Nat => packed_offset ncols item + (c : Int))
    (add_natCast_injective _)
    (fun tid c _ => rsqrt (r tid / (ncols : α) + eps) * x (strided_offset sr sc ss item + c))
    dst item.local_range2 block_size hs.1 (hs.pos k hW) 0 ncols
  simp only [Nat.zero_add] at hd
  refine ⟨d, ?_, ?_, ?_⟩
  · unfold rms_norm_f32
    simp only [hr, Option.some_bind, Option.bind_eq_bind]
    exact hd
  · intro col hcol
    have hlt : (col - 0) % block_size < item.local_range2 := by
      rw [← hs.1]; exact Nat.mod_lt _ (hs.pos k hW)
    rw [hd1 col (Nat.zero_le _) hcol, hrt _ hlt]
  · intro a ha
    exact hd2 a (fun c _ hc => ha c hc)

theorem natCast_add_injective (off : Nat) :
    Function.Injective (fun c : Nat => ((off + c : Nat) : Int)) := by
  intro a b h
  simp only at h
  omega

theorem l2_norm_f32_sumsq_spec {α : Type} [Field α] (W k : Nat) (hW : W = 2 ^ k) (x : Mem α)
    (ncols : Nat) (item : nd_item) (s_sum : Option Nat) (block_size : Nat)
    (hs : ValidShape W item.local_range2 block_size s_sum) :
    ∃ r, l2_norm_f32_sumsq W x ncols item s_sum block_size = some r ∧
      ∀ t, t < item.local_range2 →
        r t = rowSumSq x
          ((l2_norm_row item * ncols : Nat) : Int) ncols := by
  obtain ⟨r, hr, hrt⟩ := lanes_sum_spec W k hW item.local_range2 block_size
    (item.local_range2 / W / W) s_sum hs (Or.inl rfl)
    (fun c => x ((l2_norm_row item * ncols + c : Nat) : Int)
      * x ((l2_norm_row item * ncols + c : Nat) : Int)) 0 ncols
  simp only [Nat.zero_add] at hr
  refine ⟨r, hr, fun t ht => ?_⟩
  rw [hrt t ht, ← Finset.range_eq_Ico]
  simp only [rowSumSq, Nat.cast_add]

theorem l2_norm_f32_spec {α : Type} [LinearOrderedField α] (W k : Nat) (hW : W = 2 ^ k)
    (rsqrt : α → α) (x dst : Mem α) (ncols : Nat) (eps : α) (item : nd_item)
    (s_sum : Option Nat) (block_size : Nat)
    (hs : ValidShape W item.local_range2 block_size s_sum) :
    ∃ d, l2_norm_f32 W rsqrt x dst ncols eps item s_sum block_size = some d ∧
      (∀ col, col < ncols →
        d ((l2_norm_row item * ncols : Nat) + (col : Int))
          = rsqrt (max (rowSumSq x
              ((l2_norm_row item * ncols : Nat) : Int) ncols)
              (eps * eps))
            * x ((l2_norm_row item * ncols : Nat) + (col : Int))) ∧
      (∀ a, (∀ col, col < ncols →
          ((l2_norm_row item * ncols : Nat) : Int) + (col : Int)
            ≠ a) → d a = dst a) := by
  obtain ⟨r, hr, hrt⟩ := l2_norm_f32_sumsq_spec W k hW x ncols item s_sum block_size hs
  obtain ⟨d, hd, hd1, hd2⟩ := lanes_store_spec
    (fun c : Nat => ((l2_norm_row item * ncols + c : Nat) : Int))
    (natCast_add_injective _)
    (fun tid c _ => rsqrt (max (r tid) (eps * eps))
      * x ((l2_norm_row item * ncols + c : Nat) : Int))
    dst item.local_range2 block_size hs.1 (hs.pos k hW) 0 ncols
  simp only [Nat.zero_add] at hd
  refine ⟨d, ?_, ?_, ?_⟩
  · unfold l2_norm_f32
    simp only [hr, Option.some_bind, Option.bind_eq_bind]
    exact hd
  · intro col hcol
    have hlt : (col - 0) % block_size < item.local_range2 := by
      rw [← hs.1]; exact Nat.mod_lt _ (hs.pos k hW)
    have := hd1 col (Nat.zero_le _) hcol
    simp only [Nat.cast_add] at this
    rw [this, hrt _ hlt]
  · intro a ha
    refine hd2 a (fun c _ hc => ?_)
    have := ha c hc
    simpa only [Nat.cast_add] using this


theorem natCast_injective_int : Function.Injective (fun c : Nat => (c : Int)) := by
  intro a b h
  simp only at h
  omega

/-- A pass in which every lane both accumulates a register and stores to the
output buffer (pass 2 of `group_norm_f32`). -/
theorem lanes_run_spec {α β : Type} [AddCommMonoid β] (e : Nat → Int)
    (he : Function.Injective e) (f : Nat → Nat → β) (g : Nat → Nat → α) (m : Mem α)
    (nthreads block_size : Nat) (hbs : block_size = nthreads) (hpos : 0 < block_size)
    (start stop : Nat) :
    ∃ v d, lanesRun nthreads (fun tid d =>
            laneFor (start + tid) stop block_size
              (fun (s : β × Mem α) j => (s.1 + f tid j, Function.update s.2 (e j) (g tid j)))
              (0, d)) m = some (v, d) ∧
      (∀ t, t < nthreads → v t = ∑ j in laneSet (start + t) stop block_size, f t j) ∧
      (∀ c, start ≤ c → c < stop → d (e c) = g ((c - start) % block_size) c) ∧
      (∀ a, (∀ c, start ≤ c → c < stop → e c ≠ a) → d a = m a) := by
  obtain ⟨v, hv, hvt⟩ := lanesRun_eq nthreads
    (fun tid d =>
      laneFor (start + tid) stop block_size
        (fun (s : β × Mem α) j => (s.1 + f tid j, Function.update s.2 (e j) (g tid j))) (0, d))
    (fun tid => ∑ j in laneSet (start + tid) stop block_size, f tid j)
    (fun tid d => (laneIdx (start + tid) stop block_size).foldl
      (fun d c => Function.update d (e c) (g tid c)) d)
    (fun t d => by
      show laneFor (start + t) stop block_size
          (fun (s : β × Mem α) j => (s.1 + f t j, Function.update s.2 (e j) (g t j))) (0, d)
        = some (∑ j in laneSet (start + t) stop block_size, f t j,
            (laneIdx (start + t) stop block_size).foldl
              (fun d c => Function.update d (e c) (g t c)) d)
      rw [laneFor_eq (start + t) stop block_size hpos, foldl_pair e (f t) (g t),
        foldl_add_eq_sum (f t) _ (laneIdx_nodup _ _ _ hpos), laneIdx_toFinset _ _ _ hpos,
        zero_add]) m
  refine ⟨v, _, hv, hvt, ?_⟩
  have hmem : ∀ t, t < nthreads → ∀ c, c ∈ laneIdx (start + t) stop block_size ↔
      (start ≤ c ∧ c < stop) ∧ (c - start) % block_size = t := by
    intro t ht c
    rw [← List.mem_toFinset, laneIdx_toFinset _ _ _ hpos,
      laneSet_eq_filter start stop block_size t (by omega)]
    simp only [Finset.mem_filter, Finset.mem_Ico]
  obtain ⟨h1, h2⟩ := lanes_fold_spec e he (fun t => laneIdx (start + t) stop block_size)
    (fun t c _ => g t c) m
    nthreads (fun t _ => laneIdx_nodup _ _ _ hpos)
    (fun t t' c ht ht' hc hc' => by
      rw [hmem t ht] at hc
      rw [hmem t' ht'] at hc'
      omega)
  constructor
  · intro c hc1 hc2
    have hlt : (c - start) % block_size < nthreads := by
      rw [← hbs]; exact Nat.mod_lt _ hpos
    exact h1 _ hlt c ((hmem _ hlt c).2 ⟨⟨hc1, hc2⟩, rfl⟩)
  · intro a ha
    exact h2 a (fun t ht c hc => ha c ((hmem t ht c).1 hc).1.1 ((hmem t ht c).1 hc).1.2)



theorem group_norm_f32_sum_spec {α : Type} [Field α] (W k : Nat) (hW : W = 2 ^ k) (x : Mem α)
    (group_size ne_elements : Nat) (item : nd_item) (s_sum : Option Nat) (block_size : Nat)
    (hs : ValidShape W item.local_range2 block_size s_sum) :
    ∃ r, group_norm_f32_sum W x group_size ne_elements item s_sum block_size = some r ∧
      ∀ t, t < item.local_range2 →
        r t = rangeSum x (group_start group_size item) (group_end group_size ne_elements item) := by
  obtain ⟨r, hr, hrt⟩ := lanes_sum_spec W k hW item.local_range2 block_size
    (item.local_range2 / W / W) s_sum hs (Or.inl rfl)
    (fun j => x (j : Int)) (group_start group_size item) (group_end group_size ne_elements item)
  exact ⟨r, hr, fun t ht => by rw [hrt t ht]; rfl⟩

theorem group_norm_f32_sumsq_spec {α : Type} [Field α] (W k : Nat) (hW : W = 2 ^ k)
    (x dst : Mem α) (group_size ne_elements : Nat) (item : nd_item) (s_sum : Option Nat)
    (block_size : Nat) (hs : ValidShape W item.local_range2 block_size s_sum) :
    ∃ r d, group_norm_f32_sumsq W x dst group_size ne_elements item s_sum block_size
        = some (r, d) ∧
      (∀ t, t < item.local_range2 →
        r t = rangeSumSqDev x
          (rangeSum x (group_start group_size item) (group_end group_size ne_elements item)
            / (group_size : α))
          (group_start group_size item) (group_end group_size ne_elements item)) ∧
      (∀ j, group_start group_size item ≤ j → j < group_end group_size ne_elements item →
        d (j : Int) = x (j : Int)
          - rangeSum x (group_start group_size item) (group_end group_size ne_elements item)
            / (group_size : α)) ∧
      (∀ a, (∀ j, group_start group_size item ≤ j → j < group_end group_size ne_elements item →
          (j : Int) ≠ a) → d a = dst a) := by
  have hpos := hs.pos k hW
  obtain ⟨r1, hr1, hrt1⟩ := group_norm_f32_sum_spec W k hW x group_size ne_elements item s_sum
    block_size hs
  obtain ⟨v, d, hrun, hv, hd, hfr⟩ := lanes_run_spec (fun c : Nat => (c : Int))
    natCast_injective_int
    (fun tid j => (x (j : Int) - r1 tid / (group_size : α))
      * (x (j : Int) - r1 tid / (group_size : α)))
    (fun tid j => x (j : Int) - r1 tid / (group_size : α)) dst item.local_range2 block_size hs.1
    hpos (group_start group_size item) (group_end group_size ne_elements item)
  obtain ⟨r2, hr2, hrt2⟩ := block_reduce_spec W k hW item.local_range2 block_size
    (item.local_range2 / W / W) s_sum v hs (Or.inl rfl)
  refine ⟨r2, d, ?_, ?_, ?_, hfr⟩
  · unfold group_norm_f32_sumsq
    simp only [hr1, Option.some_bind, Option.bind_eq_bind]
    rw [hrun]
    simp only [Option.some_bind, hr2]
    rfl
  · intro t ht
    rw [hrt2 t ht]
    have hsum : ∀ t' ∈ Finset.range item.local_range2,
        v t' = ∑ j in laneSet (group_start group_size item + t')
            (group_end group_size ne_elements item) block_size,
          (x (j : Int) - rangeSum x (group_start group_size item)
              (group_end group_size ne_elements item) / (group_size : α))
          * (x (j : Int) - rangeSum x (group_start group_size item)
              (group_end group_size ne_elements item) / (group_size : α)) := by
      intro t' ht'
      rw [hv t' (Finset.mem_range.mp ht'), hrt1 t' (Finset.mem_range.mp ht')]
    rw [Finset.sum_congr rfl hsum, ← hs.1]
    exact sum_lanes_eq _ _ _ block_size hpos
  · intro j hj1 hj2
    have hlt : (j - group_start group_size item) % block_size < item.local_range2 := by
      rw [← hs.1]; exact Nat.mod_lt _ hpos
    rw [hd j hj1 hj2, hrt1 _ hlt]

theorem group_norm_f32_spec {α : Type} [Field α] (W k : Nat) (hW : W = 2 ^ k) (rsqrt : α → α)
    (x dst : Mem α) (group_size ne_elements : Nat) (eps : α) (item : nd_item)
    (s_sum : Option Nat) (block_size : Nat)
    (hs : ValidShape W item.local_range2 block_size s_sum) :
    ∃ d, group_norm_f32 W rsqrt x dst group_size ne_elements eps item s_sum block_size = some d ∧
      (∀ j, group_start group_size item ≤ j → j < group_end group_size ne_elements item →
        d (j : Int) = (x (j : Int)
            - rangeSum x (group_start group_size item) (group_end group_size ne_elements item)
              / (group_size : α))
          * rsqrt (rangeSumSqDev x
              (rangeSum x (group_start group_size item) (group_end group_size ne_elements item)
                / (group_size : α))
              (group_start group_size item) (group_end group_size ne_elements item)
              / (group_size : α) + eps)) ∧
      (∀ a, (∀ j, group_start group_size item ≤ j → j < group_end group_size ne_elements item →
          (j : Int) ≠ a) → d a = dst a) := by
  have hpos := hs.pos k hW
  obtain ⟨r, d2, hr, hrt, hd2, hfr2⟩ := group_norm_f32_sumsq_spec W k hW x dst group_size
    ne_elements item s_sum block_size hs
  obtain ⟨d, hd, hd1, hfr⟩ := lanes_store_spec (fun c : Nat => (c : Int)) natCast_injective_int
    (fun tid _ val => val * rsqrt (r tid / (group_size : α) + eps))
    d2 item.local_range2 block_size hs.1 hpos
    (group_start group_size item) (group_end group_size ne_elements item)
  refine ⟨d, ?_, ?_, ?_⟩
  · unfold group_norm_f32
    simp only [hr, Option.some_bind, Option.bind_eq_bind]
    exact hd
  · intro j hj1 hj2
    have hlt : (j - group_start group_size item) % block_size < item.local_range2 := by
      rw [← hs.1]; exact Nat.mod_lt _ hpos
    rw [hd1 j hj1 hj2, hrt _ hlt, hd2 j hj1 hj2]
  · intro a ha
    rw [hfr a ha, hfr2 a ha]


/-! exact-arithmetic facts about rows -/

theorem rowSum_eq_mul_mean (x : Mem ℝ) (off : Int) (n : Nat) (hn : 0 < n) :
    rowSum x off n = (n : ℝ) * rowMean x off n := by
  have : (n : ℝ) ≠ 0 := by exact_mod_cast hn.ne'
  unfold rowMean
  field_simp

theorem sum_dev_eq_zero (x : Mem ℝ) (off : Int) (n : Nat) (hn : 0 < n) :
    ∑ c in Finset.range n, (x (off + c) - rowMean x off n) = 0 := by
  rw [Finset.sum_sub_distrib, Finset.sum_const, Finset.card_range, nsmul_eq_mul,
    ← rowSum_eq_mul_mean x off n hn]
  unfold rowSum
  ring

theorem sumsq_dev_eq (x : Mem ℝ) (off : Int) (n : Nat) (hn : 0 < n) :
    ∑ c in Finset.range n, (x (off + c) - rowMean x off n) * (x (off + c) - rowMean x off n)
      = (n : ℝ) * rowVar x off n := by
  have hn0 : (n : ℝ) ≠ 0 := by exact_mod_cast hn.ne'
  have hexp : ∀ c ∈ Finset.range n,
      (x (off + c) - rowMean x off n) * (x (off + c) - rowMean x off n)
        = x (off + c) * x (off + c) - 2 * rowMean x off n * x (off + c)
          + rowMean x off n * rowMean x off n := fun c _ => by ring
  rw [Finset.sum_congr rfl hexp, Finset.sum_add_distrib, Finset.sum_sub_distrib,
    ← Finset.mul_sum, Finset.sum_const, Finset.card_range, nsmul_eq_mul]
  have h1 : ∑ c in Finset.range n, x (off + c) = (n : ℝ) * rowMean x off n :=
    rowSum_eq_mul_mean x off n hn
  have h2 : ∑ c in Finset.range n, x (off + c) * x (off + c) = rowSumSq x off n := rfl
  rw [h1, h2]
  unfold rowVar
  field_simp
  ring

/-- The one-pass variance is the mean squared deviation. -/
theorem rowVar_eq_dev (x : Mem ℝ) (off : Int) (n : Nat) (hn : 0 < n) :
    rowVar x off n
      = (∑ c in Finset.range n,
          (x (off + c) - rowMean x off n) * (x (off + c) - rowMean x off n)) / (n : ℝ) := by
  have hn0 : (n : ℝ) ≠ 0 := by exact_mod_cast hn.ne'
  rw [sumsq_dev_eq x off n hn]
  field_simp

theorem rowVar_nonneg (x : Mem ℝ) (off : Int) (n : Nat) (hn : 0 < n) :
    0 ≤ rowVar x off n := by
  rw [rowVar_eq_dev x off n hn]
  exact div_nonneg (Finset.sum_nonneg (fun c _ => mul_self_nonneg _)) (Nat.cast_nonneg n)

theorem rowVar_pos_of_ne (x : Mem ℝ) (off : Int) (n : Nat) (c1 c2 : Nat) (h1 : c1 < n)
    (h2 : c2 < n) (hne : x (off + c1) ≠ x (off + c2)) : 0 < rowVar x off n := by
  have hn : 0 < n := by omega
  rw [rowVar_eq_dev x off n hn]
  refine div_pos ?_ (by exact_mod_cast hn)
  have hex : ∃ c ∈ Finset.range n, x (off + c) ≠ rowMean x off n := by
    by_cases h : x (off + c1) = rowMean x off n
    · exact ⟨c2, Finset.mem_range.mpr h2, fun h' => hne (h.trans h'.symm)⟩
    · exact ⟨c1, Finset.mem_range.mpr h1, h⟩
  obtain ⟨c, hc, hcne⟩ := hex
  exact Finset.sum_pos' (fun c _ => mul_self_nonneg _)
    ⟨c, hc, mul_self_pos.mpr (sub_ne_zero.mpr hcne)⟩

/-- Statistics of a row obtained from `x` by subtracting the mean and dividing
by a positive `s`. -/
theorem normalized_row_stats (x d : Mem ℝ) (so po : Int) (n : Nat) (hn : 0 < n) (s : ℝ)
    (hs : 0 < s)
    (hd : ∀ c, c < n → d (po + c) = (x (so + c) - rowMean x so n) / s) :
    rowMean d po n = 0 ∧ rowVar d po n = rowVar x so n / (s * s) := by
  have hn0 : (n : ℝ) ≠ 0 := by exact_mod_cast hn.ne'
  have hmean : rowMean d po n = 0 := by
    unfold rowMean rowSum
    rw [Finset.sum_congr rfl (fun c hc => hd c (Finset.mem_range.mp hc)), ← Finset.sum_div,
      sum_dev_eq_zero x so n hn]
    simp
  refine ⟨hmean, ?_⟩
  have hsq : ∀ c ∈ Finset.range n, d (po + c) * d (po + c)
      = (x (so + c) - rowMean x so n) * (x (so + c) - rowMean x so n) / (s * s) := by
    intro c hc
    rw [hd c (Finset.mem_range.mp hc)]
    field_simp
  have hss : rowSumSq d po n = (n : ℝ) * rowVar x so n / (s * s) := by
    unfold rowSumSq
    rw [Finset.sum_congr rfl hsq, ← Finset.sum_div, sumsq_dev_eq x so n hn]
  have hv : rowVar d po n = rowSumSq d po n / (n : ℝ) - rowMean d po n * rowMean d po n := rfl
  rw [hv, hmean, hss]
  field_simp
  ring


/-! launch decisions -/

theorem norm_f32_sycl_launch_small (W ncols nrows nchannels nsamples : Nat) (tbl : Nat → Nat)
    (dev : Nat) (h1 : ncols % W = 0) (h2 : ncols < 1024) :
    norm_f32_sycl_launch W ncols nrows nchannels nsamples tbl dev
      = .ok (Launch.mk (nsamples, nchannels, nrows) (1, 1, W) none W) := by
  simp [norm_f32_sycl_launch, h1, h2]

theorem norm_f32_sycl_launch_large (W ncols nrows nchannels nsamples : Nat) (tbl : Nat → Nat)
    (dev : Nat) (h1 : ncols % W = 0) (h2 : ¬ ncols < 1024) (h3 : tbl dev % (W * W) = 0) :
    norm_f32_sycl_launch W ncols nrows nchannels nsamples tbl dev
      = .ok (Launch.mk (nsamples, nchannels, nrows) (1, 1, tbl dev) (some (tbl dev / W)) (tbl dev)) := by
  simp [norm_f32_sycl_launch, h1, h2, h3]

theorem norm_f32_sycl_launch_ok (W ncols nrows nchannels nsamples : Nat) (tbl : Nat → Nat)
    (dev : Nat) (l : Launch)
    (h : norm_f32_sycl_launch W ncols nrows nchannels nsamples tbl dev = .ok l) :
    ncols % W = 0 ∧
    ((ncols < 1024 ∧ l = (Launch.mk (nsamples, nchannels, nrows) (1, 1, W) none W)) ∨
     (¬ ncols < 1024 ∧ tbl dev % (W * W) = 0 ∧
        l = (Launch.mk (nsamples, nchannels, nrows) (1, 1, tbl dev) (some (tbl dev / W)) (tbl dev)))) := by
  simp only [norm_f32_sycl_launch] at h
  split_ifs at h with h1 h2 h3
  · cases h
    exact ⟨by simpa using h1, Or.inl ⟨h2, rfl⟩⟩
  · cases h
    exact ⟨by simpa using h1, Or.inr ⟨h2, by simpa using h3, rfl⟩⟩

theorem rms_norm_f32_sycl_launch_small (W ncols nrows nchannels nsamples : Nat) (tbl : Nat → Nat)
    (dev : Nat) (h1 : ncols % W = 0) (h2 : ncols < 1024) :
    rms_norm_f32_sycl_launch W ncols nrows nchannels nsamples tbl dev
      = .ok (Launch.mk (nsamples, nchannels, nrows) (1, 1, W) none W) := by
  simp [rms_norm_f32_sycl_launch, h1, h2]

theorem rms_norm_f32_sycl_launch_large (W ncols nrows nchannels nsamples : Nat) (tbl : Nat → Nat)
    (dev : Nat) (h1 : ncols % W = 0) (h2 : ¬ ncols < 1024) (h3 : tbl dev % (W * W) = 0) :
    rms_norm_f32_sycl_launch W ncols nrows nchannels nsamples tbl dev
      = .ok (Launch.mk (nsamples, nchannels, nrows) (1, 1, tbl dev) (some (tbl dev / W)) (tbl dev)) := by
  simp [rms_norm_f32_sycl_launch, h1, h2, h3]

theorem rms_norm_f32_sycl_launch_ok (W ncols nrows nchannels nsamples : Nat) (tbl : Nat → Nat)
    (dev : Nat) (l : Launch)
    (h : rms_norm_f32_sycl_launch W ncols nrows nchannels nsamples tbl dev = .ok l) :
    ncols % W = 0 ∧
    ((ncols < 1024 ∧ l = (Launch.mk (nsamples, nchannels, nrows) (1, 1, W) none W)) ∨
     (¬ ncols < 1024 ∧ tbl dev % (W * W) = 0 ∧
        l = (Launch.mk (nsamples, nchannels, nrows) (1, 1, tbl dev) (some (tbl dev / W)) (tbl dev)))) := by
  simp only [rms_norm_f32_sycl_launch] at h
  split_ifs at h with h1 h2 h3
  · cases h
    exact ⟨by simpa using h1, Or.inl ⟨h2, rfl⟩⟩
  · cases h
    exact ⟨by simpa using h1, Or.inr ⟨h2, by simpa using h3, rfl⟩⟩

theorem l2_norm_f32_sycl_launch_small (W ncols nrows : Nat) (tbl : Nat → Nat)
    (dev : Nat) (h1 : ncols % W = 0) (h2 : ncols < 1024) :
    l2_norm_f32_sycl_launch W ncols nrows tbl dev
      = .ok (Launch.mk (1, 1, nrows) (1, 1, W) none W) := by
  simp [l2_norm_f32_sycl_launch, h1, h2]

theorem l2_norm_f32_sycl_launch_large (W ncols nrows : Nat) (tbl : Nat → Nat)
    (dev : Nat) (h1 : ncols % W = 0) (h2 : ¬ ncols < 1024) (h3 : tbl dev % (W * W) = 0) :
    l2_norm_f32_sycl_launch W ncols nrows tbl dev
      = .ok (Launch.mk (1, 1, nrows) (1, 1, tbl dev) (some (tbl dev / W)) (tbl dev)) := by
  simp [l2_norm_f32_sycl_launch, h1, h2, h3]

theorem l2_norm_f32_sycl_launch_ok (W ncols nrows : Nat) (tbl : Nat → Nat)
    (dev : Nat) (l : Launch)
    (h : l2_norm_f32_sycl_launch W ncols nrows tbl dev = .ok l) :
    ncols % W = 0 ∧
    ((ncols < 1024 ∧ l = (Launch.mk (1, 1, nrows) (1, 1, W) none W)) ∨
     (¬ ncols < 1024 ∧ tbl dev % (W * W) = 0 ∧
        l = (Launch.mk (1, 1, nrows) (1, 1, tbl dev) (some (tbl dev / W)) (tbl dev)))) := by
  simp only [l2_norm_f32_sycl_launch] at h
  split_ifs at h with h1 h2 h3
  · cases h
    exact ⟨by simpa using h1, Or.inl ⟨h2, rfl⟩⟩
  · cases h
    exact ⟨by simpa using h1, Or.inr ⟨h2, by simpa using h3, rfl⟩⟩

theorem group_norm_f32_sycl_launch_small (W num_groups group_size : Nat) (tbl : Nat → Nat)
    (dev : Nat) (h2 : group_size < 1024) :
    group_norm_f32_sycl_launch W num_groups group_size tbl dev
      = .ok (Launch.mk (1, 1, num_groups) (1, 1, W) none W) := by
  simp [group_norm_f32_sycl_launch, h2]

theorem group_norm_f32_sycl_launch_large (W num_groups group_size : Nat) (tbl : Nat → Nat)
    (dev : Nat) (h2 : ¬ group_size < 1024) (h3 : tbl dev % (W * W) = 0) :
    group_norm_f32_sycl_launch W num_groups group_size tbl dev
      = .ok (Launch.mk (1, 1, num_groups) (1, 1, tbl dev) (some (tbl dev / W)) (tbl dev)) := by
  simp [group_norm_f32_sycl_launch, h2, h3]

theorem group_norm_f32_sycl_launch_ok (W num_groups group_size : Nat) (tbl : Nat → Nat)
    (dev : Nat) (l : Launch)
    (h : group_norm_f32_sycl_launch W num_groups group_size tbl dev = .ok l) :
    ((group_size < 1024 ∧ l = (Launch.mk (1, 1, num_groups) (1, 1, W) none W)) ∨
     (¬ group_size < 1024 ∧ tbl dev % (W * W) = 0 ∧
        l = (Launch.mk (1, 1, num_groups) (1, 1, tbl dev) (some (tbl dev / W)) (tbl dev)))) := by
  simp only [group_norm_f32_sycl_launch] at h
  split_ifs at h with h2 h3
  · cases h
    exact Or.inl ⟨h2, rfl⟩
  · cases h
    exact Or.inr ⟨h2, by simpa using h3, rfl⟩

/-- What the four dispatch functions have in common once a launch is made for
the innermost length `n` on a device of maximum group width `wgs`. -/
theorem policy_of_cases (W n wgs : Nat) (dims : Nat × Nat × Nat) (l : Launch)
    (h : (n < 1024 ∧ l = (Launch.mk dims (1, 1, W) none W)) ∨
     (¬ n < 1024 ∧ wgs % (W * W) = 0 ∧
        l = (Launch.mk dims (1, 1, wgs) (some (wgs / W)) wgs))) :
    DispatchPolicy W n wgs l ∧ (W < l.block_size → l.s_sum ≠ none) ∧
      (1 < W → 0 < wgs → (W < l.block_size ↔ l.s_sum ≠ none)) ∧
      (0 < W → 0 < wgs → ValidShape W l.block_dims.2.2 l.block_size l.s_sum) := by
  rcases h with ⟨hn, rfl⟩ | ⟨hn, hmod, rfl⟩
  · refine ⟨⟨fun _ => ⟨rfl, rfl, rfl⟩, fun h => absurd hn h⟩, ?_, ?_, ?_⟩
    · intro h; simp at h
    · intro _ _; simp
    · intro _ _; exact ⟨rfl, Or.inl rfl⟩
  · refine ⟨⟨fun h => absurd h hn, fun _ => ⟨rfl, rfl, rfl⟩⟩, ?_, ?_, ?_⟩
    · intro _; simp
    · intro hW hwgs
      have hle : W * W ≤ wgs := Nat.le_of_dvd hwgs (Nat.dvd_of_mod_eq_zero hmod)
      have : W < W * W := by nlinarith
      simp only [ne_eq, reduceCtorEq, not_false_eq_true, iff_true]
      omega
    · intro _ hwgs
      exact ⟨rfl, Or.inr ⟨hwgs, hmod, rfl⟩⟩


theorem inv_sqrt_mul_self (a S : ℝ) (hS : 0 < S) :
    (1 / Real.sqrt S * a) * (1 / Real.sqrt S * a) = a * a / S := by
  have hne : Real.sqrt S ≠ 0 := (Real.sqrt_pos.mpr hS).ne'
  field_simp

theorem rowSumSq_pos_of_ne_zero (x : Mem ℝ) (off : Int) (n c : Nat) (hc : c < n)
    (hne : x (off + c) ≠ 0) : 0 < rowSumSq x off n :=
  Finset.sum_pos' (fun _ _ => mul_self_nonneg _)
    ⟨c, Finset.mem_range.mpr hc, mul_self_pos.mpr hne⟩

/-- Mean square of the RMS-normalized row. -/
theorem rms_row_stats (x d : Mem ℝ) (so po : Int) (n : Nat) (eps : ℝ)
    (hpos : 0 < rowSumSq x so n / (n : ℝ) + eps)
    (hd : ∀ c, c < n →
      d (po + c) = 1 / Real.sqrt (rowSumSq x so n / (n : ℝ) + eps) * x (so + c)) :
    rowSumSq d po n / (n : ℝ)
      = rowSumSq x so n / (n : ℝ) / (rowSumSq x so n / (n : ℝ) + eps) := by
  have hsq : ∀ c ∈ Finset.range n, d (po + c) * d (po + c)
      = x (so + c) * x (so + c) / (rowSumSq x so n / (n : ℝ) + eps) := by
    intro c hc
    rw [hd c (Finset.mem_range.mp hc)]
    exact inv_sqrt_mul_self _ _ hpos
  have h1 : rowSumSq d po n = ∑ c in Finset.range n, d (po + c) * d (po + c) := rfl
  have h2 : ∑ c in Finset.range n, x (so + c) * x (so + c) = rowSumSq x so n := rfl
  rw [h1, Finset.sum_congr rfl hsq, ← Finset.sum_div, h2]
  ring

/-! grids of independent work-groups -/

/-- Work-groups `0 .. n-1` run one after the other, each writing the values
`F g` on its own region `R g` and nothing else: the run succeeds, leaves
everything outside the regions unchanged, and when the regions are pairwise
disjoint every region holds the values of its group. -/
theorem foldlM_range_regions {α : Type} (k : Nat → Mem α → Option (Mem α))
    (R : Nat → Int → Prop) (F : Nat → Int → α) (n : Nat)
    (hk : ∀ g, g < n → ∀ d, ∃ d', k g d = some d' ∧ (∀ a, R g a → d' a = F g a) ∧
      (∀ a, ¬ R g a → d' a = d a))
    (dst : Mem α) :
    ∃ D, (List.range n).foldlM (fun d g => k g d) dst = some D ∧
      (∀ a, (∀ g, g < n → ¬ R g a) → D a = dst a) ∧
      ((∀ g g', g < n → g' < n → g ≠ g' → ∀ a, ¬ (R g a ∧ R g' a)) →
        ∀ g, g < n → ∀ a, R g a → D a = F g a) := by
  induction n with
  | zero =>
    exact ⟨dst, rfl, fun _ _ => rfl, fun _ g hg => absurd hg (Nat.not_lt_zero g)⟩
  | succ n ih =>
    obtain ⟨D, hD, hfr, hval⟩ := ih (fun g hg => hk g (by omega))
    obtain ⟨D', hD', hv', hf'⟩ := hk n (by omega) D
    refine ⟨D', ?_, ?_, ?_⟩
    · rw [List.range_succ, List.foldlM_append, hD]
      simp [hD']
    · intro a ha
      rw [hf' a (ha n (by omega)), hfr a (fun g hg => ha g (by omega))]
    · intro hdis g hg a hRa
      by_cases hgn : g = n
      · subst hgn
        exact hv' a hRa
      · have hna : ¬ R n a := fun h => hdis g n hg (by omega) hgn a ⟨hRa, h⟩
        rw [hf' a hna]
        exact hval (fun g g' h1 h2 => hdis g g' (by omega) (by omega)) g (by omega) a hRa

theorem gridGroups_row (n : Nat) :
    gridGroups (1, 1, n) = (List.range n).map (fun g => (0, 0, g)) := by
  simp [gridGroups, List.range_succ]

theorem parallel_for_row {α : Type} (l : Launch) (n : Nat) (hl : l.global_dims = (1, 1, n))
    (kernel : nd_item → Option Nat → Nat → Mem α → Option (Mem α)) (dst : Mem α) :
    parallel_for l kernel dst
      = (List.range n).foldlM
          (fun d g => kernel (l.item (0, 0, g)) l.s_sum l.block_size d) dst := by
  unfold parallel_for
  rw [hl, gridGroups_row]
  generalize List.range n = L
  induction L generalizing dst with
  | nil => rfl
  | cons g L ih =>
    simp only [List.map_cons, List.foldlM_cons]
    cases kernel (l.item (0, 0, g)) l.s_sum l.block_size dst with
    | none => rfl
    | some d => exact ih d



/-- A launch of `l2_norm_f32` over `nrows` groups of a valid shape. -/
theorem l2_norm_f32_grid_spec {α : Type} [LinearOrderedField α] (W k : Nat) (hW : W = 2 ^ k)
    (rsqrt : α → α) (x dst : Mem α) (ncols nrows : Nat) (eps : α) (l : Launch)
    (hg : l.global_dims = (1, 1, nrows)) (hb : l.block_dims.2.1 = 1)
    (hs : ValidShape W l.block_dims.2.2 l.block_size l.s_sum) :
    ∃ D, parallel_for l (fun item_ct1 s_sum block_size d =>
          l2_norm_f32 W rsqrt x d ncols eps item_ct1 s_sum block_size) dst = some D ∧
      (∀ row col, row < nrows → col < ncols →
        D (((row * ncols : Nat) : Int) + col)
          = rsqrt (max (rowSumSq x ((row * ncols : Nat) : Int) ncols) (eps * eps))
            * x (((row * ncols : Nat) : Int) + col)) ∧
      (∀ a, ¬ (0 ≤ a ∧ a < ((nrows * ncols : Nat) : Int)) → D a = dst a) := by
  have hrow : ∀ g, l2_norm_row (l.item (0, 0, g)) = g := by
    intro g
    simp [l2_norm_row, Launch.item, hb]
  obtain ⟨D, hD, hfr, hval⟩ := foldlM_range_regions
    (fun g d => l2_norm_f32 W rsqrt x d ncols eps (l.item (0, 0, g)) l.s_sum l.block_size)
    (fun g a => ∃ col : Nat, col < ncols ∧ ((g * ncols : Nat) : Int) + col = a)
    (fun g a => rsqrt (max (rowSumSq x ((g * ncols : Nat) : Int) ncols) (eps * eps)) * x a)
    nrows
    (fun g _ d => by
      obtain ⟨d', hd', hv, hf⟩ := l2_norm_f32_spec W k hW rsqrt x d ncols eps (l.item (0, 0, g))
        l.s_sum l.block_size hs
      rw [hrow g] at hv hf
      refine ⟨d', hd', ?_, ?_⟩
      · rintro a ⟨col, hcol, rfl⟩
        exact hv col hcol
      · intro a ha
        exact hf a (fun col hcol h => ha ⟨col, hcol, h⟩))
    dst
  refine ⟨D, ?_, ?_, ?_⟩
  · rw [parallel_for_row l nrows hg]
    exact hD
  · intro row col hrow' hcol
    refine hval ?_ row hrow' _ ⟨col, hcol, rfl⟩
    rintro g g' - - hne a ⟨⟨c, hc, h1⟩, ⟨c', hc', h2⟩⟩
    rw [← h2] at h1
    have h3 : g * ncols + c = g' * ncols + c' := by exact_mod_cast h1
    apply hne
    have e1 : (g * ncols + c) / ncols = g := by
      rw [Nat.add_comm, Nat.add_mul_div_right _ _ (by omega), Nat.div_eq_of_lt hc, Nat.zero_add]
    have e2 : (g' * ncols + c') / ncols = g' := by
      rw [Nat.add_comm, Nat.add_mul_div_right _ _ (by omega), Nat.div_eq_of_lt hc', Nat.zero_add]
    rw [← e1, ← e2, h3]
  · intro a ha
    refine hfr a ?_
    rintro g hg' ⟨col, hcol, rfl⟩
    apply ha
    have h1 : g * ncols + ncols ≤ nrows * ncols := by
      have := Nat.mul_le_mul_right ncols (Nat.succ_le_of_lt hg')
      rw [Nat.succ_mul] at this
      exact this
    constructor
    · positivity
    · have : g * ncols + col < nrows * ncols := by omega
      exact_mod_cast this

/-- Host function `l2_norm_f32_sycl` on a row length that is a multiple of `W`
and a device whose maximum group width is a positive multiple of `W * W`. -/
theorem l2_norm_f32_sycl_spec {α : Type} [LinearOrderedField α] (W k : Nat) (hW : W = 2 ^ k)
    (rsqrt : α → α) (x dst : Mem α) (ncols nrows : Nat) (eps : α) (tbl : Nat → Nat) (dev : Nat)
    (hcols : ncols % W = 0) (hwgs : 0 < tbl dev) (hmod : tbl dev % (W * W) = 0) :
    ∃ D, l2_norm_f32_sycl W rsqrt x dst ncols nrows eps tbl dev = .ok D ∧
      (∀ row col, row < nrows → col < ncols →
        D (((row * ncols : Nat) : Int) + col)
          = rsqrt (max (rowSumSq x ((row * ncols : Nat) : Int) ncols) (eps * eps))
            * x (((row * ncols : Nat) : Int) + col)) ∧
      (∀ a, ¬ (0 ≤ a ∧ a < ((nrows * ncols : Nat) : Int)) → D a = dst a) := by
  have hWpos : 0 < W := by rw [hW]; exact Nat.pos_pow_of_pos _ (by decide)
  have key : ∀ l : Launch, l2_norm_f32_sycl_launch W ncols nrows tbl dev = .ok l →
      l.global_dims = (1, 1, nrows) ∧ l.block_dims.2.1 = 1 ∧
      ValidShape W l.block_dims.2.2 l.block_size l.s_sum := by
    intro l hl
    have h := (l2_norm_f32_sycl_launch_ok W ncols nrows tbl dev l hl).2
    have hv := (policy_of_cases W ncols (tbl dev) (1, 1, nrows) l h).2.2.2 hWpos hwgs
    rcases h with ⟨-, rfl⟩ | ⟨-, -, rfl⟩ <;> exact ⟨rfl, rfl, hv⟩
  have hex : ∃ l, l2_norm_f32_sycl_launch W ncols nrows tbl dev = .ok l := by
    by_cases hsm : ncols < 1024
    · exact ⟨_, l2_norm_f32_sycl_launch_small W ncols nrows tbl dev hcols hsm⟩
    · exact ⟨_, l2_norm_f32_sycl_launch_large W ncols nrows tbl dev hcols hsm hmod⟩
  obtain ⟨l, hl⟩ := hex
  obtain ⟨hg, hb, hs⟩ := key l hl
  obtain ⟨D, hD, h1, h2⟩ := l2_norm_f32_grid_spec W k hW rsqrt x dst ncols nrows eps l hg hb hs
  refine ⟨D, ?_, h1, h2⟩
  unfold l2_norm_f32_sycl
  rw [hl]
  simp only [bind, Except.bind, hD]



theorem group_start_item (l : Launch) (group_size g : Nat) :
    group_start group_size (l.item (0, 0, g)) = g * group_size := rfl

theorem group_end_le_ne (group_size ne_elements : Nat) (item : nd_item) :
    group_end group_size ne_elements item ≤ ne_elements := by
  unfold group_end
  split_ifs with h <;> omega

theorem group_end_le_start_add (group_size ne_elements : Nat) (item : nd_item) :
    group_end group_size ne_elements item ≤ group_start group_size item + group_size := by
  unfold group_end
  split_ifs with h <;> omega

/-- A launch of `group_norm_f32` over `num_groups` groups of a valid shape. -/
theorem group_norm_f32_grid_spec {α : Type} [Field α] (W k : Nat) (hW : W = 2 ^ k)
    (rsqrt : α → α) (x dst : Mem α) (num_groups group_size ne_elements : Nat) (eps : α)
    (l : Launch) (hg : l.global_dims = (1, 1, num_groups))
    (hs : ValidShape W l.block_dims.2.2 l.block_size l.s_sum) :
    ∃ D, parallel_for l (fun item_ct1 s_sum block_size d =>
          group_norm_f32 W rsqrt x d group_size ne_elements eps item_ct1 s_sum block_size) dst
        = some D ∧
      (∀ g j, g < num_groups → g * group_size ≤ j →
        j < group_end group_size ne_elements (l.item (0, 0, g)) →
        D (j : Int) = (x (j : Int)
            - rangeSum x (g * group_size) (group_end group_size ne_elements (l.item (0, 0, g)))
              / (group_size : α))
          * rsqrt (rangeSumSqDev x
              (rangeSum x (g * group_size) (group_end group_size ne_elements (l.item (0, 0, g)))
                / (group_size : α))
              (g * group_size) (group_end group_size ne_elements (l.item (0, 0, g)))
              / (group_size : α) + eps)) ∧
      (∀ a, ¬ (0 ≤ a ∧ a < (ne_elements : Int)) → D a = dst a) := by
  obtain ⟨D, hD, hfr, hval⟩ := foldlM_range_regions
    (fun g d => group_norm_f32 W rsqrt x d group_size ne_elements eps (l.item (0, 0, g)) l.s_sum
      l.block_size)
    (fun g a => ∃ j : Nat, g * group_size ≤ j ∧
      j < group_end group_size ne_elements (l.item (0, 0, g)) ∧ (j : Int) = a)
    (fun g a => (x a
            - rangeSum x (g * group_size) (group_end group_size ne_elements (l.item (0, 0, g)))
              / (group_size : α))
          * rsqrt (rangeSumSqDev x
              (rangeSum x (g * group_size) (group_end group_size ne_elements (l.item (0, 0, g)))
                / (group_size : α))
              (g * group_size) (group_end group_size ne_elements (l.item (0, 0, g)))
              / (group_size : α) + eps))
    num_groups
    (fun g _ d => by
      obtain ⟨d', hd', hv, hf⟩ := group_norm_f32_spec W k hW rsqrt x d group_size ne_elements eps
        (l.item (0, 0, g)) l.s_sum l.block_size hs
      rw [group_start_item] at hv hf
      refine ⟨d', hd', ?_, ?_⟩
      · rintro a ⟨j, hj1, hj2, rfl⟩
        exact hv j hj1 hj2
      · intro a ha
        exact hf a (fun j hj1 hj2 h => ha ⟨j, hj1, hj2, h⟩))
    dst
  refine ⟨D, ?_, ?_, ?_⟩
  · rw [parallel_for_row l num_groups hg]
    exact hD
  · intro g j hg' hj1 hj2
    refine hval ?_ g hg' _ ⟨j, hj1, hj2, rfl⟩
    rintro g1 g2 - - hne a ⟨⟨j1, h11, h12, h13⟩, ⟨j2, h21, h22, h23⟩⟩
    rw [← h23] at h13
    have hjj : j1 = j2 := by exact_mod_cast h13
    subst hjj
    have e1 := group_end_le_start_add group_size ne_elements (l.item (0, 0, g1))
    have e2 := group_end_le_start_add group_size ne_elements (l.item (0, 0, g2))
    rw [group_start_item] at e1 e2
    rcases Nat.lt_or_gt_of_ne hne with h | h
    · have := Nat.mul_le_mul_right group_size (Nat.succ_le_of_lt h)
      rw [Nat.succ_mul] at this
      omega
    · have := Nat.mul_le_mul_right group_size (Nat.succ_le_of_lt h)
      rw [Nat.succ_mul] at this
      omega
  · intro a ha
    refine hfr a ?_
    rintro g - ⟨j, -, hj2, rfl⟩
    apply ha
    have := group_end_le_ne group_size ne_elements (l.item (0, 0, g))
    constructor
    · positivity
    · have : j < ne_elements := by omega
      exact_mod_cast this

/-- Host function `group_norm_f32_sycl` on a device whose maximum group width
is a positive multiple of `W * W`. -/
theorem group_norm_f32_sycl_spec {α : Type} [Field α] (W k : Nat) (hW : W = 2 ^ k)
    (rsqrt : α → α) (x dst : Mem α) (num_groups group_size ne_elements : Nat) (eps : α)
    (tbl : Nat → Nat) (dev : Nat) (hwgs : 0 < tbl dev) (hmod : tbl dev % (W * W) = 0) :
    ∃ l D, group_norm_f32_sycl_launch W num_groups group_size tbl dev = .ok l ∧
      group_norm_f32_sycl W rsqrt x dst num_groups eps group_size ne_elements tbl dev = .ok D ∧
      (∀ g j, g < num_groups → g * group_size ≤ j →
        j < group_end group_size ne_elements (l.item (0, 0, g)) →
        D (j : Int) = (x (j : Int)
            - rangeSum x (g * group_size) (group_end group_size ne_elements (l.item (0, 0, g)))
              / (group_size : α))
          * rsqrt (rangeSumSqDev x
              (rangeSum x (g * group_size) (group_end group_size ne_elements (l.item (0, 0, g)))
                / (group_size : α))
              (g * group_size) (group_end group_size ne_elements (l.item (0, 0, g)))
              / (group_size : α) + eps)) ∧
      (∀ a, ¬ (0 ≤ a ∧ a < (ne_elements : Int)) → D a = dst a) := by
  have hWpos : 0 < W := by rw [hW]; exact Nat.pos_pow_of_pos _ (by decide)
  have key : ∀ l : Launch, group_norm_f32_sycl_launch W num_groups group_size tbl dev = .ok l →
      l.global_dims = (1, 1, num_groups) ∧
      ValidShape W l.block_dims.2.2 l.block_size l.s_sum := by
    intro l hl
    have h := group_norm_f32_sycl_launch_ok W num_groups group_size tbl dev l hl
    have hv := (policy_of_cases W group_size (tbl dev) (1, 1, num_groups) l h).2.2.2 hWpos hwgs
    rcases h with ⟨-, rfl⟩ | ⟨-, -, rfl⟩ <;> exact ⟨rfl, hv⟩
  have hex : ∃ l, group_norm_f32_sycl_launch W num_groups group_size tbl dev = .ok l := by
    by_cases hsm : group_size < 1024
    · exact ⟨_, group_norm_f32_sycl_launch_small W num_groups group_size tbl dev hsm⟩
    · exact ⟨_, group_norm_f32_sycl_launch_large W num_groups group_size tbl dev hsm hmod⟩
  obtain ⟨l, hl⟩ := hex
  obtain ⟨hg, hs⟩ := key l hl
  obtain ⟨D, hD, h1, h2⟩ := group_norm_f32_grid_spec W k hW rsqrt x dst num_groups group_size
    ne_elements eps l hg hs
  refine ⟨l, D, hl, ?_, h1, h2⟩
  unfold group_norm_f32_sycl
  rw [hl]
  simp only [bind, Except.bind, hD]



/-! kernels of the flat operations read the input only at packed offsets -/

theorem lanesRun_congr {α β : Type} [Zero β] (n : Nat)
    (f f' : Nat → Mem α → Option (β × Mem α)) (h : ∀ t d, f t d = f' t d) (m : Mem α) :
    lanesRun n f m = lanesRun n f' m := by
  have : f = f' := by funext t d; exact h t d
  rw [this]

theorem l2_norm_f32_congr {α : Type} [Zero α] [Add α] [Mul α] [Max α]
    (W : Nat) (rsqrt : α → α) (x x' dst : Mem α) (ncols : Nat) (eps : α) (item : nd_item)
    (s_sum : Option Nat) (block_size : Nat)
    (h : ∀ col, col < ncols →
      x ((l2_norm_row item * ncols + col : Nat) : Int)
        = x' ((l2_norm_row item * ncols + col : Nat) : Int)) :
    l2_norm_f32 W rsqrt x dst ncols eps item s_sum block_size
      = l2_norm_f32 W rsqrt x' dst ncols eps item s_sum block_size := by
  have h1 : l2_norm_f32_sumsq W x ncols item s_sum block_size
      = l2_norm_f32_sumsq W x' ncols item s_sum block_size := by
    unfold l2_norm_f32_sumsq
    have : (fun tid => laneFor tid ncols block_size
        (fun (tmp : α) col =>
          let xi := x ((l2_norm_row item * ncols + col : Nat) : Int)
          tmp + xi * xi) 0)
        = (fun tid => laneFor tid ncols block_size
        (fun (tmp : α) col =>
          let xi := x' ((l2_norm_row item * ncols + col : Nat) : Int)
          tmp + xi * xi) 0) := by
      funext tid
      apply laneFor_congr
      intro s c hc
      simp only [h c hc]
    simp only [this]
  unfold l2_norm_f32
  rw [h1]
  cases l2_norm_f32_sumsq W x' ncols item s_sum block_size with
  | none => rfl
  | some r =>
    simp only [Option.some_bind, Option.bind_eq_bind]
    congr 1
    funext tid d
    apply laneFor_congr
    intro s c hc
    simp only [h c hc]

theorem group_norm_f32_congr {α : Type} [Zero α] [Add α] [Sub α] [Mul α] [Div α] [NatCast α]
    (W : Nat) (rsqrt : α → α) (x x' dst : Mem α) (group_size ne_elements : Nat) (eps : α)
    (item : nd_item) (s_sum : Option Nat) (block_size : Nat)
    (h : ∀ j : Nat, j < ne_elements → x (j : Int) = x' (j : Int)) :
    group_norm_f32 W rsqrt x dst group_size ne_elements eps item s_sum block_size
      = group_norm_f32 W rsqrt x' dst group_size ne_elements eps item s_sum block_size := by
  have hend := group_end_le_ne group_size ne_elements item
  have h1 : group_norm_f32_sum W x group_size ne_elements item s_sum block_size
      = group_norm_f32_sum W x' group_size ne_elements item s_sum block_size := by
    unfold group_norm_f32_sum
    have : (fun tid => laneFor (group_start group_size item + tid)
        (group_end group_size ne_elements item) block_size (fun (tmp : α) j => tmp + x (j : Int)) 0)
        = (fun tid => laneFor (group_start group_size item + tid)
        (group_end group_size ne_elements item) block_size
          (fun (tmp : α) j => tmp + x' (j : Int)) 0) := by
      funext tid
      apply laneFor_congr
      intro s c hc
      simp only [h c (by omega)]
    simp only [this]
  have h2 : group_norm_f32_sumsq W x dst group_size ne_elements item s_sum block_size
      = group_norm_f32_sumsq W x' dst group_size ne_elements item s_sum block_size := by
    unfold group_norm_f32_sumsq
    rw [h1]
    cases group_norm_f32_sum W x' group_size ne_elements item s_sum block_size with
    | none => rfl
    | some tmp =>
      simp only [Option.some_bind, Option.bind_eq_bind]
      congr 1
      apply lanesRun_congr
      intro tid d
      apply laneFor_congr
      intro s c hc
      simp only [h c (by omega)]
  unfold group_norm_f32
  rw [h2]



theorem l2_norm_f32_sycl_congr {α : Type} [Zero α] [Add α] [Mul α] [Max α]
    (W : Nat) (rsqrt : α → α) (x x' dst : Mem α) (ncols nrows : Nat) (eps : α)
    (tbl : Nat → Nat) (dev : Nat)
    (h : ∀ j : Nat, j < nrows * ncols → x (j : Int) = x' (j : Int)) :
    l2_norm_f32_sycl W rsqrt x dst ncols nrows eps tbl dev
      = l2_norm_f32_sycl W rsqrt x' dst ncols nrows eps tbl dev := by
  unfold l2_norm_f32_sycl
  cases hl : l2_norm_f32_sycl_launch W ncols nrows tbl dev with
  | error e => rfl
  | ok l =>
    have hc := (l2_norm_f32_sycl_launch_ok W ncols nrows tbl dev l hl).2
    have hg : l.global_dims = (1, 1, nrows) ∧ l.block_dims.2.1 = 1 := by
      rcases hc with ⟨-, rfl⟩ | ⟨-, -, rfl⟩ <;> exact ⟨rfl, rfl⟩
    have hpar : parallel_for l (fun item_ct1 s_sum block_size d =>
          l2_norm_f32 W rsqrt x d ncols eps item_ct1 s_sum block_size) dst
        = parallel_for l (fun item_ct1 s_sum block_size d =>
          l2_norm_f32 W rsqrt x' d ncols eps item_ct1 s_sum block_size) dst := by
      unfold parallel_for
      apply foldlM_congr_mem
      intro g hgm d
      apply l2_norm_f32_congr
      intro col hcol
      apply h
      rw [mem_gridGroups, hg.1] at hgm
      have hrow : l2_norm_row (l.item g) = g.2.2 := by
        simp [l2_norm_row, Launch.item, hg.2]
      rw [hrow]
      have h1 : g.2.2 * ncols + ncols ≤ nrows * ncols := by
        have := Nat.mul_le_mul_right ncols (Nat.succ_le_of_lt hgm.2.2)
        rw [Nat.succ_mul] at this
        exact this
      omega
    simp only [bind, Except.bind]
    rw [hpar]

theorem group_norm_f32_sycl_congr {α : Type} [Zero α] [Add α] [Sub α] [Mul α] [Div α]
    [NatCast α] (W : Nat) (rsqrt : α → α) (x x' dst : Mem α) (num_groups : Nat) (eps : α)
    (group_size ne_elements : Nat) (tbl : Nat → Nat) (dev : Nat)
    (h : ∀ j : Nat, j < ne_elements → x (j : Int) = x' (j : Int)) :
    group_norm_f32_sycl W rsqrt x dst num_groups eps group_size ne_elements tbl dev
      = group_norm_f32_sycl W rsqrt x' dst num_groups eps group_size ne_elements tbl dev := by
  unfold group_norm_f32_sycl
  cases hl : group_norm_f32_sycl_launch W num_groups group_size tbl dev with
  | error e => rfl
  | ok l =>
    have hpar : parallel_for l (fun item_ct1 s_sum block_size d =>
          group_norm_f32 W rsqrt x d group_size ne_elements eps item_ct1 s_sum block_size) dst
        = parallel_for l (fun item_ct1 s_sum block_size d =>
          group_norm_f32 W rsqrt x' d group_size ne_elements eps item_ct1 s_sum block_size)
            dst := by
      unfold parallel_for
      apply foldlM_congr_mem
      intro g _ d
      exact group_norm_f32_congr W rsqrt x x' d group_size ne_elements eps _ _ _ h
    simp only [bind, Except.bind]
    rw [hpar]

/-! entry points -/

theorem ggml_sycl_op_l2_norm_f32 {α : Type} [Zero α] [Add α] [Mul α] [Max α]
    (W : Nat) (rsqrt : α → α) (tbl : Nat → Nat) (dev : Nat) (src0 dst : ggml_tensor α) (eps : α)
    (h1 : src0.type = ggml_type.GGML_TYPE_F32) (h2 : dst.type = ggml_type.GGML_TYPE_F32) :
    ggml_sycl_op_l2_norm W rsqrt tbl dev src0 dst eps
      = l2_norm_f32_sycl W rsqrt src0.data dst.data src0.ne0 (ggml_nrows src0) eps tbl dev := by
  simp [ggml_sycl_op_l2_norm, h1, h2]

theorem ggml_sycl_op_group_norm_f32 {α : Type} [Zero α] [Add α] [Sub α] [Mul α] [Div α]
    [NatCast α] (W : Nat) (rsqrt : α → α) (tbl : Nat → Nat) (dev : Nat)
    (src0 dst : ggml_tensor α) (num_groups : Nat) (eps : α)
    (h1 : src0.type = ggml_type.GGML_TYPE_F32) (h2 : dst.type = ggml_type.GGML_TYPE_F32) :
    ggml_sycl_op_group_norm W rsqrt tbl dev src0 dst num_groups eps
      = group_norm_f32_sycl W rsqrt src0.data dst.data num_groups eps
          (group_norm_group_size src0 num_groups) (group_norm_ne_elements src0) tbl dev := by
  simp [ggml_sycl_op_group_norm, h1, h2]

theorem norm_f32_sycl_launch_assert (W ncols nrows nchannels nsamples : Nat) (tbl : Nat → Nat)
    (dev : Nat) (h1 : ncols % W ≠ 0) :
    norm_f32_sycl_launch W ncols nrows nchannels nsamples tbl dev
      = .error "GGML_ASSERT(ncols % WARP_SIZE == 0)" := by
  simp [norm_f32_sycl_launch, h1]

theorem rms_norm_f32_sycl_launch_assert (W ncols nrows nchannels nsamples : Nat)
    (tbl : Nat → Nat) (dev : Nat) (h1 : ncols % W ≠ 0) :
    rms_norm_f32_sycl_launch W ncols nrows nchannels nsamples tbl dev
      = .error "GGML_ASSERT(ncols % WARP_SIZE == 0)" := by
  simp [rms_norm_f32_sycl_launch, h1]

theorem l2_norm_f32_sycl_launch_assert (W ncols nrows : Nat) (tbl : Nat → Nat) (dev : Nat)
    (h1 : ncols % W ≠ 0) :
    l2_norm_f32_sycl_launch W ncols nrows tbl dev
      = .error "GGML_ASSERT(ncols % WARP_SIZE == 0)" := by
  simp [l2_norm_f32_sycl_launch, h1]

/-- The one-pass variance of a constant row is 0. -/
theorem rowVar_const (x : Mem ℝ) (off : Int) (n : Nat) (hn : 0 < n) (c : ℝ)
    (hconst : ∀ col, col < n → x (off + col) = c) : rowVar x off n = 0 := by
  have hn0 : (n : ℝ) ≠ 0 := by exact_mod_cast hn.ne'
  have hsum : rowSum x off n = (n : ℝ) * c := by
    unfold rowSum
    rw [Finset.sum_congr rfl (fun col hcol => hconst col (Finset.mem_range.mp hcol)),
      Finset.sum_const, Finset.card_range, nsmul_eq_mul]
  have hsq : rowSumSq x off n = (n : ℝ) * (c * c) := by
    unfold rowSumSq
    rw [Finset.sum_congr rfl (fun col hcol => by rw [hconst col (Finset.mem_range.mp hcol)]),
      Finset.sum_const, Finset.card_range, nsmul_eq_mul]
  unfold rowVar rowMean
  rw [hsum, hsq]
  field_simp

/-- The one-pass variance of a row is 0 exactly when the row is constant. -/
theorem rowVar_eq_zero_iff (x : Mem ℝ) (off : Int) (n : Nat) (hn : 0 < n) :
    rowVar x off n = 0 ↔
      ∀ c1 c2 : Nat, c1 < n → c2 < n → x (off + c1) = x (off + c2) := by
  constructor
  · intro h0 c1 c2 h1 h2
    by_contra hne
    have := rowVar_pos_of_ne x off n c1 c2 h1 h2 hne
    linarith
  · intro h
    exact rowVar_const x off n hn (x (off + (0 : Nat))) (fun col hcol => h col 0 hcol hn)

/-- Sums of squared deviations are nonnegative. -/
theorem rangeSumSqDev_nonneg (x : Mem ℝ) (m : ℝ) (a b : Nat) : 0 ≤ rangeSumSqDev x m a b :=
  Finset.sum_nonneg (fun _ _ => mul_self_nonneg _)

/-- Two rows of 32 columns stored with a row stride of 33 elements and their
packed copy: `ggml_sycl_op_l2_norm` writes different values at output index
32. -/
theorem l2_norm_padded_rows :
    (∀ row col : Nat, row < 2 → col < 32 →
      (fun a : Int => if a = 0 then (1 : ℝ) else if a = 32 then 7 else if a = 34 then 2 else 0)
          (((row * (132 / 4) + col : Nat) : Int))
        = (fun a : Int => if a = 0 then (1 : ℝ) else if a = 33 then 2 else 0)
          (((row * 32 + col : Nat) : Int))) ∧
    ∃ D1 D2,
      ggml_sycl_op_l2_norm 32 (fun v : ℝ => 1 / Real.sqrt v) (fun _ => 1024) 0
          ⟨ggml_type.GGML_TYPE_F32, 32, 2, 1, 1, 4, 132, 264, 264,
            fun a => if a = 0 then 1 else if a = 32 then 7 else if a = 34 then 2 else 0⟩
          ⟨ggml_type.GGML_TYPE_F32, 32, 2, 1, 1, 4, 128, 256, 256, fun _ => 0⟩ 0 = .ok D1 ∧
      ggml_sycl_op_l2_norm 32 (fun v : ℝ => 1 / Real.sqrt v) (fun _ => 1024) 0
          ⟨ggml_type.GGML_TYPE_F32, 32, 2, 1, 1, 4, 128, 256, 256,
            fun a => if a = 0 then 1 else if a = 33 then 2 else 0⟩
          ⟨ggml_type.GGML_TYPE_F32, 32, 2, 1, 1, 4, 128, 256, 256, fun _ => 0⟩ 0 = .ok D2 ∧
      D1 32 ≠ 0 ∧ D2 32 = 0 := by
  constructor
  · intro row col hrow hcol
    interval_cases row
    · interval_cases col <;> simp
    · interval_cases col <;> simp
  · obtain ⟨D1, hD1, hv1, -⟩ := l2_norm_f32_sycl_spec 32 5 (by norm_num)
      (fun v : ℝ => 1 / Real.sqrt v)
      (fun a : Int => if a = 0 then (1 : ℝ) else if a = 32 then 7 else if a = 34 then 2 else 0)
      (fun _ => 0) 32 2 0 (fun _ => 1024) 0 (by norm_num) (by norm_num) (by norm_num)
    obtain ⟨D2, hD2, hv2, -⟩ := l2_norm_f32_sycl_spec 32 5 (by norm_num)
      (fun v : ℝ => 1 / Real.sqrt v)
      (fun a : Int => if a = 0 then (1 : ℝ) else if a = 33 then 2 else 0)
      (fun _ => 0) 32 2 0 (fun _ => 1024) 0 (by norm_num) (by norm_num) (by norm_num)
    refine ⟨D1, D2, ?_, ?_, ?_, ?_⟩
    · rw [ggml_sycl_op_l2_norm_f32 _ _ _ _ _ _ _ rfl rfl]
      exact hD1
    · rw [ggml_sycl_op_l2_norm_f32 _ _ _ _ _ _ _ rfl rfl]
      exact hD2
    · have h := hv1 1 0 (by norm_num) (by norm_num)
      simp only [one_mul, Nat.cast_ofNat, Nat.cast_zero, add_zero] at h
      rw [h]
      have hS : 0 < rowSumSq
          (fun a : Int => if a = 0 then (1 : ℝ) else if a = 32 then 7 else if a = 34 then 2 else 0)
          32 32 := by
        refine rowSumSq_pos_of_ne_zero _ 32 32 0 (by norm_num) ?_
        norm_num
      have hmax : 0 < max (rowSumSq
          (fun a : Int => if a = 0 then (1 : ℝ) else if a = 32 then 7 else if a = 34 then 2 else 0)
          32 32) (0 * 0) := lt_max_of_lt_left hS
      have hr : 0 < 1 / Real.sqrt (max (rowSumSq
          (fun a : Int => if a = 0 then (1 : ℝ) else if a = 32 then 7 else if a = 34 then 2 else 0)
          32 32) (0 * 0)) := one_div_pos.mpr (Real.sqrt_pos.mpr hmax)
      refine mul_ne_zero hr.ne' ?_
      norm_num
    · have h := hv2 1 0 (by norm_num) (by norm_num)
      simp only [one_mul, Nat.cast_ofNat, Nat.cast_zero, add_zero] at h
      rw [h]
      norm_num

/-- Two rows of one column stored with a row stride of 2 elements and their
packed copy: `ggml_sycl_op_group_norm` writes values of different sign at
output index 0. -/
theorem group_norm_padded_rows :
    (∀ row col : Nat, row < 2 → col < 1 →
      (fun a : Int => if a = 0 then (1 : ℝ) else if a = 1 then -7 else if a = 2 then 2 else 0)
          (((row * (8 / 4) + col : Nat) : Int))
        = (fun a : Int => if a = 0 then (1 : ℝ) else if a = 1 then 2 else 0)
          (((row * 1 + col : Nat) : Int))) ∧
    ∃ D1 D2,
      ggml_sycl_op_group_norm 32 (fun v : ℝ => 1 / Real.sqrt v) (fun _ => 1024) 0
          (ggml_tensor.mk ggml_type.GGML_TYPE_F32 1 2 1 1 4 8 16 16
            (fun a => if a = 0 then 1 else if a = 1 then -7 else if a = 2 then 2 else 0))
          (ggml_tensor.mk ggml_type.GGML_TYPE_F32 1 2 1 1 4 4 8 8 (fun _ => 0)) 1 1 = .ok D1 ∧
      ggml_sycl_op_group_norm 32 (fun v : ℝ => 1 / Real.sqrt v) (fun _ => 1024) 0
          (ggml_tensor.mk ggml_type.GGML_TYPE_F32 1 2 1 1 4 4 8 8
            (fun a => if a = 0 then 1 else if a = 1 then 2 else 0))
          (ggml_tensor.mk ggml_type.GGML_TYPE_F32 1 2 1 1 4 4 8 8 (fun _ => 0)) 1 1 = .ok D2 ∧
      0 < D1 0 ∧ D2 0 < 0 := by
  constructor
  · intro row col hrow hcol
    interval_cases row <;> interval_cases col <;> simp
  · obtain ⟨l1, D1, hl1, hD1, hv1, -⟩ := group_norm_f32_sycl_spec 32 5 (by norm_num)
      (fun v : ℝ => 1 / Real.sqrt v)
      (fun a : Int => if a = 0 then (1 : ℝ) else if a = 1 then -7 else if a = 2 then 2 else 0)
      (fun _ => 0) 1 2 2 1 (fun _ => 1024) 0 (by norm_num) (by norm_num)
    obtain ⟨l2, D2, hl2, hD2, hv2, -⟩ := group_norm_f32_sycl_spec 32 5 (by norm_num)
      (fun v : ℝ => 1 / Real.sqrt v)
      (fun a : Int => if a = 0 then (1 : ℝ) else if a = 1 then 2 else 0)
      (fun _ => 0) 1 2 2 1 (fun _ => 1024) 0 (by norm_num) (by norm_num)
    rw [group_norm_f32_sycl_launch_small 32 1 2 _ 0 (by norm_num)] at hl1 hl2
    cases hl1
    cases hl2
    have hend : group_end 2 2 ((Launch.mk (1, 1, 1) (1, 1, 32) none 32).item (0, 0, 0)) = 2 := by
      decide
    have hpos : ∀ v : ℝ, 0 ≤ v → 0 < 1 / Real.sqrt (v / ((2 : Nat) : ℝ) + 1) := by
      intro v hv
      have : 0 < v / ((2 : Nat) : ℝ) + 1 := by positivity
      exact one_div_pos.mpr (Real.sqrt_pos.mpr this)
    refine ⟨D1, D2, ?_, ?_, ?_, ?_⟩
    · rw [ggml_sycl_op_group_norm_f32 _ _ _ _ _ _ _ _ rfl rfl]
      exact hD1
    · rw [ggml_sycl_op_group_norm_f32 _ _ _ _ _ _ _ _ rfl rfl]
      exact hD2
    · have h := hv1 0 0 (by norm_num) (by norm_num) (by rw [hend]; norm_num)
      rw [hend] at h
      have hs : rangeSum
          (fun a : Int => if a = 0 then (1 : ℝ) else if a = 1 then -7 else if a = 2 then 2 else 0)
          (0 * 2) 2 = -6 := by
        simp [rangeSum, Finset.sum_Ico_eq_sum_range, Finset.sum_range_succ]
        norm_num
      rw [hs] at h
      simp only [Nat.cast_zero] at h
      rw [h]
      refine mul_pos ?_ (hpos _ (rangeSumSqDev_nonneg _ _ _ _))
      norm_num
    · have h := hv2 0 0 (by norm_num) (by norm_num) (by rw [hend]; norm_num)
      rw [hend] at h
      have hs : rangeSum
          (fun a : Int => if a = 0 then (1 : ℝ) else if a = 1 then 2 else 0)
          (0 * 2) 2 = 3 := by
        simp [rangeSum, Finset.sum_Ico_eq_sum_range, Finset.sum_range_succ]
        norm_num
      rw [hs] at h
      simp only [Nat.cast_zero] at h
      rw [h]
      refine mul_neg_of_neg_of_pos ?_ (hpos _ (rangeSumSqDev_nonneg _ _ _ _))
      norm_num

/-! ## The claims -/

/-- C1: over exact real arithmetic (`rsqrt v = 1 / sqrt v` on positive `v`), for
every row, every `eps` with `variance + eps > 0` and every launch shape the
dispatch can choose (`block_size` equal to the group width, which is `W` or a
positive multiple of `W * W` with a scratch buffer of `width / W` entries),
the reduction of `norm_f32` leaves the totals (sum, sum of squares) of the
whole row in every lane, and `norm_f32` writes
`out[col] = (x[col] - mean) / sqrt(variance + eps)` for every `col < ncols`,
with `mean = sum / ncols` and `variance = sumsq / ncols - mean^2`. -/
theorem norm_f32_standard_normalization (W k : Nat) (hW : W = 2 ^ k) (rsqrt : ℝ → ℝ)
    (hrsqrt : ∀ v, 0 < v → rsqrt v = 1 / Real.sqrt v)
    (x dst : Mem ℝ) (ncols : Nat) (stride_row stride_channel stride_sample : Int) (eps : ℝ)
    (item_ct1 : nd_item) (s_sum : Option Nat) (block_size : Nat)
    (hshape : ValidShape W item_ct1.local_range2 block_size s_sum)
    (hvar : 0 < rowVar x (strided_offset stride_row stride_channel stride_sample item_ct1) ncols
      + eps) :
    ∃ r d,
      norm_f32_mean_var W x ncols stride_row stride_channel stride_sample item_ct1 s_sum
        block_size = some r ∧
      (∀ t, t < item_ct1.local_range2 →
        r t = (rowSum x (strided_offset stride_row stride_channel stride_sample item_ct1) ncols,
          rowSumSq x (strided_offset stride_row stride_channel stride_sample item_ct1) ncols)) ∧
      norm_f32 W rsqrt x dst ncols stride_row stride_channel stride_sample eps item_ct1 s_sum
        block_size = some d ∧
      ∀ col, col < ncols →
        d (packed_offset ncols item_ct1 + col)
          = (x (strided_offset stride_row stride_channel stride_sample item_ct1 + col)
              - rowMean x (strided_offset stride_row stride_channel stride_sample item_ct1) ncols)
            / Real.sqrt
              (rowVar x (strided_offset stride_row stride_channel stride_sample item_ct1) ncols
                + eps) := by
  obtain ⟨r, hr, hrt⟩ := norm_f32_mean_var_spec W k hW x ncols stride_row stride_channel
    stride_sample item_ct1 s_sum block_size hshape
  obtain ⟨d, hd, hd1, -⟩ := norm_f32_spec W k hW rsqrt x dst ncols stride_row stride_channel
    stride_sample eps item_ct1 s_sum block_size hshape
  refine ⟨r, d, hr, hrt, hd, fun col hcol => ?_⟩
  rw [hd1 col hcol, hrsqrt _ hvar, mul_one_div]

/-- C1 witness: the row `[1, 2, 3, 4]` with `eps = 1e-5`, run by one warp of
width 32, gives approximately `[-1.3416, -0.4472, 0.4472, 1.3416]`. -/
theorem norm_f32_standard_normalization_witness :
    ∃ d, norm_f32 32 (fun v => 1 / Real.sqrt v) (fun a => (a : ℝ) + 1) (fun _ => 0) 4 4 4 4
        (1 / 100000) ⟨0, 0, 0, 1, 1, 1, 32, 0⟩ none 32 = some d ∧
      |d 0 - (-1.3416)| < 1 / 10000 ∧ |d 1 - (-0.4472)| < 1 / 10000 ∧
      |d 2 - 0.4472| < 1 / 10000 ∧ |d 3 - 1.3416| < 1 / 10000 := by
  have hso : strided_offset 4 4 4 ⟨0, 0, 0, 1, 1, 1, 32, 0⟩ = 0 := by
    simp [strided_offset, calculate_offset]
  have hpo : packed_offset 4 ⟨0, 0, 0, 1, 1, 1, 32, 0⟩ = 0 := by
    simp [packed_offset, calculate_offset]
  have hmean : rowMean (fun a : Int => (a : ℝ) + 1) 0 4 = 5 / 2 := by
    simp [rowMean, rowSum, Finset.sum_range_succ]; norm_num
  have hvar : rowVar (fun a : Int => (a : ℝ) + 1) 0 4 = 5 / 4 := by
    rw [rowVar, hmean]
    simp [rowSumSq, Finset.sum_range_succ]; norm_num
  obtain ⟨r, d, -, -, hd, hcol⟩ := norm_f32_standard_normalization 32 5 (by norm_num)
    (fun v => 1 / Real.sqrt v) (fun _ _ => rfl) (fun a => (a : ℝ) + 1) (fun _ => 0) 4 4 4 4
    (1 / 100000) ⟨0, 0, 0, 1, 1, 1, 32, 0⟩ none 32 ⟨rfl, Or.inl rfl⟩
    (by rw [hso, hvar]; norm_num)
  rw [hso, hpo, hmean, hvar] at hcol
  have h0 := hcol 0 (by norm_num)
  have h1 := hcol 1 (by norm_num)
  have h2 := hcol 2 (by norm_num)
  have h3 := hcol 3 (by norm_num)
  simp only [Nat.cast_zero, Nat.cast_one, Nat.cast_ofNat, add_zero, zero_add, Int.cast_zero,
    Int.cast_one, Int.cast_ofNat] at h0 h1 h2 h3
  have hlo : (1.118 : ℝ) < Real.sqrt (5 / 4 + 1 / 100000) :=
    (Real.lt_sqrt (by norm_num)).mpr (by norm_num)
  have hhi : Real.sqrt (5 / 4 + 1 / 100000) < (1.1181 : ℝ) :=
    (Real.sqrt_lt' (by norm_num)).mpr (by norm_num)
  have hpos : (0 : ℝ) < Real.sqrt (5 / 4 + 1 / 100000) := by linarith
  refine ⟨d, hd, ?_, ?_, ?_, ?_⟩
  · rw [h0, abs_lt]
    constructor
    · rw [lt_sub_iff_add_lt, lt_div_iff₀ hpos]; nlinarith
    · rw [sub_lt_iff_lt_add, div_lt_iff₀ hpos]; nlinarith
  · rw [h1, abs_lt]
    constructor
    · rw [lt_sub_iff_add_lt, lt_div_iff₀ hpos]; nlinarith
    · rw [sub_lt_iff_lt_add, div_lt_iff₀ hpos]; nlinarith
  · rw [h2, abs_lt]
    constructor
    · rw [lt_sub_iff_add_lt, lt_div_iff₀ hpos]; nlinarith
    · rw [sub_lt_iff_lt_add, div_lt_iff₀ hpos]; nlinarith
  · rw [h3, abs_lt]
    constructor
    · rw [lt_sub_iff_add_lt, lt_div_iff₀ hpos]; nlinarith
    · rw [sub_lt_iff_lt_add, div_lt_iff₀ hpos]; nlinarith

/-- C3: for every grid (nsamples, nchannels, nrows), every row length and every
choice of outer strides, when the input buffer `x` read through the strides
holds the same logical values as the densely packed buffer `xp`, the launches
of `norm_f32` and of `rms_norm_f32` (any launch shape, and the launches made by
`norm_f32_sycl` and `rms_norm_f32_sycl`) give exactly the same result on the
strided view as on the packed copy with strides `ncols`, `nrows * ncols`,
`nchannels * nrows * ncols`. The element type and its arithmetic are
arbitrary, so the outputs agree bit for bit. -/
theorem strided_packed_equivalence {α : Type} [Zero α] [Add α] [Sub α] [Mul α] [Div α]
    [NatCast α] (W : Nat) (rsqrt : α → α) (x xp dst : Mem α)
    (ncols nrows nchannels nsamples : Nat) (stride_row stride_channel stride_sample : Int)
    (eps : α)
    (hx : ∀ sample channel row col, sample < nsamples → channel < nchannels → row < nrows →
      col < ncols →
      x (stride_sample * sample + stride_channel * channel + stride_row * row + col)
        = xp ((((sample * nchannels + channel) * nrows + row) * ncols + col : Nat) : Int)) :
    (∀ (l : Launch), l.global_dims = (nsamples, nchannels, nrows) →
      parallel_for l (fun item_ct1 s_sum block_size d =>
          norm_f32 W rsqrt x d ncols stride_row stride_channel stride_sample eps item_ct1 s_sum
            block_size) dst
        = parallel_for l (fun item_ct1 s_sum block_size d =>
          norm_f32 W rsqrt xp d ncols (ncols : Int) ((nrows * ncols : Nat) : Int)
            ((nchannels * nrows * ncols : Nat) : Int) eps item_ct1 s_sum block_size) dst) ∧
    (∀ (l : Launch), l.global_dims = (nsamples, nchannels, nrows) →
      parallel_for l (fun item_ct1 s_sum block_size d =>
          rms_norm_f32 W rsqrt x d ncols stride_row stride_channel stride_sample eps item_ct1
            s_sum block_size) dst
        = parallel_for l (fun item_ct1 s_sum block_size d =>
          rms_norm_f32 W rsqrt xp d ncols (ncols : Int) ((nrows * ncols : Nat) : Int)
            ((nchannels * nrows * ncols : Nat) : Int) eps item_ct1 s_sum block_size) dst) ∧
    (∀ (max_work_group_sizes : Nat → Nat) (device : Nat),
      norm_f32_sycl W rsqrt x dst ncols nrows nchannels nsamples stride_row stride_channel
          stride_sample eps max_work_group_sizes device
        = norm_f32_sycl W rsqrt xp dst ncols nrows nchannels nsamples (ncols : Int)
          ((nrows * ncols : Nat) : Int) ((nchannels * nrows * ncols : Nat) : Int) eps
          max_work_group_sizes device) ∧
    (∀ (max_work_group_sizes : Nat → Nat) (device : Nat),
      rms_norm_f32_sycl W rsqrt x dst ncols nrows nchannels nsamples stride_row stride_channel
          stride_sample eps max_work_group_sizes device
        = rms_norm_f32_sycl W rsqrt xp dst ncols nrows nchannels nsamples (ncols : Int)
          ((nrows * ncols : Nat) : Int) ((nchannels * nrows * ncols : Nat) : Int) eps
          max_work_group_sizes device) := by
  have hrow : ∀ (l : Launch), l.global_dims = (nsamples, nchannels, nrows) →
      ∀ g ∈ gridGroups l.global_dims, ∀ col, col < ncols →
        x (strided_offset stride_row stride_channel stride_sample (l.item g) + col)
          = xp (strided_offset (ncols : Int) ((nrows * ncols : Nat) : Int)
              ((nchannels * nrows * ncols : Nat) : Int) (l.item g) + col) := by
    intro l hl g hg col hcol
    rw [mem_gridGroups, hl] at hg
    have := hx g.1 g.2.1 g.2.2 col hg.1 hg.2.1 hg.2.2 hcol
    simp only [strided_offset, calculate_offset, Launch.item]
    rw [this]
    congr 1
    push_cast
    ring
  have hn : ∀ (l : Launch), l.global_dims = (nsamples, nchannels, nrows) →
      parallel_for l (fun item_ct1 s_sum block_size d =>
          norm_f32 W rsqrt x d ncols stride_row stride_channel stride_sample eps item_ct1 s_sum
            block_size) dst
        = parallel_for l (fun item_ct1 s_sum block_size d =>
          norm_f32 W rsqrt xp d ncols (ncols : Int) ((nrows * ncols : Nat) : Int)
            ((nchannels * nrows * ncols : Nat) : Int) eps item_ct1 s_sum block_size) dst := by
    intro l hl
    unfold parallel_for
    apply foldlM_congr_mem
    intro g hg d
    exact norm_f32_congr W rsqrt x xp d ncols _ _ _ _ _ _ eps _ _ _ (hrow l hl g hg)
  have hr : ∀ (l : Launch), l.global_dims = (nsamples, nchannels, nrows) →
      parallel_for l (fun item_ct1 s_sum block_size d =>
          rms_norm_f32 W rsqrt x d ncols stride_row stride_channel stride_sample eps item_ct1
            s_sum block_size) dst
        = parallel_for l (fun item_ct1 s_sum block_size d =>
          rms_norm_f32 W rsqrt xp d ncols (ncols : Int) ((nrows * ncols : Nat) : Int)
            ((nchannels * nrows * ncols : Nat) : Int) eps item_ct1 s_sum block_size) dst := by
    intro l hl
    unfold parallel_for
    apply foldlM_congr_mem
    intro g hg d
    exact rms_norm_f32_congr W rsqrt x xp d ncols _ _ _ _ _ _ eps _ _ _ (hrow l hl g hg)
  refine ⟨hn, hr, ?_, ?_⟩
  · intro tbl dev
    unfold norm_f32_sycl
    cases hl : norm_f32_sycl_launch W ncols nrows nchannels nsamples tbl dev with
    | error e => rfl
    | ok l =>
      have hg : l.global_dims = (nsamples, nchannels, nrows) := by
        simp only [norm_f32_sycl_launch] at hl
        split_ifs at hl <;> (cases hl; rfl)
      simp only [bind, Except.bind]
      rw [hn l hg]
  · intro tbl dev
    unfold rms_norm_f32_sycl
    cases hl : rms_norm_f32_sycl_launch W ncols nrows nchannels nsamples tbl dev with
    | error e => rfl
    | ok l =>
      have hg : l.global_dims = (nsamples, nchannels, nrows) := by
        simp only [rms_norm_f32_sycl_launch] at hl
        split_ifs at hl <;> (cases hl; rfl)
      simp only [bind, Except.bind]
      rw [hr l hg]

/-- C3 witness: two rows of two columns stored with a row stride of 3 (one
padding element after each row) against the packed copy. -/
theorem strided_packed_equivalence_witness :
    norm_f32_sycl 2 (fun v : ℚ => 1 / v)
        (fun a => if a = 0 then 1 else if a = 1 then 2 else if a = 3 then 3 else
          if a = 4 then 5 else 99)
        (fun _ => 0) 2 2 1 1 3 6 6 0 (fun _ => 4) 0
      = norm_f32_sycl 2 (fun v : ℚ => 1 / v)
        (fun a => if a = 0 then 1 else if a = 1 then 2 else if a = 2 then 3 else
          if a = 3 then 5 else 0)
        (fun _ => 0) 2 2 1 1 ((2 : Nat) : Int) ((2 * 2 : Nat) : Int) ((1 * 2 * 2 : Nat) : Int) 0
        (fun _ => 4) 0 :=
  (strided_packed_equivalence 2 (fun v : ℚ => 1 / v)
    (fun a => if a = 0 then 1 else if a = 1 then 2 else if a = 3 then 3 else
      if a = 4 then 5 else 99)
    (fun a => if a = 0 then 1 else if a = 1 then 2 else if a = 2 then 3 else
      if a = 3 then 5 else 0)
    (fun _ => 0) 2 2 1 1 3 6 6 0
    (by
      intro sample channel row col hs hc hr hcol
      interval_cases sample
      interval_cases channel
      interval_cases row <;> interval_cases col <;> simp)).2.2.1 (fun _ => 4) 0


/-- C5: over exact real arithmetic (`rsqrt v = 1 / sqrt v` on positive `v`), for
every row with sum of squares `S`, every `eps` and every launch shape the
dispatch can choose, `l2_norm_f32` writes
`out[col] = rsqrt(max(S, eps^2)) * x[col]`, which is
`x[col] / sqrt(max(S, eps^2))` when `max(S, eps^2) > 0`; for `S > eps^2` the
output row has Euclidean norm 1 (its sum of squares is 1), and for
`S <= eps^2` with `eps != 0` the output is `x[col] / |eps|`. -/
theorem l2_norm_f32_unit_norm (W k : Nat) (hW : W = 2 ^ k) (rsqrt : ℝ → ℝ)
    (hrsqrt : ∀ v, 0 < v → rsqrt v = 1 / Real.sqrt v)
    (x dst : Mem ℝ) (ncols : Nat) (eps : ℝ) (item_ct1 : nd_item) (s_sum : Option Nat)
    (block_size : Nat) (hshape : ValidShape W item_ct1.local_range2 block_size s_sum) :
    ∃ d, l2_norm_f32 W rsqrt x dst ncols eps item_ct1 s_sum block_size = some d ∧
      (∀ col, col < ncols →
        d (((l2_norm_row item_ct1 * ncols : Nat) : Int) + col)
          = rsqrt (max (rowSumSq x ((l2_norm_row item_ct1 * ncols : Nat) : Int) ncols) (eps ^ 2))
            * x (((l2_norm_row item_ct1 * ncols : Nat) : Int) + col)) ∧
      (0 < max (rowSumSq x ((l2_norm_row item_ct1 * ncols : Nat) : Int) ncols) (eps ^ 2) →
        ∀ col, col < ncols →
          d (((l2_norm_row item_ct1 * ncols : Nat) : Int) + col)
            = x (((l2_norm_row item_ct1 * ncols : Nat) : Int) + col)
              / Real.sqrt
                (max (rowSumSq x ((l2_norm_row item_ct1 * ncols : Nat) : Int) ncols) (eps ^ 2))) ∧
      (eps ^ 2 < rowSumSq x ((l2_norm_row item_ct1 * ncols : Nat) : Int) ncols →
        rowSumSq d ((l2_norm_row item_ct1 * ncols : Nat) : Int) ncols = 1) ∧
      (rowSumSq x ((l2_norm_row item_ct1 * ncols : Nat) : Int) ncols ≤ eps ^ 2 → eps ≠ 0 →
        ∀ col, col < ncols →
          d (((l2_norm_row item_ct1 * ncols : Nat) : Int) + col)
            = x (((l2_norm_row item_ct1 * ncols : Nat) : Int) + col) / |eps|) := by
  obtain ⟨d, hd, hv, -⟩ := l2_norm_f32_spec W k hW rsqrt x dst ncols eps item_ct1 s_sum
    block_size hshape
  rw [← pow_two] at hv
  refine ⟨d, hd, hv, ?_, ?_, ?_⟩
  · intro hpos col hcol
    rw [hv col hcol, hrsqrt _ hpos]
    ring
  · intro hS
    have hSpos : 0 < rowSumSq x ((l2_norm_row item_ct1 * ncols : Nat) : Int) ncols :=
      lt_of_le_of_lt (sq_nonneg eps) hS
    have hmax : max (rowSumSq x ((l2_norm_row item_ct1 * ncols : Nat) : Int) ncols) (eps ^ 2)
        = rowSumSq x ((l2_norm_row item_ct1 * ncols : Nat) : Int) ncols := max_eq_left hS.le
    have hsq : ∀ c ∈ Finset.range ncols,
        d (((l2_norm_row item_ct1 * ncols : Nat) : Int) + c)
          * d (((l2_norm_row item_ct1 * ncols : Nat) : Int) + c)
        = x (((l2_norm_row item_ct1 * ncols : Nat) : Int) + c)
          * x (((l2_norm_row item_ct1 * ncols : Nat) : Int) + c)
          / rowSumSq x ((l2_norm_row item_ct1 * ncols : Nat) : Int) ncols := by
      intro c hc
      rw [hv c (Finset.mem_range.mp hc), hmax, hrsqrt _ hSpos]
      exact inv_sqrt_mul_self _ _ hSpos
    have : rowSumSq d ((l2_norm_row item_ct1 * ncols : Nat) : Int) ncols
        = ∑ c in Finset.range ncols, d (((l2_norm_row item_ct1 * ncols : Nat) : Int) + c)
          * d (((l2_norm_row item_ct1 * ncols : Nat) : Int) + c) := rfl
    rw [this, Finset.sum_congr rfl hsq, ← Finset.sum_div]
    exact div_self hSpos.ne'
  · intro hS heps col hcol
    have hpos : 0 < eps ^ 2 := by positivity
    rw [hv col hcol, max_eq_right hS, hrsqrt _ hpos, Real.sqrt_sq_eq_abs]
    ring

/-- C5 witness: the row `[3, 4]` with `eps = 0`, run by one warp of width 32,
gives `[0.6, 0.8]`. -/
theorem l2_norm_f32_unit_norm_witness :
    ∃ d, l2_norm_f32 32 (fun v => 1 / Real.sqrt v) (fun a => (a : ℝ) + 3) (fun _ => 0) 2 0
        ⟨0, 0, 0, 1, 1, 1, 32, 0⟩ none 32 = some d ∧
      d 0 = 0.6 ∧ d 1 = 0.8 := by
  obtain ⟨d, hd, -, hform, -, -⟩ := l2_norm_f32_unit_norm 32 5 (by norm_num)
    (fun v => 1 / Real.sqrt v) (fun _ _ => rfl) (fun a => (a : ℝ) + 3) (fun _ => 0) 2 0
    ⟨0, 0, 0, 1, 1, 1, 32, 0⟩ none 32 ⟨rfl, Or.inl rfl⟩
  have hS : rowSumSq (fun a : Int => (a : ℝ) + 3)
      ((l2_norm_row ⟨0, 0, 0, 1, 1, 1, 32, 0⟩ * 2 : Nat) : Int) 2 = 25 := by
    simp [rowSumSq, l2_norm_row, Finset.sum_range_succ]; norm_num
  rw [hS] at hform
  have hmax : max (25 : ℝ) (0 ^ 2) = 5 ^ 2 := by norm_num
  rw [hmax, Real.sqrt_sq (by norm_num)] at hform
  have h0 := hform (by norm_num) 0 (by norm_num)
  have h1 := hform (by norm_num) 1 (by norm_num)
  simp only [l2_norm_row, Nat.cast_zero, Nat.cast_one, zero_mul, zero_add, add_zero, Nat.mul_zero,
    Nat.zero_mul, Int.cast_zero, Int.cast_one, Nat.add_zero] at h0 h1
  refine ⟨d, hd, ?_, ?_⟩
  · rw [h0]; norm_num
  · rw [h1]; norm_num

/-- C6: over exact real arithmetic (`rsqrt v = 1 / sqrt v` on positive `v`), for
every row of `ncols > 0` values with mean square `m = sumsq / ncols` and every
launch shape the dispatch can choose, `rms_norm_f32` writes
`out[col] = rsqrt(m + eps) * x[col]`; when `m + eps > 0` this is
`x[col] / sqrt(m + eps)` and the mean of `out^2` over the row is
`m / (m + eps)`; for `eps = 0` and a row that is not all zeros the mean of
`out^2` is 1. -/
theorem rms_norm_f32_mean_square (W k : Nat) (hW : W = 2 ^ k) (rsqrt : ℝ → ℝ)
    (hrsqrt : ∀ v, 0 < v → rsqrt v = 1 / Real.sqrt v)
    (x dst : Mem ℝ) (ncols : Nat) (hncols : 0 < ncols)
    (stride_row stride_channel stride_sample : Int) (eps : ℝ)
    (item_ct1 : nd_item) (s_sum : Option Nat) (block_size : Nat)
    (hshape : ValidShape W item_ct1.local_range2 block_size s_sum) :
    ∃ d, rms_norm_f32 W rsqrt x dst ncols stride_row stride_channel stride_sample eps item_ct1
        s_sum block_size = some d ∧
      (∀ col, col < ncols →
        d (packed_offset ncols item_ct1 + col)
          = rsqrt (rowSumSq x (strided_offset stride_row stride_channel stride_sample item_ct1)
              ncols / (ncols : ℝ) + eps)
            * x (strided_offset stride_row stride_channel stride_sample item_ct1 + col)) ∧
      (0 < rowSumSq x (strided_offset stride_row stride_channel stride_sample item_ct1) ncols
            / (ncols : ℝ) + eps →
        (∀ col, col < ncols →
          d (packed_offset ncols item_ct1 + col)
            = x (strided_offset stride_row stride_channel stride_sample item_ct1 + col)
              / Real.sqrt
                (rowSumSq x (strided_offset stride_row stride_channel stride_sample item_ct1)
                  ncols / (ncols : ℝ) + eps)) ∧
        rowSumSq d (packed_offset ncols item_ct1) ncols / (ncols : ℝ)
          = rowSumSq x (strided_offset stride_row stride_channel stride_sample item_ct1) ncols
              / (ncols : ℝ)
            / (rowSumSq x (strided_offset stride_row stride_channel stride_sample item_ct1) ncols
              / (ncols : ℝ) + eps)) ∧
      (eps = 0 →
        (∃ col, col < ncols ∧
          x (strided_offset stride_row stride_channel stride_sample item_ct1 + col) ≠ 0) →
        rowSumSq d (packed_offset ncols item_ct1) ncols / (ncols : ℝ) = 1) := by
  obtain ⟨d, hd, hv, -⟩ := rms_norm_f32_spec W k hW rsqrt x dst ncols stride_row stride_channel
    stride_sample eps item_ct1 s_sum block_size hshape
  have hn0 : (0 : ℝ) < (ncols : ℝ) := by exact_mod_cast hncols
  have hstat : 0 < rowSumSq x (strided_offset stride_row stride_channel stride_sample item_ct1)
        ncols / (ncols : ℝ) + eps →
      rowSumSq d (packed_offset ncols item_ct1) ncols / (ncols : ℝ)
          = rowSumSq x (strided_offset stride_row stride_channel stride_sample item_ct1) ncols
              / (ncols : ℝ)
            / (rowSumSq x (strided_offset stride_row stride_channel stride_sample item_ct1) ncols
              / (ncols : ℝ) + eps) := by
    intro hpos
    refine rms_row_stats x d _ _ ncols eps hpos (fun c hc => ?_)
    rw [hv c hc, hrsqrt _ hpos]
  refine ⟨d, hd, hv, ?_, ?_⟩
  · intro hpos
    refine ⟨fun col hcol => ?_, hstat hpos⟩
    rw [hv col hcol, hrsqrt _ hpos]
    ring
  · rintro rfl ⟨col, hcol, hne⟩
    have hS := rowSumSq_pos_of_ne_zero x _ ncols col hcol hne
    have hm : 0 < rowSumSq x (strided_offset stride_row stride_channel stride_sample item_ct1)
        ncols / (ncols : ℝ) := div_pos hS hn0
    rw [hstat (by rw [add_zero]; exact hm), add_zero]
    exact div_self hm.ne'

/-- C6 witness: the row `[3, 4]` with `eps = 0`, run by one warp of width 32:
the mean of the squared outputs is 1. -/
theorem rms_norm_f32_mean_square_witness :
    ∃ d, rms_norm_f32 32 (fun v => 1 / Real.sqrt v) (fun a => (a : ℝ) + 3) (fun _ => 0) 2 2 2 2 0
        ⟨0, 0, 0, 1, 1, 1, 32, 0⟩ none 32 = some d ∧
      rowSumSq d (packed_offset 2 ⟨0, 0, 0, 1, 1, 1, 32, 0⟩) 2 / ((2 : Nat) : ℝ) = 1 := by
  obtain ⟨d, hd, -, -, h1⟩ := rms_norm_f32_mean_square 32 5 (by norm_num)
    (fun v => 1 / Real.sqrt v) (fun _ _ => rfl) (fun a => (a : ℝ) + 3) (fun _ => 0) 2
    (by norm_num) 2 2 2 0 ⟨0, 0, 0, 1, 1, 1, 32, 0⟩ none 32 ⟨rfl, Or.inl rfl⟩
  refine ⟨d, hd, h1 rfl ⟨0, by norm_num, ?_⟩⟩
  simp [strided_offset, calculate_offset]

/-- C7: over exact real arithmetic (`rsqrt v = 1 / sqrt v` on positive `v`), for
every non-constant row, every `eps >= 0` and every launch shape the dispatch
can choose, the row written by `norm_f32` has mean 0 and variance
`v / (v + eps)`, with `v` the variance of the input row; for `eps = 0` the
output has mean 0 and variance 1. -/
theorem norm_f32_output_statistics (W k : Nat) (hW : W = 2 ^ k) (rsqrt : ℝ → ℝ)
    (hrsqrt : ∀ v, 0 < v → rsqrt v = 1 / Real.sqrt v)
    (x dst : Mem ℝ) (ncols : Nat) (stride_row stride_channel stride_sample : Int) (eps : ℝ)
    (heps : 0 ≤ eps) (item_ct1 : nd_item) (s_sum : Option Nat) (block_size : Nat)
    (hshape : ValidShape W item_ct1.local_range2 block_size s_sum)
    (c1 c2 : Nat) (hc1 : c1 < ncols) (hc2 : c2 < ncols)
    (hne : x (strided_offset stride_row stride_channel stride_sample item_ct1 + c1)
      ≠ x (strided_offset stride_row stride_channel stride_sample item_ct1 + c2)) :
    ∃ d, norm_f32 W rsqrt x dst ncols stride_row stride_channel stride_sample eps item_ct1 s_sum
        block_size = some d ∧
      rowMean d (packed_offset ncols item_ct1) ncols = 0 ∧
      rowVar d (packed_offset ncols item_ct1) ncols
        = rowVar x (strided_offset stride_row stride_channel stride_sample item_ct1) ncols
          / (rowVar x (strided_offset stride_row stride_channel stride_sample item_ct1) ncols
            + eps) ∧
      (eps = 0 → rowVar d (packed_offset ncols item_ct1) ncols = 1) := by
  obtain ⟨d, hd, hv, -⟩ := norm_f32_spec W k hW rsqrt x dst ncols stride_row stride_channel
    stride_sample eps item_ct1 s_sum block_size hshape
  have hn : 0 < ncols := by omega
  have hvar := rowVar_pos_of_ne x _ ncols c1 c2 hc1 hc2 hne
  have hpos : 0 < rowVar x (strided_offset stride_row stride_channel stride_sample item_ct1)
      ncols + eps := by linarith
  obtain ⟨hm, hvv⟩ := normalized_row_stats x d
    (strided_offset stride_row stride_channel stride_sample item_ct1)
    (packed_offset ncols item_ct1) ncols hn _ (Real.sqrt_pos.mpr hpos)
    (fun c hc => by rw [hv c hc, hrsqrt _ hpos, mul_one_div])
  rw [Real.mul_self_sqrt hpos.le] at hvv
  refine ⟨d, hd, hm, hvv, ?_⟩
  rintro rfl
  rw [hvv, add_zero]
  exact div_self hvar.ne'

/-- C7 witness: the row `[1, 2, 3, 4]` with `eps = 0`, run by one warp of
width 32: the output row has mean 0 and variance 1. -/
theorem norm_f32_output_statistics_witness :
    ∃ d, norm_f32 32 (fun v => 1 / Real.sqrt v) (fun a => (a : ℝ) + 1) (fun _ => 0) 4 4 4 4 0
        ⟨0, 0, 0, 1, 1, 1, 32, 0⟩ none 32 = some d ∧
      rowMean d (packed_offset 4 ⟨0, 0, 0, 1, 1, 1, 32, 0⟩) 4 = 0 ∧
      rowVar d (packed_offset 4 ⟨0, 0, 0, 1, 1, 1, 32, 0⟩) 4 = 1 := by
  obtain ⟨d, hd, hm, -, hv⟩ := norm_f32_output_statistics 32 5 (by norm_num)
    (fun v => 1 / Real.sqrt v) (fun _ _ => rfl) (fun a => (a : ℝ) + 1) (fun _ => 0) 4 4 4 4 0
    le_rfl ⟨0, 0, 0, 1, 1, 1, 32, 0⟩ none 32 ⟨rfl, Or.inl rfl⟩ 0 1 (by norm_num) (by norm_num)
    (by simp [strided_offset, calculate_offset])
  exact ⟨d, hd, hm, hv rfl⟩

/-- C9: over exact real arithmetic (`rsqrt v = 1 / sqrt v` on positive `v`) with
`eps = 0`, for every non-constant row and all launch shapes the dispatch can
choose, applying `norm_f32` to the row written by `norm_f32` (read as a packed
tensor) leaves that row unchanged: `norm(norm(x)) = norm(x)`. -/
theorem norm_f32_idempotent (W k : Nat) (hW : W = 2 ^ k) (rsqrt : ℝ → ℝ)
    (hrsqrt : ∀ v, 0 < v → rsqrt v = 1 / Real.sqrt v)
    (x dst dst2 : Mem ℝ) (ncols : Nat) (stride_row stride_channel stride_sample : Int)
    (item_ct1 : nd_item) (s_sum s_sum2 : Option Nat) (block_size block_size2 : Nat)
    (hshape : ValidShape W item_ct1.local_range2 block_size s_sum)
    (hshape2 : ValidShape W item_ct1.local_range2 block_size2 s_sum2)
    (c1 c2 : Nat) (hc1 : c1 < ncols) (hc2 : c2 < ncols)
    (hne : x (strided_offset stride_row stride_channel stride_sample item_ct1 + c1)
      ≠ x (strided_offset stride_row stride_channel stride_sample item_ct1 + c2)) :
    ∃ d1 d2,
      norm_f32 W rsqrt x dst ncols stride_row stride_channel stride_sample 0 item_ct1 s_sum
        block_size = some d1 ∧
      norm_f32 W rsqrt d1 dst2 ncols (ncols : Int)
        ((item_ct1.group_range2 * ncols : Nat) : Int)
        ((item_ct1.group_range1 * item_ct1.group_range2 * ncols : Nat) : Int) 0 item_ct1 s_sum2
        block_size2 = some d2 ∧
      ∀ col, col < ncols →
        d2 (packed_offset ncols item_ct1 + col) = d1 (packed_offset ncols item_ct1 + col) := by
  obtain ⟨d1, hd1, hv1, -⟩ := norm_f32_spec W k hW rsqrt x dst ncols stride_row stride_channel
    stride_sample 0 item_ct1 s_sum block_size hshape
  obtain ⟨d2, hd2, hv2, -⟩ := norm_f32_spec W k hW rsqrt d1 dst2 ncols (ncols : Int)
    ((item_ct1.group_range2 * ncols : Nat) : Int)
    ((item_ct1.group_range1 * item_ct1.group_range2 * ncols : Nat) : Int) 0 item_ct1 s_sum2
    block_size2 hshape2
  have hso : strided_offset (ncols : Int) ((item_ct1.group_range2 * ncols : Nat) : Int)
      ((item_ct1.group_range1 * item_ct1.group_range2 * ncols : Nat) : Int) item_ct1
      = packed_offset ncols item_ct1 := rfl
  rw [hso] at hv2
  have hn : 0 < ncols := by omega
  have hvar := rowVar_pos_of_ne x _ ncols c1 c2 hc1 hc2 hne
  have hpos : 0 < rowVar x (strided_offset stride_row stride_channel stride_sample item_ct1)
      ncols + 0 := by linarith
  obtain ⟨hm, hvv⟩ := normalized_row_stats x d1
    (strided_offset stride_row stride_channel stride_sample item_ct1)
    (packed_offset ncols item_ct1) ncols hn _ (Real.sqrt_pos.mpr hpos)
    (fun c hc => by rw [hv1 c hc, hrsqrt _ hpos, mul_one_div])
  rw [Real.mul_self_sqrt hpos.le, add_zero, div_self hvar.ne'] at hvv
  refine ⟨d1, d2, hd1, hd2, fun col hcol => ?_⟩
  rw [hv2 col hcol, hm, hvv, hrsqrt _ (by norm_num)]
  norm_num

/-- C9 witness: the row `[1, 2, 3, 4]`, run by one warp of width 32. -/
theorem norm_f32_idempotent_witness :
    ∃ d1 d2,
      norm_f32 32 (fun v => 1 / Real.sqrt v) (fun a => (a : ℝ) + 1) (fun _ => 0) 4 4 4 4 0
        ⟨0, 0, 0, 1, 1, 1, 32, 0⟩ none 32 = some d1 ∧
      norm_f32 32 (fun v => 1 / Real.sqrt v) d1 (fun _ => 0) 4 ((4 : Nat) : Int)
        ((1 * 4 : Nat) : Int) ((1 * 1 * 4 : Nat) : Int) 0 ⟨0, 0, 0, 1, 1, 1, 32, 0⟩ none 32
        = some d2 ∧
      ∀ col : Nat, col < 4 → d2 (packed_offset 4 ⟨0, 0, 0, 1, 1, 1, 32, 0⟩ + col)
        = d1 (packed_offset 4 ⟨0, 0, 0, 1, 1, 1, 32, 0⟩ + col) :=
  norm_f32_idempotent 32 5 (by norm_num) (fun v => 1 / Real.sqrt v) (fun _ _ => rfl)
    (fun a => (a : ℝ) + 1) (fun _ => 0) (fun _ => 0) 4 4 4 4 ⟨0, 0, 0, 1, 1, 1, 32, 0⟩ none none
    32 32 ⟨rfl, Or.inl rfl⟩ ⟨rfl, Or.inl rfl⟩ 0 1 (by norm_num) (by norm_num)
    (by simp [strided_offset, calculate_offset])

/-- C10: for a warp width `W >= 2` and a device of positive maximum group width
`wgs`, each of the four dispatch functions, for an innermost length `n`
(`ncols`, or `group_size` for group-norm; `ncols` a multiple of `W` where the
function asserts it): launches with group width `W`, `block_size = W` and a
null scratch pointer when `n < 1024`; launches with group width and
`block_size` equal to `wgs` and a scratch buffer of exactly `wgs / W` entries
when `n >= 1024` and `wgs` is a multiple of `W * W`; and in every launch it
makes, the kernel takes its scratch path (`block_size > W`) if and only if a
scratch buffer was allocated. -/
theorem dispatch_policy_and_scratch (W : Nat) (hW : 1 < W) (max_work_group_sizes : Nat → Nat)
    (device : Nat) (hwgs : 0 < max_work_group_sizes device) :
    (∀ ncols nrows nchannels nsamples : Nat,
      (ncols % W = 0 → ncols < 1024 →
        norm_f32_sycl_launch W ncols nrows nchannels nsamples max_work_group_sizes device
          = .ok (Launch.mk (nsamples, nchannels, nrows) (1, 1, W) none W)) ∧
      (ncols % W = 0 → ¬ ncols < 1024 → max_work_group_sizes device % (W * W) = 0 →
        norm_f32_sycl_launch W ncols nrows nchannels nsamples max_work_group_sizes device
          = .ok (Launch.mk (nsamples, nchannels, nrows) (1, 1, max_work_group_sizes device)
              (some (max_work_group_sizes device / W)) (max_work_group_sizes device))) ∧
      (∀ l, norm_f32_sycl_launch W ncols nrows nchannels nsamples max_work_group_sizes device
          = .ok l →
        DispatchPolicy W ncols (max_work_group_sizes device) l ∧
          (W < l.block_size ↔ l.s_sum ≠ none))) ∧
    (∀ num_groups group_size : Nat,
      (group_size < 1024 →
        group_norm_f32_sycl_launch W num_groups group_size max_work_group_sizes device
          = .ok (Launch.mk (1, 1, num_groups) (1, 1, W) none W)) ∧
      (¬ group_size < 1024 → max_work_group_sizes device % (W * W) = 0 →
        group_norm_f32_sycl_launch W num_groups group_size max_work_group_sizes device
          = .ok (Launch.mk (1, 1, num_groups) (1, 1, max_work_group_sizes device)
              (some (max_work_group_sizes device / W)) (max_work_group_sizes device))) ∧
      (∀ l, group_norm_f32_sycl_launch W num_groups group_size max_work_group_sizes device
          = .ok l →
        DispatchPolicy W group_size (max_work_group_sizes device) l ∧
          (W < l.block_size ↔ l.s_sum ≠ none))) ∧
    (∀ ncols nrows nchannels nsamples : Nat,
      (ncols % W = 0 → ncols < 1024 →
        rms_norm_f32_sycl_launch W ncols nrows nchannels nsamples max_work_group_sizes device
          = .ok (Launch.mk (nsamples, nchannels, nrows) (1, 1, W) none W)) ∧
      (ncols % W = 0 → ¬ ncols < 1024 → max_work_group_sizes device % (W * W) = 0 →
        rms_norm_f32_sycl_launch W ncols nrows nchannels nsamples max_work_group_sizes device
          = .ok (Launch.mk (nsamples, nchannels, nrows) (1, 1, max_work_group_sizes device)
              (some (max_work_group_sizes device / W)) (max_work_group_sizes device))) ∧
      (∀ l, rms_norm_f32_sycl_launch W ncols nrows nchannels nsamples max_work_group_sizes device
          = .ok l →
        DispatchPolicy W ncols (max_work_group_sizes device) l ∧
          (W < l.block_size ↔ l.s_sum ≠ none))) ∧
    (∀ ncols nrows : Nat,
      (ncols % W = 0 → ncols < 1024 →
        l2_norm_f32_sycl_launch W ncols nrows max_work_group_sizes device
          = .ok (Launch.mk (1, 1, nrows) (1, 1, W) none W)) ∧
      (ncols % W = 0 → ¬ ncols < 1024 → max_work_group_sizes device % (W * W) = 0 →
        l2_norm_f32_sycl_launch W ncols nrows max_work_group_sizes device
          = .ok (Launch.mk (1, 1, nrows) (1, 1, max_work_group_sizes device)
              (some (max_work_group_sizes device / W)) (max_work_group_sizes device))) ∧
      (∀ l, l2_norm_f32_sycl_launch W ncols nrows max_work_group_sizes device = .ok l →
        DispatchPolicy W ncols (max_work_group_sizes device) l ∧
          (W < l.block_size ↔ l.s_sum ≠ none))) := by
  refine ⟨?_, ?_, ?_, ?_⟩
  · intro ncols nrows nchannels nsamples
    refine ⟨norm_f32_sycl_launch_small W ncols nrows nchannels nsamples _ _,
      norm_f32_sycl_launch_large W ncols nrows nchannels nsamples _ _, fun l hl => ?_⟩
    have h := policy_of_cases W ncols (max_work_group_sizes device) _ l
      (norm_f32_sycl_launch_ok W ncols nrows nchannels nsamples _ _ l hl).2
    exact ⟨h.1, h.2.2.1 hW hwgs⟩
  · intro num_groups group_size
    refine ⟨group_norm_f32_sycl_launch_small W num_groups group_size _ _,
      group_norm_f32_sycl_launch_large W num_groups group_size _ _, fun l hl => ?_⟩
    have h := policy_of_cases W group_size (max_work_group_sizes device) _ l
      (group_norm_f32_sycl_launch_ok W num_groups group_size _ _ l hl)
    exact ⟨h.1, h.2.2.1 hW hwgs⟩
  · intro ncols nrows nchannels nsamples
    refine ⟨rms_norm_f32_sycl_launch_small W ncols nrows nchannels nsamples _ _,
      rms_norm_f32_sycl_launch_large W ncols nrows nchannels nsamples _ _, fun l hl => ?_⟩
    have h := policy_of_cases W ncols (max_work_group_sizes device) _ l
      (rms_norm_f32_sycl_launch_ok W ncols nrows nchannels nsamples _ _ l hl).2
    exact ⟨h.1, h.2.2.1 hW hwgs⟩
  · intro ncols nrows
    refine ⟨l2_norm_f32_sycl_launch_small W ncols nrows _ _,
      l2_norm_f32_sycl_launch_large W ncols nrows _ _, fun l hl => ?_⟩
    have h := policy_of_cases W ncols (max_work_group_sizes device) _ l
      (l2_norm_f32_sycl_launch_ok W ncols nrows _ _ l hl).2
    exact ⟨h.1, h.2.2.1 hW hwgs⟩

/-- C10 witness: warp width 32 on a device of maximum group width 1024; a row
of 4096 columns is launched with 1024 lanes and 32 scratch entries. -/
theorem dispatch_policy_and_scratch_witness :
    norm_f32_sycl_launch 32 4096 7 1 1 (fun _ => 1024) 0
      = .ok (Launch.mk (1, 1, 7) (1, 1, 1024) (some (1024 / 32)) 1024) :=
  ((dispatch_policy_and_scratch 32 (by decide) (fun _ => 1024) 0 (by decide)).1
    4096 7 1 1).2.1 (by decide) (by decide) (by decide)

/-- C12 (amended): `ggml_sycl_op_l2_norm` and `ggml_sycl_op_group_norm` read
the input buffer at the packed offsets only and never use the byte strides:
for every element type and arithmetic, two inputs of the same type and shape
whose buffers agree at the packed offsets (`[0, ne0 * nrows)` for L2,
`[0, ne0 * ne1 * ne2)` for group normalization) give the same result,
whatever their strides. The output is that of the densely packed copy when
the input buffer itself is densely packed. -/
theorem flat_ops_read_packed_offsets {α : Type} [Zero α] [Add α] [Sub α] [Mul α] [Div α]
    [NatCast α] [Max α] (W : Nat) (rsqrt : α → α) (max_work_group_sizes : Nat → Nat)
    (device : Nat) (src0 src0' dst : ggml_tensor α) (num_groups : Nat) (eps : α)
    (htype : src0'.type = src0.type) (hne0 : src0'.ne0 = src0.ne0) (hne1 : src0'.ne1 = src0.ne1)
    (hne2 : src0'.ne2 = src0.ne2) (hne3 : src0'.ne3 = src0.ne3) :
    ((∀ j : Nat, j < ggml_nrows src0 * src0.ne0 → src0.data (j : Int) = src0'.data (j : Int)) →
      ggml_sycl_op_l2_norm W rsqrt max_work_group_sizes device src0 dst eps
        = ggml_sycl_op_l2_norm W rsqrt max_work_group_sizes device src0' dst eps) ∧
    ((∀ j : Nat, j < src0.ne0 * src0.ne1 * src0.ne2 →
        src0.data (j : Int) = src0'.data (j : Int)) →
      ggml_sycl_op_group_norm W rsqrt max_work_group_sizes device src0 dst num_groups eps
        = ggml_sycl_op_group_norm W rsqrt max_work_group_sizes device src0' dst num_groups
            eps) := by
  have hrows : ggml_nrows src0' = ggml_nrows src0 := by
    simp [ggml_nrows, hne1, hne2, hne3]
  have hgs : group_norm_group_size src0' num_groups = group_norm_group_size src0 num_groups := by
    simp [group_norm_group_size, hne0, hne1, hne2]
  have hnel : group_norm_ne_elements src0' = group_norm_ne_elements src0 := by
    simp [group_norm_ne_elements, hne0, hne1, hne2]
  constructor
  · intro h
    by_cases h1 : src0.type = ggml_type.GGML_TYPE_F32
    · by_cases h2 : dst.type = ggml_type.GGML_TYPE_F32
      · rw [ggml_sycl_op_l2_norm_f32 W rsqrt _ _ src0 dst eps h1 h2,
          ggml_sycl_op_l2_norm_f32 W rsqrt _ _ src0' dst eps (htype.trans h1) h2, hne0, hrows]
        exact l2_norm_f32_sycl_congr W rsqrt _ _ _ _ _ eps _ _ h
      · simp [ggml_sycl_op_l2_norm, h2, htype]
    · simp [ggml_sycl_op_l2_norm, h1, htype]
  · intro h
    by_cases h1 : src0.type = ggml_type.GGML_TYPE_F32
    · by_cases h2 : dst.type = ggml_type.GGML_TYPE_F32
      · rw [ggml_sycl_op_group_norm_f32 W rsqrt _ _ src0 dst num_groups eps h1 h2,
          ggml_sycl_op_group_norm_f32 W rsqrt _ _ src0' dst num_groups eps (htype.trans h1) h2,
          hgs, hnel]
        exact group_norm_f32_sycl_congr W rsqrt _ _ _ _ eps _ _ _ _ h
      · simp [ggml_sycl_op_group_norm, h2, htype]
    · simp [ggml_sycl_op_group_norm, h1, htype]

/-- C12 witness: two rows of two columns; the second descriptor has padded
byte strides and a buffer that differs beyond the packed offsets. -/
theorem flat_ops_read_packed_offsets_witness :
    ggml_sycl_op_l2_norm 2 (fun v : ℚ => 1 / v) (fun _ => 4) 0
        ⟨ggml_type.GGML_TYPE_F32, 2, 2, 1, 1, 4, 8, 16, 16,
          fun a => if a = 0 then 3 else if a = 1 then 4 else if a = 3 then 5 else 0⟩
        ⟨ggml_type.GGML_TYPE_F32, 2, 2, 1, 1, 4, 8, 16, 16, fun _ => 0⟩ 0
      = ggml_sycl_op_l2_norm 2 (fun v : ℚ => 1 / v) (fun _ => 4) 0
        ⟨ggml_type.GGML_TYPE_F32, 2, 2, 1, 1, 4, 12, 24, 24,
          fun a => if a = 0 then 3 else if a = 1 then 4 else if a = 3 then 5 else
            if a = 5 then 9 else 0⟩
        ⟨ggml_type.GGML_TYPE_F32, 2, 2, 1, 1, 4, 8, 16, 16, fun _ => 0⟩ 0 :=
  (flat_ops_read_packed_offsets 2 (fun v : ℚ => 1 / v) (fun _ => 4) 0
    ⟨ggml_type.GGML_TYPE_F32, 2, 2, 1, 1, 4, 8, 16, 16,
      fun a => if a = 0 then 3 else if a = 1 then 4 else if a = 3 then 5 else 0⟩
    ⟨ggml_type.GGML_TYPE_F32, 2, 2, 1, 1, 4, 12, 24, 24,
      fun a => if a = 0 then 3 else if a = 1 then 4 else if a = 3 then 5 else
        if a = 5 then 9 else 0⟩
    ⟨ggml_type.GGML_TYPE_F32, 2, 2, 1, 1, 4, 8, 16, 16, fun _ => 0⟩ 1 0 rfl rfl rfl rfl rfl).1
    (by
      intro j hj
      have hj4 : j < 4 := by simpa [ggml_nrows] using hj
      interval_cases j <;> simp)

/-- C12 counterexample: warp width 32, device width 1024. For
`ggml_sycl_op_l2_norm` with `eps = 0`: a logical tensor of two rows of 32
columns, row 0 = `[1, 0, ..., 0]` and row 1 = `[0, 2, 0, ..., 0]`, stored with a
row stride of 33 elements (`nb1 = 132` bytes, the padding element at offset 32
holding 7) and its packed copy hold the same logical values, yet the output at
index 32 is nonzero for the strided input and 0 for the packed copy. For
`ggml_sycl_op_group_norm` with one group and `eps = 1`: two rows of one
column, `[1]` and `[2]`, stored with a row stride of 2 elements (`nb1 = 8`
bytes, the padding element at offset 1 holding -7) and their packed copy hold
the same logical values, yet the output at index 0 is positive for the strided
input and negative for the packed copy. -/
theorem flat_ops_strided_counterexample :
    ((∀ row col : Nat, row < 2 → col < 32 →
        (fun a : Int => if a = 0 then (1 : ℝ) else if a = 32 then 7 else if a = 34 then 2 else 0)
            (((row * (132 / 4) + col : Nat) : Int))
          = (fun a : Int => if a = 0 then (1 : ℝ) else if a = 33 then 2 else 0)
            (((row * 32 + col : Nat) : Int))) ∧
      ∃ D1 D2,
        ggml_sycl_op_l2_norm 32 (fun v : ℝ => 1 / Real.sqrt v) (fun _ => 1024) 0
            ⟨ggml_type.GGML_TYPE_F32, 32, 2, 1, 1, 4, 132, 264, 264,
              fun a => if a = 0 then 1 else if a = 32 then 7 else if a = 34 then 2 else 0⟩
            ⟨ggml_type.GGML_TYPE_F32, 32, 2, 1, 1, 4, 128, 256, 256, fun _ => 0⟩ 0 = .ok D1 ∧
        ggml_sycl_op_l2_norm 32 (fun v : ℝ => 1 / Real.sqrt v) (fun _ => 1024) 0
            ⟨ggml_type.GGML_TYPE_F32, 32, 2, 1, 1, 4, 128, 256, 256,
              fun a => if a = 0 then 1 else if a = 33 then 2 else 0⟩
            ⟨ggml_type.GGML_TYPE_F32, 32, 2, 1, 1, 4, 128, 256, 256, fun _ => 0⟩ 0 = .ok D2 ∧
        D1 32 ≠ 0 ∧ D2 32 = 0) ∧
    ((∀ row col : Nat, row < 2 → col < 1 →
        (fun a : Int => if a = 0 then (1 : ℝ) else if a = 1 then -7 else if a = 2 then 2 else 0)
            (((row * (8 / 4) + col : Nat) : Int))
          = (fun a : Int => if a = 0 then (1 : ℝ) else if a = 1 then 2 else 0)
            (((row * 1 + col : Nat) : Int))) ∧
      ∃ D1 D2,
        ggml_sycl_op_group_norm 32 (fun v : ℝ => 1 / Real.sqrt v) (fun _ => 1024) 0
            (ggml_tensor.mk ggml_type.GGML_TYPE_F32 1 2 1 1 4 8 16 16
              (fun a => if a = 0 then 1 else if a = 1 then -7 else if a = 2 then 2 else 0))
            (ggml_tensor.mk ggml_type.GGML_TYPE_F32 1 2 1 1 4 4 8 8 (fun _ => 0)) 1 1 = .ok D1 ∧
        ggml_sycl_op_group_norm 32 (fun v : ℝ => 1 / Real.sqrt v) (fun _ => 1024) 0
            (ggml_tensor.mk ggml_type.GGML_TYPE_F32 1 2 1 1 4 4 8 8
              (fun a => if a = 0 then 1 else if a = 1 then 2 else 0))
            (ggml_tensor.mk ggml_type.GGML_TYPE_F32 1 2 1 1 4 4 8 8 (fun _ => 0)) 1 1 = .ok D2 ∧
        0 < D1 0 ∧ D2 0 < 0) :=
  ⟨l2_norm_padded_rows, group_norm_padded_rows⟩

/-- C13 (the code at the failing input): warp width 32, device width 1024; an
F32 input of shape `(32, 1, 1, 2)` (two samples, 64 elements) and
`num_groups = 1`. `ggml_sycl_op_group_norm` passes the clamp bound
`ne0 * ne1 * ne2 = 32`, not the element count 64, launches one group, and
returns an output whose elements 32..63 (the second sample) still hold the
previous content of the output buffer. -/
theorem group_norm_second_sample_unwritten :
    group_norm_ne_elements
        (ggml_tensor.mk ggml_type.GGML_TYPE_F32 32 1 1 2 4 128 128 128
          (fun a : Int => (a : ℝ))) = 32 ∧
    (32 * 1 * 1 * 2 : Nat) = 64 ∧
    ∃ D, ggml_sycl_op_group_norm 32 (fun v : ℝ => 1 / Real.sqrt v) (fun _ => 1024) 0
        (ggml_tensor.mk ggml_type.GGML_TYPE_F32 32 1 1 2 4 128 128 128 (fun a : Int => (a : ℝ)))
        (ggml_tensor.mk ggml_type.GGML_TYPE_F32 32 1 1 2 4 128 128 128 (fun _ => -1))
        1 0 = .ok D ∧
      ∀ j : Nat, 32 ≤ j → j < 64 → D (j : Int) = -1 := by
  refine ⟨rfl, rfl, ?_⟩
  obtain ⟨l, D, -, hD, -, hfr⟩ := group_norm_f32_sycl_spec 32 5 (by norm_num)
    (fun v : ℝ => 1 / Real.sqrt v) (fun a : Int => (a : ℝ)) (fun _ => -1) 1 32 32 0
    (fun _ => 1024) 0 (by norm_num) (by norm_num)
  refine ⟨D, ?_, ?_⟩
  · rw [ggml_sycl_op_group_norm_f32 _ _ _ _ _ _ _ _ rfl rfl]
    exact hD
  · intro j h1 _
    rw [hfr (j : Int) (by
      intro h
      have := h.2
      have h32 : (j : Int) < 32 := by exact_mod_cast this
      omega)]

/-- C14 (amended): `ggml_sycl_op_norm` and `ggml_sycl_op_rms_norm` end with an
assertion failure, without running a kernel, whenever the input's innermost
byte stride differs from the element size; with F32 tensors (and `eps >= 0`
for `ggml_sycl_op_norm`) the failing assertion is `nb00 == ts0`.
`ggml_sycl_op_group_norm` and `ggml_sycl_op_l2_norm` do not read the byte
strides: their result is the same for every choice of strides. -/
theorem innermost_stride_assertion {α : Type} [Zero α] [Add α] [Sub α] [Mul α] [Div α]
    [NatCast α] [Max α] [LE α] [DecidableRel (fun a b : α => a ≤ b)]
    (W : Nat) (rsqrt : α → α) (ggml_type_size : ggml_type → Nat)
    (max_work_group_sizes : Nat → Nat) (device : Nat) (src0 dst : ggml_tensor α)
    (num_groups : Nat) (eps : α) (hnb : src0.nb0 ≠ ggml_type_size src0.type) :
    (∃ e, ggml_sycl_op_norm W rsqrt ggml_type_size max_work_group_sizes device src0 dst eps
        = .error e) ∧
    (∃ e, ggml_sycl_op_rms_norm W rsqrt ggml_type_size max_work_group_sizes device src0 dst eps
        = .error e) ∧
    (src0.type = ggml_type.GGML_TYPE_F32 → dst.type = ggml_type.GGML_TYPE_F32 →
      (0 ≤ eps →
        ggml_sycl_op_norm W rsqrt ggml_type_size max_work_group_sizes device src0 dst eps
          = .error "GGML_ASSERT(nb00 == ts0)") ∧
      ggml_sycl_op_rms_norm W rsqrt ggml_type_size max_work_group_sizes device src0 dst eps
        = .error "GGML_ASSERT(nb00 == ts0)") ∧
    (∀ nb0 nb1 nb2 nb3 : Nat,
      ggml_sycl_op_group_norm W rsqrt max_work_group_sizes device
          (ggml_tensor.mk src0.type src0.ne0 src0.ne1 src0.ne2 src0.ne3 nb0 nb1 nb2 nb3 src0.data)
          dst num_groups eps
        = ggml_sycl_op_group_norm W rsqrt max_work_group_sizes device src0 dst num_groups eps ∧
      ggml_sycl_op_l2_norm W rsqrt max_work_group_sizes device
          (ggml_tensor.mk src0.type src0.ne0 src0.ne1 src0.ne2 src0.ne3 nb0 nb1 nb2 nb3 src0.data)
          dst eps
        = ggml_sycl_op_l2_norm W rsqrt max_work_group_sizes device src0 dst eps) := by
  refine ⟨?_, ?_, ?_, ?_⟩
  · simp only [ggml_sycl_op_norm]
    split_ifs <;> exact ⟨_, rfl⟩
  · simp only [ggml_sycl_op_rms_norm]
    split_ifs <;> exact ⟨_, rfl⟩
  · intro h1 h2
    constructor
    · intro h3
      simp [ggml_sycl_op_norm, h1, h2, h3, hnb, h1 ▸ hnb]
    · simp [ggml_sycl_op_rms_norm, h1, h2, hnb, h1 ▸ hnb]
  · intro nb0 nb1 nb2 nb3
    exact ⟨rfl, rfl⟩

/-- C14 witness: an F32 row of 32 values with an innermost stride of 8 bytes
and an element size of 4 bytes. -/
theorem innermost_stride_assertion_witness :
    ggml_sycl_op_norm 32 (fun v : ℚ => 1 / v) (fun _ => 4) (fun _ => 1024) 0
        (ggml_tensor.mk ggml_type.GGML_TYPE_F32 32 1 1 1 8 256 256 256 (fun _ => 1))
        (ggml_tensor.mk ggml_type.GGML_TYPE_F32 32 1 1 1 4 128 128 128 (fun _ => 0)) 0
      = .error "GGML_ASSERT(nb00 == ts0)" :=
  ((innermost_stride_assertion 32 (fun v : ℚ => 1 / v) (fun _ => 4) (fun _ => 1024) 0
    (ggml_tensor.mk ggml_type.GGML_TYPE_F32 32 1 1 1 8 256 256 256 (fun _ => 1))
    (ggml_tensor.mk ggml_type.GGML_TYPE_F32 32 1 1 1 4 128 128 128 (fun _ => 0)) 1 0
    (by decide)).2.2.1 rfl rfl).1 (by norm_num)

/-- C14 counterexample: warp width 32, device width 1024, element size 4
bytes; an F32 input of 32 values whose innermost byte stride is 8. On this
input `ggml_sycl_op_norm` fails the assertion `nb00 == ts0`, but
`ggml_sycl_op_l2_norm` and `ggml_sycl_op_group_norm` run their kernels and
return an output. -/
theorem flat_ops_accept_strided_counterexample :
    (ggml_tensor.mk ggml_type.GGML_TYPE_F32 32 1 1 1 8 256 256 256 (fun _ => (1 : ℝ))).nb0 ≠ 4 ∧
    ggml_sycl_op_norm 32 (fun v : ℝ => 1 / Real.sqrt v) (fun _ => 4) (fun _ => 1024) 0
        (ggml_tensor.mk ggml_type.GGML_TYPE_F32 32 1 1 1 8 256 256 256 (fun _ => 1))
        (ggml_tensor.mk ggml_type.GGML_TYPE_F32 32 1 1 1 4 128 128 128 (fun _ => 0)) 0
      = .error "GGML_ASSERT(nb00 == ts0)" ∧
    (∃ D, ggml_sycl_op_l2_norm 32 (fun v : ℝ => 1 / Real.sqrt v) (fun _ => 1024) 0
        (ggml_tensor.mk ggml_type.GGML_TYPE_F32 32 1 1 1 8 256 256 256 (fun _ => 1))
        (ggml_tensor.mk ggml_type.GGML_TYPE_F32 32 1 1 1 4 128 128 128 (fun _ => 0)) 0
      = .ok D) ∧
    ∃ D, ggml_sycl_op_group_norm 32 (fun v : ℝ => 1 / Real.sqrt v) (fun _ => 1024) 0
        (ggml_tensor.mk ggml_type.GGML_TYPE_F32 32 1 1 1 8 256 256 256 (fun _ => 1))
        (ggml_tensor.mk ggml_type.GGML_TYPE_F32 32 1 1 1 4 128 128 128 (fun _ => 0)) 1 0
      = .ok D := by
  refine ⟨by decide, ?_, ?_, ?_⟩
  · simp [ggml_sycl_op_norm]
  · obtain ⟨D, hD, -, -⟩ := l2_norm_f32_sycl_spec 32 5 (by norm_num)
      (fun v : ℝ => 1 / Real.sqrt v) (fun _ => (1 : ℝ)) (fun _ => 0) 32 1 0
      (fun _ => 1024) 0 (by norm_num) (by norm_num) (by norm_num)
    refine ⟨D, ?_⟩
    rw [ggml_sycl_op_l2_norm_f32 _ _ _ _ _ _ _ rfl rfl]
    exact hD
  · obtain ⟨l, D, -, hD, -, -⟩ := group_norm_f32_sycl_spec 32 5 (by norm_num)
      (fun v : ℝ => 1 / Real.sqrt v) (fun _ => (1 : ℝ)) (fun _ => 0) 1 32 32 0
      (fun _ => 1024) 0 (by norm_num) (by norm_num)
    refine ⟨D, ?_⟩
    rw [ggml_sycl_op_group_norm_f32 _ _ _ _ _ _ _ _ rfl rfl]
    exact hD

/-- C15: on a device whose maximum group width is a multiple of `W * W`, each
of `norm_f32_sycl`, `rms_norm_f32_sycl` and `l2_norm_f32_sycl` fails with the
assertion `ncols % WARP_SIZE == 0`, without a launch, when `ncols` is not a
multiple of `W`, and makes exactly one launch when it is; so it fails if and
only if `ncols` is not a multiple of `W`. -/
theorem warp_width_precondition (W : Nat) (max_work_group_sizes : Nat → Nat) (device : Nat)
    (hdev : max_work_group_sizes device % (W * W) = 0) (ncols nrows nchannels nsamples : Nat) :
    ((ncols % W ≠ 0 →
        norm_f32_sycl_launch W ncols nrows nchannels nsamples max_work_group_sizes device
          = .error "GGML_ASSERT(ncols % WARP_SIZE == 0)") ∧
      (ncols % W = 0 → ∃! l,
        norm_f32_sycl_launch W ncols nrows nchannels nsamples max_work_group_sizes device
          = .ok l) ∧
      ((∃ e, norm_f32_sycl_launch W ncols nrows nchannels nsamples max_work_group_sizes device
          = .error e) ↔ ncols % W ≠ 0)) ∧
    ((ncols % W ≠ 0 →
        rms_norm_f32_sycl_launch W ncols nrows nchannels nsamples max_work_group_sizes device
          = .error "GGML_ASSERT(ncols % WARP_SIZE == 0)") ∧
      (ncols % W = 0 → ∃! l,
        rms_norm_f32_sycl_launch W ncols nrows nchannels nsamples max_work_group_sizes device
          = .ok l) ∧
      ((∃ e, rms_norm_f32_sycl_launch W ncols nrows nchannels nsamples max_work_group_sizes
          device = .error e) ↔ ncols % W ≠ 0)) ∧
    ((ncols % W ≠ 0 →
        l2_norm_f32_sycl_launch W ncols nrows max_work_group_sizes device
          = .error "GGML_ASSERT(ncols % WARP_SIZE == 0)") ∧
      (ncols % W = 0 → ∃! l,
        l2_norm_f32_sycl_launch W ncols nrows max_work_group_sizes device = .ok l) ∧
      ((∃ e, l2_norm_f32_sycl_launch W ncols nrows max_work_group_sizes device = .error e)
        ↔ ncols % W ≠ 0)) := by
  have hn : ncols % W = 0 → ∃ l,
      norm_f32_sycl_launch W ncols nrows nchannels nsamples max_work_group_sizes device
        = .ok l := by
    intro h
    by_cases hs : ncols < 1024
    · exact ⟨_, norm_f32_sycl_launch_small W ncols nrows nchannels nsamples _ _ h hs⟩
    · exact ⟨_, norm_f32_sycl_launch_large W ncols nrows nchannels nsamples _ _ h hs hdev⟩
  have hr : ncols % W = 0 → ∃ l,
      rms_norm_f32_sycl_launch W ncols nrows nchannels nsamples max_work_group_sizes device
        = .ok l := by
    intro h
    by_cases hs : ncols < 1024
    · exact ⟨_, rms_norm_f32_sycl_launch_small W ncols nrows nchannels nsamples _ _ h hs⟩
    · exact ⟨_, rms_norm_f32_sycl_launch_large W ncols nrows nchannels nsamples _ _ h hs hdev⟩
  have hl : ncols % W = 0 → ∃ l,
      l2_norm_f32_sycl_launch W ncols nrows max_work_group_sizes device = .ok l := by
    intro h
    by_cases hs : ncols < 1024
    · exact ⟨_, l2_norm_f32_sycl_launch_small W ncols nrows _ _ h hs⟩
    · exact ⟨_, l2_norm_f32_sycl_launch_large W ncols nrows _ _ h hs hdev⟩
  refine ⟨⟨norm_f32_sycl_launch_assert W ncols nrows nchannels nsamples _ _, ?_, ?_⟩,
    ⟨rms_norm_f32_sycl_launch_assert W ncols nrows nchannels nsamples _ _, ?_, ?_⟩,
    ⟨l2_norm_f32_sycl_launch_assert W ncols nrows _ _, ?_, ?_⟩⟩
  · intro h
    obtain ⟨l, hl'⟩ := hn h
    exact ⟨l, hl', fun l' h' => by rw [hl'] at h'; exact (Except.ok.inj h').symm⟩
  · constructor
    · rintro ⟨e, he⟩ h
      obtain ⟨l, hl'⟩ := hn h
      rw [hl'] at he
      cases he
    · intro h
      exact ⟨_, norm_f32_sycl_launch_assert W ncols nrows nchannels nsamples _ _ h⟩
  · intro h
    obtain ⟨l, hl'⟩ := hr h
    exact ⟨l, hl', fun l' h' => by rw [hl'] at h'; exact (Except.ok.inj h').symm⟩
  · constructor
    · rintro ⟨e, he⟩ h
      obtain ⟨l, hl'⟩ := hr h
      rw [hl'] at he
      cases he
    · intro h
      exact ⟨_, rms_norm_f32_sycl_launch_assert W ncols nrows nchannels nsamples _ _ h⟩
  · intro h
    obtain ⟨l, hl'⟩ := hl h
    exact ⟨l, hl', fun l' h' => by rw [hl'] at h'; exact (Except.ok.inj h').symm⟩
  · constructor
    · rintro ⟨e, he⟩ h
      obtain ⟨l, hl'⟩ := hl h
      rw [hl'] at he
      cases he
    · intro h
      exact ⟨_, l2_norm_f32_sycl_launch_assert W ncols nrows _ _ h⟩

/-- C15 witness: warp width 32, device width 1024, a row of 100 columns
(not a multiple of 32) is refused by `norm_f32_sycl`. -/
theorem warp_width_precondition_witness :
    norm_f32_sycl_launch 32 100 1 1 1 (fun _ => 1024) 0
      = .error "GGML_ASSERT(ncols % WARP_SIZE == 0)" :=
  (warp_width_precondition 32 (fun _ => 1024) 0 (by decide) 100 1 1 1).1.1 (by decide)

/-- C17 (the code at the failing input): warp width 32, device width 1024,
`eps = 0`; an F32 input of shape `(32, 1, 3, 1)` holding 1 everywhere and
`num_groups = 2`, so `group_size = 64` and `ne_elements = 96`. Group 1 is
clamped to the range `[64, 96)` of 32 elements, whose arithmetic mean is 1 and
whose mean squared deviation is 0. The kernel divides by `group_size = 64`:
the mean it subtracts is `1/2`, the de-meaned value it stores is `1/2` at
every index of the range (sum 16, not 0), the variance it uses is `1/8`, and
the final output is `1/2 * rsqrt (1/8)` on the range. -/
theorem group_norm_clamped_group_statistics :
    group_norm_group_size
        (ggml_tensor.mk ggml_type.GGML_TYPE_F32 32 1 3 1 4 128 128 384 (fun _ => (1 : ℝ))) 2
      = 64 ∧
    group_norm_ne_elements
        (ggml_tensor.mk ggml_type.GGML_TYPE_F32 32 1 3 1 4 128 128 384 (fun _ => (1 : ℝ))) = 96 ∧
    group_start 64 (nd_item.mk 0 0 1 1 2 1 32 0) = 64 ∧
    group_end 64 96 (nd_item.mk 0 0 1 1 2 1 32 0) = 96 ∧
    rangeSum (fun _ => (1 : ℝ)) 64 96 / ((96 - 64 : Nat) : ℝ) = 1 ∧
    rangeSumSqDev (fun _ => (1 : ℝ)) 1 64 96 / ((96 - 64 : Nat) : ℝ) = 0 ∧
    (∃ r d, group_norm_f32_sumsq 32 (fun _ => (1 : ℝ)) (fun _ => 0) 64 96
          (nd_item.mk 0 0 1 1 2 1 32 0) none 32 = some (r, d) ∧
        (∀ j : Nat, 64 ≤ j → j < 96 → d (j : Int) = 1 / 2) ∧
        ∑ j in Finset.Ico 64 96, d ((j : Nat) : Int) = 16 ∧
        ∀ t, t < 32 → r t / ((64 : Nat) : ℝ) = 1 / 8) ∧
    ∃ D, ggml_sycl_op_group_norm 32 (fun v : ℝ => 1 / Real.sqrt v) (fun _ => 1024) 0
        (ggml_tensor.mk ggml_type.GGML_TYPE_F32 32 1 3 1 4 128 128 384 (fun _ => (1 : ℝ)))
        (ggml_tensor.mk ggml_type.GGML_TYPE_F32 32 1 3 1 4 128 128 384 (fun _ => 0))
        2 0 = .ok D ∧
      ∀ j : Nat, 64 ≤ j → j < 96 → D (j : Int) = 1 / 2 * (1 / Real.sqrt (1 / 8)) := by
  have hsum : rangeSum (fun _ => (1 : ℝ)) 64 96 = 32 := by
    simp [rangeSum]
  have hsq : rangeSumSqDev (fun _ => (1 : ℝ)) (32 / ((64 : Nat) : ℝ)) 64 96 = 8 := by
    simp [rangeSumSqDev]
    norm_num
  have hstart : group_start 64 (nd_item.mk 0 0 1 1 2 1 32 0) = 64 := by decide
  have hend : group_end 64 96 (nd_item.mk 0 0 1 1 2 1 32 0) = 96 := by decide
  refine ⟨rfl, rfl, hstart, hend, ?_, ?_, ?_, ?_⟩
  · rw [hsum]
    norm_num
  · simp [rangeSumSqDev]
  · obtain ⟨r, d, hrd, hr, hd, -⟩ := group_norm_f32_sumsq_spec 32 5 (by norm_num)
      (fun _ => (1 : ℝ)) (fun _ => 0) 64 96 (nd_item.mk 0 0 1 1 2 1 32 0) none 32
      ⟨rfl, Or.inl rfl⟩
    rw [hstart, hend, hsum] at hd hr
    have hdj : ∀ j : Nat, 64 ≤ j → j < 96 → d (j : Int) = 1 / 2 := by
      intro j h1 h2
      rw [hd j h1 h2]
      norm_num
    refine ⟨r, d, hrd, hdj, ?_, ?_⟩
    · rw [Finset.sum_congr rfl (fun j hj => hdj j (Finset.mem_Ico.mp hj).1 (Finset.mem_Ico.mp hj).2)]
      simp
      norm_num
    · intro t ht
      rw [hr t ht, hsq]
      norm_num
  · obtain ⟨l, D, hl, hD, hv, -⟩ := group_norm_f32_sycl_spec 32 5 (by norm_num)
      (fun v : ℝ => 1 / Real.sqrt v) (fun _ => (1 : ℝ)) (fun _ => 0) 2 64 96 0
      (fun _ => 1024) 0 (by norm_num) (by norm_num)
    rw [group_norm_f32_sycl_launch_small 32 2 64 _ 0 (by norm_num)] at hl
    cases hl
    have hitem : (Launch.mk (1, 1, 2) (1, 1, 32) none 32).item (0, 0, 1)
        = nd_item.mk 0 0 1 1 2 1 32 0 := rfl
    refine ⟨D, ?_, ?_⟩
    · rw [ggml_sycl_op_group_norm_f32 _ _ _ _ _ _ _ _ rfl rfl]
      exact hD
    · intro j h1 h2
      have h := hv 1 j (by norm_num) (by omega) (by rw [hitem, hend]; exact h2)
      rw [hitem, hend] at h
      have h64 : (1 * 64 : Nat) = 64 := rfl
      rw [h64, hsum, hsq] at h
      rw [h]
      norm_num

/-- C19: over exact real arithmetic, for every row of `ncols >= 1` values and
every launch shape the dispatch can choose, the variance
`sumsq / ncols - (sum / ncols)^2` that every lane of `norm_f32` computes is
`>= 0`, and is 0 exactly when the row is constant; hence for `eps >= 0` the
argument `var + eps` of the reciprocal square root is `>= eps >= 0`. Every
`eps` with which `ggml_sycl_op_norm` returns a result satisfies `eps >= 0`. -/
theorem norm_f32_rsqrt_argument_nonneg (W k : Nat) (hW : W = 2 ^ k) (x : Mem ℝ) (ncols : Nat)
    (hncols : 0 < ncols) (stride_row stride_channel stride_sample : Int) (item_ct1 : nd_item)
    (s_sum : Option Nat) (block_size : Nat)
    (hshape : ValidShape W item_ct1.local_range2 block_size s_sum)
    (rsqrt : ℝ → ℝ) (ggml_type_size : ggml_type → Nat) (max_work_group_sizes : Nat → Nat)
    (device : Nat) (src0 dst : ggml_tensor ℝ) (eps : ℝ) :
    (∃ r,
      norm_f32_mean_var W x ncols stride_row stride_channel stride_sample item_ct1 s_sum
        block_size = some r ∧
      ∀ t, t < item_ct1.local_range2 →
        0 ≤ (r t).2 / (ncols : ℝ) - (r t).1 / (ncols : ℝ) * ((r t).1 / (ncols : ℝ)) ∧
        ((r t).2 / (ncols : ℝ) - (r t).1 / (ncols : ℝ) * ((r t).1 / (ncols : ℝ)) = 0 ↔
          ∀ c1 c2 : Nat, c1 < ncols → c2 < ncols →
            x (strided_offset stride_row stride_channel stride_sample item_ct1 + c1)
              = x (strided_offset stride_row stride_channel stride_sample item_ct1 + c2)) ∧
        (0 ≤ eps →
          eps ≤ (r t).2 / (ncols : ℝ) - (r t).1 / (ncols : ℝ) * ((r t).1 / (ncols : ℝ)) + eps ∧
          0 ≤ (r t).2 / (ncols : ℝ) - (r t).1 / (ncols : ℝ) * ((r t).1 / (ncols : ℝ)) + eps)) ∧
    (∀ D, ggml_sycl_op_norm W rsqrt ggml_type_size max_work_group_sizes device src0 dst eps
        = .ok D → 0 ≤ eps) := by
  constructor
  · obtain ⟨r, hr, hrt⟩ := norm_f32_mean_var_spec W k hW x ncols stride_row stride_channel
      stride_sample item_ct1 s_sum block_size hshape
    refine ⟨r, hr, fun t ht => ?_⟩
    have hv : (r t).2 / (ncols : ℝ) - (r t).1 / (ncols : ℝ) * ((r t).1 / (ncols : ℝ))
        = rowVar x (strided_offset stride_row stride_channel stride_sample item_ct1) ncols := by
      rw [hrt t ht]
      rfl
    rw [hv]
    have h0 := rowVar_nonneg x (strided_offset stride_row stride_channel stride_sample item_ct1)
      ncols hncols
    refine ⟨h0, rowVar_eq_zero_iff x _ ncols hncols, fun heps => ⟨by linarith, by linarith⟩⟩
  · intro D hD
    simp only [ggml_sycl_op_norm] at hD
    split_ifs at hD with h1 h2 h3 h4
    exact h3

/-- C19 witness: the row `[1, 2, 3, 4]` reduced by one warp of width 32, and
`eps = 1e-5`. -/
theorem norm_f32_rsqrt_argument_nonneg_witness :
    ∃ r, norm_f32_mean_var 32 (fun a => (a : ℝ) + 1) 4 4 4 4 ⟨0, 0, 0, 1, 1, 1, 32, 0⟩ none 32
        = some r ∧
      ∀ t, t < 32 →
        (1 : ℝ) / 100000
          ≤ (r t).2 / ((4 : Nat) : ℝ) - (r t).1 / ((4 : Nat) : ℝ) * ((r t).1 / ((4 : Nat) : ℝ))
            + 1 / 100000 := by
  obtain ⟨⟨r, hr, h⟩, -⟩ := norm_f32_rsqrt_argument_nonneg 32 5 (by norm_num)
    (fun a => (a : ℝ) + 1) 4 (by norm_num) 4 4 4 ⟨0, 0, 0, 1, 1, 1, 32, 0⟩ none 32
    ⟨rfl, Or.inl rfl⟩ (fun v => 1 / Real.sqrt v) (fun _ => 4) (fun _ => 1024) 0
    (ggml_tensor.mk ggml_type.GGML_TYPE_F32 4 1 1 1 4 16 16 16 (fun a => (a : ℝ) + 1))
    (ggml_tensor.mk ggml_type.GGML_TYPE_F32 4 1 1 1 4 16 16 16 (fun _ => 0)) (1 / 100000)
  exact ⟨r, hr, fun t ht => ((h t ht).2.2 (by norm_num)).1⟩

end SyclNorm
